import Mathlib

/-!
# Graph editor: data model and format codecs

A shallow embedding of the `Graph` class of `src/graph-editor.js`, followed by theorems on
its methods.

Modelling decisions:

* JS strings are lists of characters (`JStr`), that is of Unicode scalar values; the
  default `sort()` compares their UTF-16 code units.
* A JS `Map` is an insertion-ordered association list without duplicate keys (`JsMap`);
  `set` on an existing key keeps its position. A JS `Set` of strings is a duplicate-free
  list in insertion order.
* Number values are finite decimals or an infinity (`JsNum`); every binary64 value is one
  of them. `Number(s)` follows the grammar of numeric string literals and rounds the literal
  to binary64 (`Dec.round64`: nearest value, ties to even, infinities on overflow).
  `String(n)` prints an integer with all its digits and any other number with the shortest
  digits that convert back to it; this is the JS rendering except for integers from 2^53
  on, some of which JS abbreviates (exponent notation from 1e21 on). `NaN` is not an
  identity: no method of the class produces it as a node id, so `===` and `Map` key
  equality coincide on identities.
* The sum `maxId + 1` of `getNextNodeId` comes in two forms. `Binary64.getNextNodeId` and
  `Binary64.addNode` take the binary64 sum of the source. `Graph.getNextNodeId` and
  `Graph.addNode` take the exact sum; the two forms return the same number while the numeric
  identities are integers below 2^53 (`Binary64.getNextNodeId_eq`), and they differ only in
  the number chosen for an unlabelled node.
* Node coordinates are opaque payload, kept as integers; the circular layout that the
  parsers compute from the global `canvas` is a parameter (`Layout`).
* Methods that mutate the receiver become functions returning the new graph; `addNode`
  returns the id together with the new graph.
-/

set_option autoImplicit false

namespace GraphEditor

/-- JS string, as the list of its characters. -/
abbrev JStr := List Char

/-! ## Insertion-ordered maps -/

/-- JS `Map`: entries in insertion order, keys pairwise distinct. -/
structure JsMap (K V : Type) where
  entries : List (K × V)
  nodupKeys : (entries.map Prod.fst).Nodup

namespace JsMap

variable {K V : Type}

/-- The map `new Map()`. -/
def empty : JsMap K V := ⟨[], List.nodup_nil⟩

/-- Keys in insertion order (`map.keys()`). -/
def keys (m : JsMap K V) : List K := m.entries.map Prod.fst

/-- Values in insertion order (`map.values()`). -/
def values (m : JsMap K V) : List V := m.entries.map Prod.snd

/-- Number of entries (`map.size`). -/
def size (m : JsMap K V) : Nat := m.entries.length

variable [DecidableEq K]

/-- Membership test `map.has(k)`. -/
def has (m : JsMap K V) (k : K) : Bool := m.entries.any (fun p => decide (p.1 = k))

/-- Lookup `map.get(k)`; `none` stands for `undefined`. -/
def get (m : JsMap K V) (k : K) : Option V :=
  (m.entries.find? (fun p => decide (p.1 = k))).map Prod.snd

/-- Entry list after `map.set(k, v)`: an existing key keeps its position, a new key is appended. -/
def setEntries (k : K) (v : V) : List (K × V) → List (K × V)
  | [] => [(k, v)]
  | p :: ps => if p.1 = k then (k, v) :: ps else p :: setEntries k v ps

/-- Update `map.set(k, v)`. -/
def set (m : JsMap K V) (k : K) (v : V) : JsMap K V :=
  ⟨setEntries k v m.entries, by
    have key : ∀ l : List (K × V), (setEntries k v l).map Prod.fst
        = if k ∈ l.map Prod.fst then l.map Prod.fst else l.map Prod.fst ++ [k] := by
      intro l
      induction l with
      | nil => simp [setEntries]
      | cons p ps ih =>
        by_cases h : p.1 = k
        · simp [setEntries, h]
        · have h2 : ¬ k = p.1 := fun e => h e.symm
          simp only [setEntries, h, if_false, List.map_cons, ih, List.mem_cons, h2, false_or]
          split <;> simp
    rw [key]
    split
    · exact m.nodupKeys
    · next hk =>
      rw [List.nodup_append]
      refine ⟨m.nodupKeys, List.nodup_singleton k, ?_⟩
      intro a ha hb
      simp only [List.mem_singleton] at hb
      exact hk (hb ▸ ha)⟩

/-- Removal `map.delete(k)`. -/
def delete (m : JsMap K V) (k : K) : JsMap K V :=
  ⟨m.entries.filter (fun p => !decide (p.1 = k)),
    ((List.filter_sublist m.entries).map Prod.fst).nodup m.nodupKeys⟩

end JsMap

/-! ## Numbers and identities -/

/-- Finite number `mant / 10 ^ scale`. -/
structure Dec where
  mant : Int
  scale : Nat
deriving DecidableEq

namespace Dec

/-- Canonical form: trailing decimal zeros of the fraction are dropped. -/
def normalizeAux (m : Int) : Nat → Dec
  | 0 => ⟨m, 0⟩
  | s + 1 => if m % 10 = 0 then normalizeAux (m / 10) s else ⟨m, s + 1⟩

/-- Canonical form of a finite number. -/
def normalize (d : Dec) : Dec := normalizeAux d.mant d.scale

/-- The integer `z` as a number. -/
def ofInt (z : Int) : Dec := ⟨z, 0⟩

/-- Comparison `a > b`. -/
def gt (a b : Dec) : Bool := decide (b.mant * 10 ^ a.scale < a.mant * 10 ^ b.scale)

/-- Exact sum `a + 1`. -/
def addOne (a : Dec) : Dec := ⟨a.mant + 10 ^ a.scale, a.scale⟩

/-- The number `m * 10 ^ e` in canonical form. -/
def ofScientific (m : Int) (e : Int) : Dec :=
  match e with
  | Int.ofNat k => ⟨m * 10 ^ k, 0⟩
  | Int.negSucc k => normalize ⟨m, k + 1⟩

end Dec

/-- JS number other than `NaN`. -/
inductive JsNum where
  | negInf
  | fin (d : Dec)
  | posInf
deriving DecidableEq

namespace JsNum

/-- The integer `z` as a JS number. -/
def ofInt (z : Int) : JsNum := .fin (Dec.ofInt z)

/-- Comparison `a > b`. -/
def gt : JsNum → JsNum → Bool
  | .negInf, _ => false
  | .fin _, .negInf => true
  | .fin a, .fin b => a.gt b
  | .fin _, .posInf => false
  | .posInf, .posInf => false
  | .posInf, _ => true

/-- Exact sum `a + 1`. It is the sum of the source while the result is an integer of
magnitude at most `2 ^ 53`; `Binary64.addOne` is the binary64 sum in general. -/
def addOne : JsNum → JsNum
  | .negInf => .negInf
  | .fin a => .fin a.addOne
  | .posInf => .posInf

end JsNum

/-! ### Rounding to binary64 -/

namespace Dec

/-- Floor of the binary logarithm of `n` (0 for `n < 2`), by at most `fuel` halvings. -/
def log2Aux : Nat → Nat → Nat
  | 0, _ => 0
  | fuel + 1, n => if n < 2 then 0 else log2Aux fuel (n / 2) + 1

/-- Floor of the binary logarithm of `n` (0 for `n < 2`). -/
def log2 (n : Nat) : Nat := log2Aux n n

/-- Binary exponent of the positive fraction `p / q`: the integer `E` with
`2 ^ E ≤ p / q < 2 ^ (E + 1)`. -/
def binExp (p q : Nat) : Int :=
  if q ≤ p then (log2 (p / q) : Int)
  else if q ≤ p * 2 ^ log2 (q / p) then -(log2 (q / p) : Int)
  else -(log2 (q / p) : Int) - 1

/-- Nearest integer to `num / den`, ties to the even one. -/
def roundHalfEven (num den : Nat) : Nat :=
  if 2 * (num % den) < den then num / den
  else if den < 2 * (num % den) then num / den + 1
  else if (num / den) % 2 = 0 then num / den
  else num / den + 1

/-- The overflow bound `2 ^ 1024` of binary64, as a product of smaller powers. -/
def overflowBound : Nat := 2 ^ 256 * 2 ^ 256 * 2 ^ 256 * 2 ^ 256

/-- Binary64 value nearest to the positive fraction `p / q`, ties to even: 53 significant
bits, least exponent -1074; `none` when the fraction or its rounded value reaches
`2 ^ 1024` (overflow). -/
def roundPos (p q : Nat) : Option Dec :=
  if 1024 ≤ binExp p q then none
  else
    let e : Int := max (binExp p q - 52) (-1074)
    let n := roundHalfEven (p * 2 ^ (-e).toNat) (q * 2 ^ e.toNat)
    if overflowBound ≤ n * 2 ^ e.toNat then none
    else some (normalize ⟨((n * 2 ^ e.toNat * 5 ^ (-e).toNat : Nat) : Int), (-e).toNat⟩)

/-- Binary64 value of the exact decimal `d`: an integer of magnitude at most `2 ^ 53` is a
binary64 value; any other number is rounded to the nearest binary64 value, ties to even,
and to an infinity on overflow. -/
def round64 (d : Dec) : JsNum :=
  if (normalize d).scale = 0 ∧ (normalize d).mant.natAbs ≤ 2 ^ 53 then .fin (normalize d)
  else
    match roundPos (normalize d).mant.natAbs (10 ^ (normalize d).scale) with
    | none => if (normalize d).mant < 0 then .negInf else .posInf
    | some r => .fin ⟨(if (normalize d).mant < 0 then -1 else 1) * r.mant, r.scale⟩

/-- The decimal `s * 10 ^ t`. -/
def scaled10 (s : Nat) (t : Int) : Dec := ⟨((s * 10 ^ t.toNat : Nat) : Int), (-t).toNat⟩

/-- Search of `Number::toString`: for the digit counts `k, k + 1, ...` (at most `fuel` of
them), the first count for which some integer `s` makes `s * 10 ^ (n - k)` round to the
positive number `d`, with the `s` nearest to `d` (the even one on a tie). Returns `(s, k)`;
17 digits always suffice for a binary64 value, the exact digits are the fallback. -/
def shortestAux (d : Dec) (n : Int) : Nat → Nat → Nat × Nat
  | 0, _ => (d.mant.natAbs, (Nat.toDigits 10 d.mant.natAbs).length)
  | fuel + 1, k =>
    let num := d.mant.natAbs * 10 ^ ((k : Int) - n - d.scale).toNat
    let den := 10 ^ (n + d.scale - (k : Int)).toNat
    let lo := num / den
    let hi := lo + 1
    let okLo := decide (round64 (scaled10 lo (n - k)) = .fin d)
    let okHi := decide (round64 (scaled10 hi (n - k)) = .fin d)
    if okLo && okHi then
      (if 2 * (num % den) < den then lo
        else if den < 2 * (num % den) then hi
        else if lo % 2 = 0 then lo else hi, k)
    else if okLo then (lo, k)
    else if okHi then (hi, k)
    else shortestAux d n fuel (k + 1)

/-- Drop the trailing zeros of a digit string, keeping at least one digit. -/
def stripZeros (ds : JStr) : JStr :=
  match ds.reverse.dropWhile (fun c => c = '0') with
  | [] => ['0']
  | r => r.reverse

/-- Layout of `Number::toString` for the digits `ds` and the decimal point position `n`
(the value is `0.ds * 10 ^ n`). -/
def layout (ds : JStr) (n : Int) : JStr :=
  if (ds.length : Int) ≤ n ∧ n ≤ 21 then ds ++ List.replicate (n.toNat - ds.length) '0'
  else if 0 < n ∧ n ≤ 21 then ds.take n.toNat ++ ['.'] ++ ds.drop n.toNat
  else if -6 < n ∧ n ≤ 0 then ['0', '.'] ++ List.replicate (-n).toNat '0' ++ ds
  else
    ds.take 1 ++ (if 1 < ds.length then '.' :: ds.drop 1 else [])
      ++ ['e', if n - 1 < 0 then '-' else '+'] ++ Nat.toDigits 10 (n - 1).natAbs

/-- Conversion `String(n)` of a finite number. An integer is written with all its digits:
this is what JS prints for integers of magnitude below `2 ^ 53`; from there on JS keeps the
shortest digits only and switches to exponent notation at 1e21. Any other number is written
with the shortest digit string that converts back to it, in positional notation or, below
1e-6, in exponent notation. -/
def toJStr (d : Dec) : JStr :=
  let n := normalize d
  let digits := Nat.toDigits 10 n.mant.natAbs
  let sign : JStr := if n.mant < 0 then ['-'] else []
  if n.scale = 0 then sign ++ digits
  else
    let point : Int := (digits.length : Int) - n.scale
    let sk := shortestAux ⟨n.mant.natAbs, n.scale⟩ point 17 1
    let ds := Nat.toDigits 10 sk.1
    sign ++ layout (stripZeros ds) (point + ((ds.length : Int) - sk.2))

end Dec

/-- Conversion `String(n)`. -/
def JsNum.toJStr : JsNum → JStr
  | .negInf => "-Infinity".toList
  | .fin d => d.toJStr
  | .posInf => "Infinity".toList

/-- The binary64 sum `a + 1`: the exact sum rounded to the nearest binary64 value. -/
def Binary64.addOne : JsNum → JsNum
  | .negInf => .negInf
  | .fin a => a.addOne.round64
  | .posInf => .posInf

/-- Node identity: a number or a string label. Equality is that of `Map` keys. -/
inductive Ident where
  | num (n : JsNum)
  | str (s : JStr)
deriving DecidableEq

/-- The integer identity `z`. -/
def Ident.int (z : Int) : Ident := .num (JsNum.ofInt z)

/-- Conversion `String(id)`, also used by template literals. -/
def jsString : Ident → JStr
  | .num n => n.toJStr
  | .str s => s

/-! ## String primitives -/

/-- Characters matched by the regular expression class `\s` and stripped by `trim()`:
the ECMAScript WhiteSpace and LineTerminator code points. -/
def isWs (c : Char) : Bool :=
  let n := c.toNat
  n == 9 || n == 10 || n == 11 || n == 12 || n == 13 || n == 32 || n == 160 || n == 0x1680
    || (0x2000 ≤ n && n ≤ 0x200A) || n == 0x2028 || n == 0x2029 || n == 0x202F
    || n == 0x205F || n == 0x3000 || n == 0xFEFF

/-- String method `trim()`. -/
def trim (s : JStr) : JStr := ((s.dropWhile isWs).reverse.dropWhile isWs).reverse

/-- String method `split(c)` for a one-character separator `c`. -/
def splitChar (c : Char) : JStr → List JStr
  | [] => [[]]
  | x :: xs =>
    if x = c then [] :: splitChar c xs
    else
      match splitChar c xs with
      | [] => [[x]]
      | l :: ls => (x :: l) :: ls

/-- Test whether the string starts with a whitespace character. -/
def startsWs : JStr → Bool
  | [] => false
  | y :: _ => isWs y

/-- String method `split(/\s+/)`: the pieces between maximal runs of whitespace. -/
def splitWs : JStr → List JStr
  | [] => [[]]
  | x :: xs =>
    if isWs x then
      if startsWs xs then splitWs xs else [] :: splitWs xs
    else
      match splitWs xs with
      | [] => [[x]]
      | l :: ls => (x :: l) :: ls

/-- Array method `join(sep)` on an array of strings. -/
def join (sep : JStr) : List JStr → JStr
  | [] => []
  | [s] => s
  | s :: t :: rest => s ++ sep ++ join sep (t :: rest)

/-! ## Conversion of strings to numbers -/

/-- Value of a digit character in the given base (2, 8, 10 or 16). -/
def digitVal (base : Nat) (c : Char) : Option Nat :=
  let n := c.toNat
  let v : Option Nat :=
    if 48 ≤ n ∧ n ≤ 57 then some (n - 48)
    else if 97 ≤ n ∧ n ≤ 102 then some (n - 87)
    else if 65 ≤ n ∧ n ≤ 70 then some (n - 55)
    else none
  match v with
  | some d => if d < base then some d else none
  | none => none

/-- Value of a non-empty digit string in the given base, read left to right from `acc`. -/
def readDigits (base : Nat) : Nat → JStr → Option Nat
  | acc, [] => some acc
  | acc, c :: cs =>
    match digitVal base c with
    | some d => readDigits base (acc * base + d) cs
    | none => none

/-- Value of a digit string that must be non-empty. -/
def readNat (base : Nat) (s : JStr) : Option Nat :=
  if s = [] then none else readDigits base 0 s

/-- Optional sign: the factor it denotes and the rest of the string. -/
def readSign : JStr → Int × JStr
  | '+' :: r => (1, r)
  | '-' :: r => (-1, r)
  | r => (1, r)

/-- Exponent part of a decimal literal: empty, or `e`/`E`, optional sign, digits. -/
def readExponent : JStr → Option Int
  | [] => some 0
  | c :: r =>
    if c = 'e' ∨ c = 'E' then
      match readNat 10 (readSign r).2 with
      | some k => some ((readSign r).1 * (k : Int))
      | none => none
    else none

/-- Unsigned decimal literal `digits[.digits][exponent]` or `.digits[exponent]`. -/
def readUnsignedDecimal (s : JStr) : Option Dec :=
  let ip := s.takeWhile (fun c => (digitVal 10 c).isSome)
  let r1 := s.dropWhile (fun c => (digitVal 10 c).isSome)
  let fp := match r1 with
    | '.' :: t => t.takeWhile (fun c => (digitVal 10 c).isSome)
    | _ => []
  let r2 := match r1 with
    | '.' :: t => t.dropWhile (fun c => (digitVal 10 c).isSome)
    | _ => r1
  if ip = [] ∧ fp = [] then none
  else
    match readDigits 10 0 (ip ++ fp), readExponent r2 with
    | some m, some e => some (Dec.ofScientific (m : Int) (e - (fp.length : Int)))
    | _, _ => none

/-- Signed decimal literal, including the infinities: the binary64 value of the literal. -/
def readDecimal (s : JStr) : Option JsNum :=
  let sg := (readSign s).1
  let r := (readSign s).2
  if r = "Infinity".toList then some (if sg = 1 then .posInf else .negInf)
  else
    match readUnsignedDecimal r with
    | some d => some (Dec.round64 ⟨sg * d.mant, d.scale⟩)
    | none => none

/-- Conversion `Number(s)` of a string: the binary64 value nearest to the literal, an
infinity on overflow; `none` stands for `NaN`. -/
def stringToNumber (s : JStr) : Option JsNum :=
  match trim s with
  | [] => some (JsNum.ofInt 0)
  | '0' :: c :: r =>
    if c = 'x' ∨ c = 'X' then (readNat 16 r).map (fun n => Dec.round64 (Dec.ofInt n))
    else if c = 'o' ∨ c = 'O' then (readNat 8 r).map (fun n => Dec.round64 (Dec.ofInt n))
    else if c = 'b' ∨ c = 'B' then (readNat 2 r).map (fun n => Dec.round64 (Dec.ofInt n))
    else readDecimal ('0' :: c :: r)
  | t => readDecimal t

/-- Conversion `Number(id)`; `none` stands for `NaN`. -/
def jsNumber : Ident → Option JsNum
  | .num n => some n
  | .str s => stringToNumber s

/-! ## The graph -/

/-- Node record stored in `nodes`. Coordinates and velocities are opaque payload for the
graph operations; they are kept as integers. -/
structure Node where
  id : Ident
  x : Int
  y : Int
  vx : Int
  vy : Int
  label : JStr
deriving DecidableEq

/-- Edge record stored in `edges` (fields `from` and `to` of the source). -/
structure Edge where
  from_ : Ident
  to_ : Ident
deriving DecidableEq

/-- State of a `Graph` object. -/
structure Graph where
  nodes : JsMap Ident Node
  edges : JsMap JStr Edge
  directed : Bool

/-- Position function standing for the circular layout computed from the canvas size:
`layout index total` is the pair `(x, y)`. -/
abbrev Layout := Nat → Nat → Int × Int

/-- Composite key of the template literal that joins two identities with a dash. -/
def edgeKey (a b : Ident) : JStr := jsString a ++ ['-'] ++ jsString b

namespace Graph

/-- The constructor: no nodes, no edges, undirected. -/
def new : Graph := ⟨JsMap.empty, JsMap.empty, false⟩

/-- One iteration of the loop of `getNextNodeId`. -/
def maxIdStep (maxId : JsNum) (nodeId : Ident) : JsNum :=
  match jsNumber nodeId with
  | some numId => if numId.gt maxId then numId else maxId
  | none => maxId

/-- Method `getNextNodeId()` with the sum `maxId + 1` taken exactly: the value of the method
while the sum is an integer of magnitude at most `2 ^ 53`, as in every run that numbers its
nodes from 1. `Binary64.getNextNodeId` is the method with the binary64 sum. -/
def getNextNodeId (g : Graph) : JsNum :=
  if g.nodes.size = 0 then JsNum.ofInt 1
  else (g.nodes.keys.foldl maxIdStep (JsNum.ofInt 0)).addOne

/-- Method `addNode(x, y, label = null)`: the returned id and the new state. The default id
is `getNextNodeId` with the exact sum; `Binary64.addNode` takes the binary64 sum. -/
def addNode (g : Graph) (x y : Int) (label : Option Ident) : Ident × Graph :=
  let id : Ident := match label with
    | some l => l
    | none => .num g.getNextNodeId
  if !g.nodes.has id then
    (id, { g with nodes := g.nodes.set id ⟨id, x, y, 0, 0, jsString id⟩ })
  else (id, g)

/-- Method `removeNode(id)`. -/
def removeNode (g : Graph) (id : Ident) : Graph :=
  let nodes := g.nodes.delete id
  let edgesToRemove :=
    (g.edges.entries.filter (fun p => decide (p.2.from_ = id) || decide (p.2.to_ = id))).map Prod.fst
  { g with nodes := nodes, edges := edgesToRemove.foldl (fun m key => m.delete key) g.edges }

/-- Method `addEdge(from, to)`. -/
def addEdge (g : Graph) (from_ to_ : Ident) : Graph :=
  if !g.nodes.has from_ || !g.nodes.has to_ then g
  else
    let key1 := edgeKey from_ to_
    let key2 := edgeKey to_ from_
    if g.directed then { g with edges := g.edges.set key1 ⟨from_, to_⟩ }
    else if !g.edges.has key1 && !g.edges.has key2 then
      { g with edges := g.edges.set key1 ⟨from_, to_⟩ }
    else g

/-- Method `hasEdge(from, to)`. -/
def hasEdge (g : Graph) (from_ to_ : Ident) : Bool :=
  let key1 := edgeKey from_ to_
  let key2 := edgeKey to_ from_
  g.edges.has key1 || (!g.directed && g.edges.has key2)

/-- Method `clear()`. -/
def clear (g : Graph) : Graph := { g with nodes := JsMap.empty, edges := JsMap.empty }

/-- Assignment to the field `directed` (the checkbox handler). -/
def setDirected (g : Graph) (d : Bool) : Graph := { g with directed := d }

/-- Direct deletion of an edge key, as done by the context-menu handler. -/
def deleteEdgeKey (g : Graph) (key : JStr) : Graph := { g with edges := g.edges.delete key }

/-- Insertion into a JS `Set` of strings kept in insertion order. -/
def setAdd (set : List JStr) (x : JStr) : List JStr := if x ∈ set then set else set ++ [x]

/-- The loop that places the discovered nodes: `addNode(x, y, nodeId)` for each array element
with its index. -/
def addNodesFrom (layout : Layout) (total : Nat) : Nat → List Ident → Graph → Graph
  | _, [], g => g
  | index, nodeId :: rest, g =>
    addNodesFrom layout total (index + 1) rest
      (g.addNode (layout index total).1 (layout index total).2 (some nodeId)).2

/-- Body of the first loop of `parseEdgeList`: the node discovery for one line. -/
def edgeListNodeStep (set : List JStr) (line : JStr) : List JStr :=
  match splitWs (trim line) with
  | from_ :: to_ :: _ => setAdd (setAdd set from_) to_
  | _ => set

/-- Body of the last loop of `parseEdgeList`: the edge of one line. -/
def edgeListEdgeStep (g : Graph) (line : JStr) : Graph :=
  match splitWs (trim line) with
  | from_ :: to_ :: _ => g.addEdge (.str from_) (.str to_)
  | _ => g

/-- Method `parseEdgeList(text)`. -/
def parseEdgeList (layout : Layout) (g : Graph) (text : JStr) : Graph :=
  let g0 := g.clear
  let lines := splitChar '\n' (trim text)
  let nodeSet := lines.foldl edgeListNodeStep []
  let g1 := addNodesFrom layout nodeSet.length 0 (nodeSet.map Ident.str) g0
  lines.foldl edgeListEdgeStep g1

/-- Neighbour tokens of an adjacency-list line: the second colon-separated part, trimmed,
split on whitespace, empty tokens dropped. -/
def neighborTokens (part : JStr) : List JStr :=
  (splitWs (trim part)).filter (fun n => decide (n.length > 0))

/-- Body of the first loop of `parseAdjacencyList`: the node discovery for one line. -/
def adjListNodeStep (set : List JStr) (line : JStr) : List JStr :=
  match splitChar ':' line with
  | [] => set
  | [p0] => setAdd set (trim p0)
  | p0 :: p1 :: _ => (neighborTokens p1).foldl setAdd (setAdd set (trim p0))

/-- Body of the last loop of `parseAdjacencyList`: the edges of one line. -/
def adjListEdgeStep (g : Graph) (line : JStr) : Graph :=
  match splitChar ':' line with
  | p0 :: p1 :: _ =>
    (neighborTokens p1).foldl (fun g to_ => g.addEdge (.str (trim p0)) (.str to_)) g
  | _ => g

/-- Method `parseAdjacencyList(text)`. -/
def parseAdjacencyList (layout : Layout) (g : Graph) (text : JStr) : Graph :=
  let g0 := g.clear
  let lines := splitChar '\n' (trim text)
  let nodeSet := lines.foldl adjListNodeStep []
  let g1 := addNodesFrom layout nodeSet.length 0 (nodeSet.map Ident.str) g0
  lines.foldl adjListEdgeStep g1

/-- Inner loop of `parseAdjacencyMatrix`: cells `j, j + 1, ...` of row `i`. -/
def addRowEdges (n i : Nat) : Nat → List JStr → Graph → Graph
  | _, [], g => g
  | j, cell :: rest, g =>
    if j < n then
      addRowEdges n i (j + 1) rest
        (if cell ≠ ['0'] then g.addEdge (Ident.int i) (Ident.int j) else g)
    else g

/-- Outer loop of `parseAdjacencyMatrix`: rows `i, i + 1, ...`. -/
def addMatrixEdges (n : Nat) : Nat → List JStr → Graph → Graph
  | _, [], g => g
  | i, line :: rest, g =>
    addMatrixEdges n (i + 1) rest (addRowEdges n i 0 (splitWs (trim line)) g)

/-- Method `parseAdjacencyMatrix(text)`. -/
def parseAdjacencyMatrix (layout : Layout) (g : Graph) (text : JStr) : Graph :=
  let g0 := g.clear
  let lines := (splitChar '\n' (trim text)).filter (fun l => decide ((trim l).length > 0))
  let n := lines.length
  let g1 := addNodesFrom layout n 0 ((List.range n).map (fun i => Ident.int i)) g0
  addMatrixEdges n 0 lines g1

/-- Method `exportEdgeList()`. -/
def exportEdgeList (g : Graph) : JStr :=
  join ['\n'] (g.edges.values.map (fun edge => jsString edge.from_ ++ [' '] ++ jsString edge.to_))

/-- The statement pair `if (!adjList.has(k)) adjList.set(k, []); adjList.get(k).push(v)`. -/
def pushNeighbor (adjList : JsMap Ident (List Ident)) (k v : Ident) : JsMap Ident (List Ident) :=
  let adjList1 := if !adjList.has k then adjList.set k [] else adjList
  adjList1.set k ((adjList1.get k).getD [] ++ [v])

/-- Body of the edge loop of `exportAdjacencyList`. -/
def adjListStep (directed : Bool) (adjList : JsMap Ident (List Ident)) (edge : Edge) :
    JsMap Ident (List Ident) :=
  let adjList1 := pushNeighbor adjList edge.from_ edge.to_
  if !directed then pushNeighbor adjList1 edge.to_ edge.from_ else adjList1

/-- The map `adjList` built by `exportAdjacencyList`. -/
def buildAdjList (g : Graph) : JsMap Ident (List Ident) :=
  let adjList0 := g.nodes.keys.foldl (fun m nodeId => m.set nodeId []) JsMap.empty
  g.edges.values.foldl (adjListStep g.directed) adjList0

/-- Method `exportAdjacencyList()`. -/
def exportAdjacencyList (g : Graph) : JStr :=
  join ['\n'] (g.buildAdjList.entries.map (fun p =>
    jsString p.1 ++ [':', ' '] ++ join [' '] (p.2.map jsString)))

/-- UTF-16 code units of a character: one unit on the Basic Multilingual Plane, a
surrogate pair above it. -/
def utf16 (c : Char) : List Nat :=
  if c.toNat < 0x10000 then [c.toNat]
  else [0xD800 + (c.toNat - 0x10000) / 0x400, 0xDC00 + (c.toNat - 0x10000) % 0x400]

/-- Lexicographic order on sequences of code units. -/
def codeUnitsLt : List Nat → List Nat → Bool
  | [], [] => false
  | [], _ :: _ => true
  | _ :: _, [] => false
  | a :: as, b :: bs => decide (a < b) || (decide (a = b) && codeUnitsLt as bs)

/-- Order on strings by UTF-16 code units, the comparison used by the default `sort()`. -/
def jsStrLt (a b : JStr) : Bool := codeUnitsLt (a.flatMap utf16) (b.flatMap utf16)

/-- Insertion of `x` after every element that does not sort after it. -/
def insertSorted (x : Ident) : List Ident → List Ident
  | [] => [x]
  | y :: ys =>
    if jsStrLt (jsString x) (jsString y) then x :: y :: ys else y :: insertSorted x ys

/-- Array method `sort()` without comparator: a stable sort of the elements by their string
conversions. -/
def sortDefault (l : List Ident) : List Ident :=
  l.foldl (fun acc x => insertSorted x acc) []

/-- The statement `matrix[i][j] = 1`. -/
def setCell (matrix : List (List Nat)) (i j : Nat) : List (List Nat) :=
  matrix.set i ((matrix.getD i []).set j 1)

/-- The map `idToIndex` built by `nodeIds.forEach((id, index) => idToIndex.set(id, index))`. -/
def buildIdToIndex : Nat → List Ident → JsMap Ident Nat → JsMap Ident Nat
  | _, [], m => m
  | index, id :: rest, m => buildIdToIndex (index + 1) rest (m.set id index)

/-- Body of the edge loop of `exportAdjacencyMatrix`. -/
def matrixStep (directed : Bool) (idToIndex : JsMap Ident Nat) (matrix : List (List Nat))
    (edge : Edge) : List (List Nat) :=
  match idToIndex.get edge.from_, idToIndex.get edge.to_ with
  | some i, some j =>
    let matrix1 := setCell matrix i j
    if !directed then setCell matrix1 j i else matrix1
  | _, _ => matrix

/-- The array `matrix` built by `exportAdjacencyMatrix`. -/
def buildMatrix (g : Graph) : List (List Nat) :=
  let nodeIds := sortDefault g.nodes.keys
  let n := nodeIds.length
  let matrix := List.replicate n (List.replicate n 0)
  let idToIndex := buildIdToIndex 0 nodeIds JsMap.empty
  g.edges.values.foldl (matrixStep g.directed idToIndex) matrix

/-- Method `exportAdjacencyMatrix()`. -/
def exportAdjacencyMatrix (g : Graph) : JStr :=
  join ['\n'] (g.buildMatrix.map (fun row => join [' '] (row.map (fun c => Nat.toDigits 10 c))))

end Graph

/-! ## Default numbering in binary64 -/

namespace Binary64

/-- Method `getNextNodeId()`, the sum `maxId + 1` being the binary64 sum of the source. -/
def getNextNodeId (g : Graph) : JsNum :=
  if g.nodes.size = 0 then JsNum.ofInt 1
  else addOne (g.nodes.keys.foldl Graph.maxIdStep (JsNum.ofInt 0))

/-- Method `addNode(x, y, label = null)` with the default id of `Binary64.getNextNodeId`:
the returned id and the new state. -/
def addNode (g : Graph) (x y : Int) (label : Option Ident) : Ident × Graph :=
  let id : Ident := match label with
    | some l => l
    | none => .num (getNextNodeId g)
  if !g.nodes.has id then
    (id, { g with nodes := g.nodes.set id ⟨id, x, y, 0, 0, jsString id⟩ })
  else (id, g)

end Binary64

/-! ## Reachable states -/

/-- Graph states obtained from a fresh graph by the methods of the class, by assignments to
`directed`, and by the direct key deletions of the context-menu handler. -/
inductive Reachable : Graph → Prop where
  | new : Reachable Graph.new
  | addNode (g : Graph) (x y : Int) (label : Option Ident) :
      Reachable g → Reachable (g.addNode x y label).2
  | removeNode (g : Graph) (id : Ident) : Reachable g → Reachable (g.removeNode id)
  | addEdge (g : Graph) (a b : Ident) : Reachable g → Reachable (g.addEdge a b)
  | clear (g : Graph) : Reachable g → Reachable g.clear
  | setDirected (g : Graph) (d : Bool) : Reachable g → Reachable (g.setDirected d)
  | deleteEdgeKey (g : Graph) (key : JStr) : Reachable g → Reachable (g.deleteEdgeKey key)
  | parseEdgeList (layout : Layout) (g : Graph) (text : JStr) :
      Reachable g → Reachable (g.parseEdgeList layout text)
  | parseAdjacencyList (layout : Layout) (g : Graph) (text : JStr) :
      Reachable g → Reachable (g.parseAdjacencyList layout text)
  | parseAdjacencyMatrix (layout : Layout) (g : Graph) (text : JStr) :
      Reachable g → Reachable (g.parseAdjacencyMatrix layout text)

/-- Graph states obtained from a fresh (undirected) graph by `addNode`, `addEdge` and
`removeNode` alone, so that the mode is never changed. -/
inductive UndirectedRun : Graph → Prop where
  | new : UndirectedRun Graph.new
  | addNode (g : Graph) (x y : Int) (label : Option Ident) :
      UndirectedRun g → UndirectedRun (g.addNode x y label).2
  | removeNode (g : Graph) (id : Ident) : UndirectedRun g → UndirectedRun (g.removeNode id)
  | addEdge (g : Graph) (a b : Ident) : UndirectedRun g → UndirectedRun (g.addEdge a b)

/-- Every entry of `edges` is stored under the composite key of its own endpoints. -/
def KeysConsistent (g : Graph) : Prop :=
  ∀ p ∈ g.edges.entries, p.1 = edgeKey p.2.from_ p.2.to_

/-- The edge with the endpoints exchanged. -/
def Edge.reverse (e : Edge) : Edge := ⟨e.to_, e.from_⟩

/-- The sample graph of the cascade-delete scenario: nodes 1, 2, 3 created by `addNode`
without label, edges (1,2) and (2,3). -/
def sampleChain : Graph :=
  (((((Graph.new.addNode 0 0 none).2.addNode 0 0 none).2.addNode 0 0 none).2.addEdge
    (Ident.int 1) (Ident.int 2)).addEdge (Ident.int 2) (Ident.int 3))

/-- Entry `M[i][j]` of a matrix given as an array of rows (0 outside the matrix). -/
def cell (matrix : List (List Nat)) (i j : Nat) : Nat := (matrix.getD i []).getD j 0

/-- The matrix has `n` rows of `n` cells. -/
def IsSquare (n : Nat) (matrix : List (List Nat)) : Prop :=
  matrix.length = n ∧ ∀ row ∈ matrix, row.length = n

/-- The graph of the key-collision scenarios: nodes 1 and 2 created without label, then
nodes with the string labels "1" and "2". -/
def mixedNodes : Graph :=
  ((((Graph.new.addNode 0 0 none).2.addNode 0 0 none).2.addNode 0 0
    (some (.str ['1']))).2.addNode 0 0 (some (.str ['2']))).2

/-- The graph with the string-labelled nodes "a-b", "c", "a", "b-c" and no edge. -/
def dashNodes : Graph :=
  ((((Graph.new.addNode 0 0 (some (.str ['a', '-', 'b']))).2.addNode 0 0
    (some (.str ['c']))).2.addNode 0 0 (some (.str ['a']))).2.addNode 0 0
    (some (.str ['b', '-', 'c']))).2

/-- Undirected graph on `dashNodes` with the single edge ("a-b", "c"). -/
def dashUndirected : Graph := dashNodes.addEdge (.str ['a', '-', 'b']) (.str ['c'])

/-- Directed graph on `dashNodes` with the single edge ("a-b", "c"). -/
def dashDirected : Graph :=
  (dashNodes.setDirected true).addEdge (.str ['a', '-', 'b']) (.str ['c'])

/-- Undirected collision scenario: `mixedNodes` with the edge between the numbers 1 and 2. -/
def collideUndirected : Graph := mixedNodes.addEdge (Ident.int 1) (Ident.int 2)

/-- Directed collision scenario: `mixedNodes` in directed mode with the edge from the
number 1 to the number 2. -/
def collideDirected : Graph := (mixedNodes.setDirected true).addEdge (Ident.int 1) (Ident.int 2)

/-- Two string-labelled nodes "a" and "b" and no edge, in undirected mode. -/
def twoNodes : Graph :=
  ((Graph.new.addNode 0 0 (some (.str ['a']))).2.addNode 0 0 (some (.str ['b']))).2

/-- Exact value of a finite number. -/
def Dec.toRat (d : Dec) : ℚ := (d.mant : ℚ) / 10 ^ d.scale

/-- Fresh graph with the single node labelled "2.5". -/
def fractionLabel : Graph := (Graph.new.addNode 0 0 (some (.str ['2', '.', '5']))).2

/-- Token that survives whitespace splitting unchanged: non-empty and free of whitespace. -/
def CleanToken (s : JStr) : Prop := s ≠ [] ∧ ∀ c ∈ s, isWs c = false

/-- Adjacency-matrix text of the failing round trip: 11 rows of 11 cells, all "0" except the
first cell of the last row. -/
def matrixText11 : JStr :=
  ("0 0 0 0 0 0 0 0 0 0 0\n0 0 0 0 0 0 0 0 0 0 0\n0 0 0 0 0 0 0 0 0 0 0\n" ++
   "0 0 0 0 0 0 0 0 0 0 0\n0 0 0 0 0 0 0 0 0 0 0\n0 0 0 0 0 0 0 0 0 0 0\n" ++
   "0 0 0 0 0 0 0 0 0 0 0\n0 0 0 0 0 0 0 0 0 0 0\n0 0 0 0 0 0 0 0 0 0 0\n" ++
   "0 0 0 0 0 0 0 0 0 0 0\n1 0 0 0 0 0 0 0 0 0 0").toList

/-- Text exported after parsing `matrixText11` in directed mode: the "1" sits in the first
cell of the third row. -/
def matrixExport11 : JStr :=
  ("0 0 0 0 0 0 0 0 0 0 0\n0 0 0 0 0 0 0 0 0 0 0\n1 0 0 0 0 0 0 0 0 0 0\n" ++
   "0 0 0 0 0 0 0 0 0 0 0\n0 0 0 0 0 0 0 0 0 0 0\n0 0 0 0 0 0 0 0 0 0 0\n" ++
   "0 0 0 0 0 0 0 0 0 0 0\n0 0 0 0 0 0 0 0 0 0 0\n0 0 0 0 0 0 0 0 0 0 0\n" ++
   "0 0 0 0 0 0 0 0 0 0 0\n0 0 0 0 0 0 0 0 0 0 0").toList

/-- Graph obtained by parsing `matrixText11` into a fresh graph switched to directed mode. -/
def matrixGraph11 : Graph :=
  (Graph.new.setDirected true).parseAdjacencyMatrix (fun _ _ => (0, 0)) matrixText11

/-- No stored edge has the reverse composite key of an edge stored before it. Every state
whose edges were all added in undirected mode has this property. -/
def NoReverseBlock (g : Graph) : Prop :=
  g.edges.entries.Pairwise (fun p q => edgeKey q.2.to_ q.2.from_ ≠ p.1)

/-- Line written by `exportEdgeList` for one edge. -/
def edgeLine (e : Edge) : JStr := jsString e.from_ ++ [' '] ++ jsString e.to_

/-- Layout that places every node at the origin. -/
def originLayout : Layout := fun _ _ => (0, 0)

/-- Graph obtained by parsing the adjacency-list text ": x" into a fresh graph: the nodes
are the empty string and "x", joined by one edge. -/
def emptyLabelGraph : Graph := Graph.new.parseAdjacencyList originLayout [':', ' ', 'x']

/-- Graph obtained by parsing the adjacency-list text "a b: c" into a fresh graph: the
nodes are "a b" and "c", joined by one edge. -/
def spacedLabelGraph : Graph :=
  Graph.new.parseAdjacencyList originLayout ['a', ' ', 'b', ':', ' ', 'c']

/-- Graph with nodes "a", "b" whose edges (a, b) and (b, a) were added in directed mode
before the mode was switched back to undirected. -/
def flippedGraph : Graph :=
  (((twoNodes.setDirected true).addEdge (.str ['a']) (.str ['b'])).addEdge (.str ['b'])
    (.str ['a'])).setDirected false

/-- Undirected graph with nodes "a", "b" and the edge (a, b). -/
def oneEdge : Graph := twoNodes.addEdge (.str ['a']) (.str ['b'])

/-- Label that survives the adjacency-list format: non-empty, free of whitespace and of the
colon. -/
def CleanLabel (s : JStr) : Prop := s ≠ [] ∧ ∀ c ∈ s, isWs c = false ∧ c ≠ ':'

/-- Line written by `exportAdjacencyList` for a node label and its neighbour labels. -/
def adjLine (r : JStr × List JStr) : JStr := r.1 ++ [':', ' '] ++ join [' '] r.2

/-- What `parseAdjacencyList` reads from one line: the trimmed first colon-separated part
and the neighbour tokens of the second part (none when there is no second part). -/
def lineSem (line : JStr) : JStr × List JStr :=
  match splitChar ':' line with
  | p0 :: p1 :: _ => (trim p0, Graph.neighborTokens p1)
  | [p0] => (trim p0, [])
  | [] => ([], [])

/-- The pushes made by `exportAdjacencyList`, as pairs (node, neighbour) in the order of
the edge loop: one per edge in directed mode, two in undirected mode. -/
def pushesOf (directed : Bool) (es : List Edge) : List (Ident × Ident) :=
  es.flatMap (fun e =>
    if directed then [(e.from_, e.to_)] else [(e.from_, e.to_), (e.to_, e.from_)])

/-- The neighbours pushed for node `k`, in order. -/
def nbrs (ps : List (Ident × Ident)) (k : Ident) : List Ident :=
  (ps.filter (fun p => decide (p.1 = k))).map Prod.snd

/-- The calls `addEdge(from, to)` made by the last loop of `parseAdjacencyList`, given what
was read from each line. -/
def rowPairs (rows : List (JStr × List JStr)) : List (Ident × Ident) :=
  rows.flatMap (fun r => r.2.map (fun t => (Ident.str r.1, Ident.str t)))

/-- Node discovery of `parseAdjacencyList` for one line, given what was read from it. -/
def rowNodeStep (set : List JStr) (r : JStr × List JStr) : List JStr :=
  r.2.foldl Graph.setAdd (Graph.setAdd set r.1)

/-- No string identity of the graph contains the dash that separates composite keys. -/
def DashFree (g : Graph) : Prop :=
  ∀ id ∈ g.nodes.keys, ∀ s, id = Ident.str s → '-' ∉ s

/-- Conditions under which the adjacency-list text represents the graph: there is at least
one node, every node identity is a clean string label, every edge joins existing nodes and
is stored under the key of its endpoints. -/
def AdjListSafe (g : Graph) : Prop :=
  g.nodes.keys ≠ []
  ∧ (∀ id ∈ g.nodes.keys, ∃ s, id = Ident.str s ∧ CleanLabel s)
  ∧ (∀ e ∈ g.edges.values, e.from_ ∈ g.nodes.keys ∧ e.to_ ∈ g.nodes.keys)
  ∧ KeysConsistent g

/-- Undirected graph with nodes "a", "b" (in this order) and the edge (b, a). -/
def reversedEdge : Graph := twoNodes.addEdge (.str ['b']) (.str ['a'])

/-- Fresh graph with the single node labelled "x:y". -/
def colonLabel : Graph := (Graph.new.addNode 0 0 (some (.str ['x', ':', 'y']))).2

/-- Undirected graph with the nodes "a-b", "c", "a", "b-c" and the edges ("c", "a-b") and
("a", "b-c"), all added in undirected mode. -/
def dashGraph : Graph :=
  ((((((Graph.new.addNode 0 0 (some (.str ['a', '-', 'b']))).2.addNode 0 0
    (some (.str ['c']))).2.addNode 0 0 (some (.str ['a']))).2.addNode 0 0
    (some (.str ['b', '-', 'c']))).2.addEdge (.str ['c']) (.str ['a', '-', 'b'])).addEdge
    (.str ['a']) (.str ['b', '-', 'c']))

/-- Directed graph with nodes "a", "b", "c" and the edges (a, b), (c, a). -/
def directedSample : Graph :=
  ((((((Graph.new.setDirected true).addNode 0 0 (some (.str ['a']))).2.addNode 0 0
    (some (.str ['b']))).2.addNode 0 0 (some (.str ['c']))).2.addEdge (.str ['a'])
    (.str ['b'])).addEdge (.str ['c']) (.str ['a']))

/-- Fresh graph after three `addNode` calls without label and one with the label "5". -/
def threeAndFive : Graph :=
  ((((Graph.new.addNode 0 0 none).2.addNode 0 0 none).2.addNode 0 0 none).2.addNode 0 0
    (some (.str ['5']))).2

/-- The integer identities `start, start + 1, ...`, `count` of them. -/
def intIds (start count : Nat) : List Ident :=
  (List.range' start count).map (fun (i : Nat) => Ident.int (i : Int))

/-- Consecutive `addNode` calls without label, one per given position: the returned
identities in call order, and the final state. -/
def addNodesNoLabel : List (Int × Int) → Graph → List Ident × Graph
  | [], g => ([], g)
  | p :: ps, g =>
    ((g.addNode p.1 p.2 none).1 :: (addNodesNoLabel ps (g.addNode p.1 p.2 none).2).1,
      (addNodesNoLabel ps (g.addNode p.1 p.2 none).2).2)

/-- Every stored edge joins identities that are in the node set. -/
def NoDangling (g : Graph) : Prop :=
  ∀ e ∈ g.edges.values, e.from_ ∈ g.nodes.keys ∧ e.to_ ∈ g.nodes.keys

/-- Lines of a text: the pieces between newline characters. -/
def textLines (text : JStr) : List JStr := splitChar '\n' text

/-- Whitespace-separated tokens of a line: the non-empty pieces between runs of
whitespace. -/
def tokens (line : JStr) : List JStr := (splitWs line).filter (fun t => decide (t ≠ []))

/-- The non-blank lines of a text, each without its leading and trailing whitespace. -/
def trimmedLines (text : JStr) : List JStr :=
  ((textLines text).map trim).filter (fun l => decide (l ≠ []))

/-! ## Reading of an edge-list text -/

/-- First two whitespace-separated tokens of a line, when it has at least two. -/
def firstTwo (line : JStr) : Option (JStr × JStr) :=
  match tokens line with
  | a :: b :: _ => some (a, b)
  | _ => none

/-- Token pairs of the lines that have at least two tokens, top to bottom. -/
def edgeListPairs (text : JStr) : List (JStr × JStr) := (textLines text).filterMap firstTwo

/-- Tokens named by an edge list in reading order: top to bottom, first token before second. -/
def edgeListTokens (text : JStr) : List JStr := (edgeListPairs text).flatMap (fun p => [p.1, p.2])

/-- Distinct elements of a list in order of first occurrence. -/
def firstSeen : List JStr → List JStr
  | [] => []
  | x :: xs => x :: (firstSeen xs).filter (fun y => decide (y ≠ x))

/-! ## Reading of an adjacency-matrix text -/

/-- Non-blank lines of a text: the lines that keep a character once trimmed. -/
def nonBlankLines (text : JStr) : List JStr :=
  (textLines text).filter (fun l => decide (trim l ≠ []))

/-- Rows of a matrix text: the tokens of each non-blank line. -/
def matrixRows (text : JStr) : List (List JStr) := (nonBlankLines text).map tokens

/-- Cell test of the matrix parser: column `j` is below the row count, row `i` has a token at
position `j`, and that token is not "0". -/
def cellOn (rows : List (List JStr)) (i j : Nat) : Bool :=
  decide (j < rows.length) &&
    match rows[i]? with
    | some row =>
      (match row[j]? with
        | some tok => decide (tok ≠ ['0'])
        | none => false)
    | none => false

/-- Arguments of the `addEdge` calls made by the inner loop of `parseAdjacencyMatrix` on the
cells `j, j + 1, ...` of row `i`, in call order. -/
def rowCalls (n i : Nat) : Nat → List JStr → List (Ident × Ident)
  | _, [] => []
  | j, tok :: rest =>
    if j < n then
      (if tok ≠ ['0'] then [(Ident.int i, Ident.int j)] else []) ++ rowCalls n i (j + 1) rest
    else []

/-- Arguments of the `addEdge` calls made by `parseAdjacencyMatrix` on the rows
`i, i + 1, ...`, in call order. -/
def matrixCalls (n : Nat) : Nat → List (List JStr) → List (Ident × Ident)
  | _, [] => []
  | i, row :: rest => rowCalls n i 0 row ++ matrixCalls n (i + 1) rest

/-- The matrix text of the parse scenario: two rows, "0 1" and "1 0". -/
def matrixText2 : JStr := "0 1\n1 0".toList

/-! ## Sample graphs for the default numbering -/

/-- Fresh graph with the single node labelled "9007199254740992", the number `2 ^ 53`. -/
def bigLabel : Graph := (Graph.new.addNode 0 0 (some (.str "9007199254740992".toList))).2

/-- Fresh graph with the single node labelled "3.14". -/
def piLabel : Graph := (Graph.new.addNode 0 0 (some (.str "3.14".toList))).2

/-- Fresh graph with the single node labelled "1e400". -/
def hugeLabel : Graph := (Graph.new.addNode 0 0 (some (.str "1e400".toList))).2

/-- Graph obtained by parsing the edge list "9007199254740991 x" into a fresh graph and
calling `addNode` without label once: the nodes are the two labels and the number `2 ^ 53`. -/
def bigIdGraph : Graph :=
  (Binary64.addNode (Graph.new.parseEdgeList originLayout "9007199254740991 x".toList)
    0 0 none).2

/-- Consecutive `addNode` calls without label in the binary64 form, one per given position:
the returned identities in call order, and the final state. -/
def Binary64.addNodesNoLabel : List (Int × Int) → Graph → List Ident × Graph
  | [], g => ([], g)
  | p :: ps, g =>
    ((Binary64.addNode g p.1 p.2 none).1
        :: (Binary64.addNodesNoLabel ps (Binary64.addNode g p.1 p.2 none).2).1,
      (Binary64.addNodesNoLabel ps (Binary64.addNode g p.1 p.2 none).2).2)

/-! ## Lemmas on maps -/

namespace JsMap

theorem ext_entries {K V : Type} {m1 m2 : JsMap K V} (h : m1.entries = m2.entries) :
    m1 = m2 := by
  cases m1; cases m2; cases h; rfl

theorem entry_unique {K V : Type} (m : JsMap K V) {p q : K × V} (hp : p ∈ m.entries)
    (hq : q ∈ m.entries) (h : p.1 = q.1) : p = q :=
  List.inj_on_of_nodup_map m.nodupKeys hp hq h

variable {K V : Type} [DecidableEq K]

theorem has_iff (m : JsMap K V) (k : K) : m.has k = true ↔ k ∈ m.keys := by
  simp [has, keys]

theorem has_eq_false_iff (m : JsMap K V) (k : K) : m.has k = false ↔ k ∉ m.keys := by
  rw [← has_iff]; cases m.has k <;> simp

theorem setEntries_of_not_mem (k : K) (v : V) (l : List (K × V)) (h : k ∉ l.map Prod.fst) :
    setEntries k v l = l ++ [(k, v)] := by
  induction l with
  | nil => rfl
  | cons p ps ih =>
    simp only [List.map_cons, List.mem_cons, not_or] at h
    have h1 : ¬ p.1 = k := fun e => h.1 e.symm
    simp [setEntries, h1, ih h.2]

theorem set_entries_of_not_has (m : JsMap K V) (k : K) (v : V) (h : m.has k = false) :
    (m.set k v).entries = m.entries ++ [(k, v)] :=
  setEntries_of_not_mem k v m.entries ((has_eq_false_iff m k).1 h)

theorem mem_setEntries (k : K) (v : V) (l : List (K × V)) (hl : (l.map Prod.fst).Nodup)
    (p : K × V) : p ∈ setEntries k v l ↔ p = (k, v) ∨ (p ∈ l ∧ p.1 ≠ k) := by
  induction l with
  | nil => simp [setEntries]
  | cons a as ih =>
    simp only [List.map_cons, List.nodup_cons] at hl
    by_cases ha : a.1 = k
    · simp only [setEntries, ha, if_true, List.mem_cons]
      constructor
      · rintro (h | h)
        · exact Or.inl h
        · refine Or.inr ⟨Or.inr h, ?_⟩
          intro hk
          exact hl.1 (List.mem_map.2 ⟨p, h, by rw [hk, ha]⟩)
      · rintro (h | ⟨h | h, hk⟩)
        · exact Or.inl h
        · exact absurd (h ▸ ha) hk
        · exact Or.inr h
    · simp only [setEntries, ha, if_false, List.mem_cons, ih hl.2]
      constructor
      · rintro (h | h | ⟨h, hk⟩)
        · exact Or.inr ⟨Or.inl h, h ▸ ha⟩
        · exact Or.inl h
        · exact Or.inr ⟨Or.inr h, hk⟩
      · rintro (h | ⟨h | h, hk⟩)
        · exact Or.inr (Or.inl h)
        · exact Or.inl h
        · exact Or.inr (Or.inr ⟨h, hk⟩)

theorem mem_set (m : JsMap K V) (k : K) (v : V) (p : K × V) :
    p ∈ (m.set k v).entries ↔ p = (k, v) ∨ (p ∈ m.entries ∧ p.1 ≠ k) :=
  mem_setEntries k v m.entries m.nodupKeys p

theorem mem_delete (m : JsMap K V) (k : K) (p : K × V) :
    p ∈ (m.delete k).entries ↔ p ∈ m.entries ∧ p.1 ≠ k := by
  simp [delete]

theorem has_set (m : JsMap K V) (k k2 : K) (v : V) :
    (m.set k v).has k2 = (decide (k2 = k) || m.has k2) := by
  rw [Bool.eq_iff_iff]
  simp only [has_iff, keys, List.mem_map, Bool.or_eq_true, decide_eq_true_eq]
  constructor
  · rintro ⟨p, hp, rfl⟩
    rcases (mem_set m k v p).1 hp with h | ⟨h, _⟩
    · exact Or.inl (by rw [h])
    · exact Or.inr ⟨p, h, rfl⟩
  · rintro (h | ⟨p, hp, rfl⟩)
    · exact ⟨(k, v), (mem_set m k v _).2 (Or.inl rfl), h.symm⟩
    · by_cases hk : p.1 = k
      · exact ⟨(k, v), (mem_set m k v _).2 (Or.inl rfl), hk.symm⟩
      · exact ⟨p, (mem_set m k v _).2 (Or.inr ⟨hp, hk⟩), rfl⟩

end JsMap

theorem JsMap.foldl_delete_entries {K V : Type} [DecidableEq K] (ks : List K) (m : JsMap K V) :
    (ks.foldl (fun m key => m.delete key) m).entries
      = m.entries.filter (fun p => decide (p.1 ∉ ks)) := by
  induction ks generalizing m with
  | nil => simp
  | cons k ks ih =>
    rw [List.foldl_cons, ih]
    simp only [JsMap.delete, List.filter_filter]
    apply List.filter_congr
    intro p _
    by_cases h1 : p.1 = k <;> by_cases h2 : p.1 ∈ ks <;> simp [h1, h2]

/-! ## Node removal -/

theorem removeNode_edges_entries (g : Graph) (id : Ident) :
    (g.removeNode id).edges.entries
      = g.edges.entries.filter (fun p => decide (p.2.from_ ≠ id ∧ p.2.to_ ≠ id)) := by
  simp only [Graph.removeNode, JsMap.foldl_delete_entries]
  apply List.filter_congr
  intro p hp
  rw [decide_eq_decide]
  simp only [List.mem_map, List.mem_filter, Bool.or_eq_true, decide_eq_true_eq, not_exists,
    not_and, and_imp, ne_eq]
  constructor
  · intro h
    have := h p hp
    by_cases h1 : p.2.from_ = id
    · exact absurd rfl (this (Or.inl h1))
    · by_cases h2 : p.2.to_ = id
      · exact absurd rfl (this (Or.inr h2))
      · exact ⟨h1, h2⟩
  · rintro ⟨h1, h2⟩ q hq hq2 hk
    have := g.edges.entry_unique hq hp hk
    subst this
    rcases hq2 with h | h
    · exact h1 h
    · exact h2 h

/-- C1: after `removeNode(id)` the node set no longer contains `id`, no stored edge has `id`
as `from` or `to`, the remaining nodes are exactly the other nodes, unchanged and in their
order, and the remaining edges are exactly the stored edges that do not touch `id`,
unchanged and in their order; on nodes 1, 2, 3 with edges (1,2), (2,3), removing node 2
leaves nodes 1, 3 and no edge. -/
theorem removeNode_cascade (g : Graph) (id : Ident) :
    (g.removeNode id).nodes.has id = false
    ∧ (∀ e ∈ (g.removeNode id).edges.values, e.from_ ≠ id ∧ e.to_ ≠ id)
    ∧ (g.removeNode id).nodes.entries = g.nodes.entries.filter (fun p => decide (p.1 ≠ id))
    ∧ (g.removeNode id).edges.entries
        = g.edges.entries.filter (fun p => decide (p.2.from_ ≠ id ∧ p.2.to_ ≠ id))
    ∧ (g.removeNode id).directed = g.directed
    ∧ sampleChain.nodes.keys = [Ident.int 1, Ident.int 2, Ident.int 3]
    ∧ sampleChain.edges.values = [⟨Ident.int 1, Ident.int 2⟩, ⟨Ident.int 2, Ident.int 3⟩]
    ∧ (sampleChain.removeNode (Ident.int 2)).nodes.keys = [Ident.int 1, Ident.int 3]
    ∧ (sampleChain.removeNode (Ident.int 2)).edges.entries = [] := by
  refine ⟨?_, ?_, ?_, removeNode_edges_entries g id, rfl, by decide, by decide, by decide,
    by decide⟩
  · rw [JsMap.has_eq_false_iff]
    simp [Graph.removeNode, JsMap.keys, JsMap.delete]
  · intro e he
    simp only [JsMap.values, List.mem_map] at he
    obtain ⟨p, hp, rfl⟩ := he
    rw [removeNode_edges_entries] at hp
    simpa using (List.mem_filter.1 hp).2
  · simp [Graph.removeNode, JsMap.delete]

/-! ## Symmetry of the exported matrix -/

theorem isSquare_setCell {n : Nat} {matrix : List (List Nat)} (h : IsSquare n matrix)
    (i j : Nat) : IsSquare n (Graph.setCell matrix i j) := by
  refine ⟨by simp [Graph.setCell, h.1], ?_⟩
  intro row hrow
  simp only [Graph.setCell] at hrow
  by_cases hi : i < matrix.length
  · rcases List.mem_or_eq_of_mem_set hrow with h1 | h1
    · exact h.2 row h1
    · subst h1
      rw [List.length_set]
      apply h.2
      rw [List.getD_eq_getElem _ _ hi]
      exact List.getElem_mem _
  · rw [List.set_eq_of_length_le (Nat.le_of_not_lt hi)] at hrow
    exact h.2 row hrow

theorem cell_setCell {n : Nat} {matrix : List (List Nat)} (h : IsSquare n matrix)
    (i j a b : Nat) :
    cell (Graph.setCell matrix i j) a b
      = if a = i ∧ b = j ∧ i < n ∧ j < n then 1 else cell matrix a b := by
  obtain ⟨hlen, hrows⟩ := h
  unfold cell Graph.setCell
  by_cases hi : i < matrix.length
  · have hrow : (matrix.getD i []).length = n := by
      apply hrows
      rw [List.getD_eq_getElem _ _ hi]
      exact List.getElem_mem _
    by_cases ha : a = i
    · subst ha
      have e1 : (matrix.set a ((matrix.getD a []).set j 1)).getD a []
          = (matrix.getD a []).set j 1 := by
        simp [List.getD_eq_getElem?_getD, List.getElem?_set, hi]
      rw [e1]
      by_cases hb : b = j
      · subst hb
        by_cases hj : b < n
        · have hi2 : a < n := hlen ▸ hi
          have hj2 : b < (matrix.getD a []).length := by omega
          rw [List.getD_eq_getElem _ _ (by simpa using hj2)]
          simp [hj, hi2]
        · have : (matrix.getD a []).length ≤ b := by omega
          rw [List.set_eq_of_length_le this]
          simp [hj]
      · have hb2 : ¬ j = b := fun e => hb e.symm
        simp [List.getD_eq_getElem?_getD, List.getElem?_set, hb, hb2]
    · have ha2 : ¬ i = a := fun e => ha e.symm
      simp [List.getD_eq_getElem?_getD, List.getElem?_set, ha, ha2]
  · rw [List.set_eq_of_length_le (Nat.le_of_not_lt hi)]
    have : ¬ i < n := hlen ▸ hi
    simp [this]

theorem buildMatrix_fold_symm (n : Nat) (idToIndex : JsMap Ident Nat) (es : List Edge)
    (matrix : List (List Nat)) (hsq : IsSquare n matrix)
    (hsym : ∀ i j, cell matrix i j = cell matrix j i) :
    IsSquare n (es.foldl (Graph.matrixStep false idToIndex) matrix)
    ∧ ∀ i j, cell (es.foldl (Graph.matrixStep false idToIndex) matrix) i j
        = cell (es.foldl (Graph.matrixStep false idToIndex) matrix) j i := by
  induction es generalizing matrix with
  | nil => exact ⟨hsq, hsym⟩
  | cons e es ih =>
    simp only [List.foldl_cons]
    apply ih
    · unfold Graph.matrixStep
      cases idToIndex.get e.from_ <;> cases idToIndex.get e.to_ <;> simp only [] <;>
        try exact hsq
      exact isSquare_setCell (isSquare_setCell hsq _ _) _ _
    · unfold Graph.matrixStep
      cases h1 : idToIndex.get e.from_ <;> cases h2 : idToIndex.get e.to_ <;> simp only [] <;>
        try exact hsym
      next x y =>
      intro i j
      have hs1 := isSquare_setCell hsq x y
      simp only [Bool.not_false, if_true, cell_setCell hs1, cell_setCell hsq]
      split_ifs <;> first | rfl | exact hsym i j | omega

theorem isSquare_replicate (n : Nat) : IsSquare n (List.replicate n (List.replicate n 0)) := by
  refine ⟨by simp, ?_⟩
  intro row hrow
  rw [List.eq_of_mem_replicate hrow]
  simp

theorem cell_replicate (n i j : Nat) : cell (List.replicate n (List.replicate n 0)) i j = 0 := by
  simp only [cell, List.getD_eq_getElem?_getD, List.getElem?_replicate]
  split
  · simp only [Option.getD_some, List.getElem?_replicate]
    split <;> rfl
  · rfl

theorem length_insertSorted (x : Ident) (l : List Ident) :
    (Graph.insertSorted x l).length = l.length + 1 := by
  induction l with
  | nil => rfl
  | cons y ys ih =>
    simp only [Graph.insertSorted]
    split <;> simp [ih]

theorem length_sortDefault (l : List Ident) : (Graph.sortDefault l).length = l.length := by
  have key : ∀ (l acc : List Ident),
      (l.foldl (fun acc x => Graph.insertSorted x acc) acc).length = acc.length + l.length := by
    intro l
    induction l with
    | nil => simp
    | cons x xs ih =>
      intro acc
      rw [List.foldl_cons, ih, length_insertSorted, List.length_cons]
      omega
  simpa using key l []

/-- C5: in undirected mode the matrix built by `exportAdjacencyMatrix` is square, with one
row and one column per node, and symmetric: `M[i][j] = M[j][i]` for all indices. -/
theorem exportAdjacencyMatrix_symmetric (g : Graph) (hd : g.directed = false) :
    IsSquare g.nodes.size g.buildMatrix
    ∧ ∀ i j, cell g.buildMatrix i j = cell g.buildMatrix j i := by
  have hn : (Graph.sortDefault g.nodes.keys).length = g.nodes.size := by
    rw [length_sortDefault]; simp [JsMap.keys, JsMap.size]
  have := buildMatrix_fold_symm (Graph.sortDefault g.nodes.keys).length
    (Graph.buildIdToIndex 0 (Graph.sortDefault g.nodes.keys) JsMap.empty)
    g.edges.values _ (isSquare_replicate _) (fun i j => by rw [cell_replicate, cell_replicate])
  simp only [Graph.buildMatrix, hd]
  rw [hn] at this ⊢
  exact this

/-- Witness for C5: the undirected sample graph with nodes 1, 2, 3 and edges (1,2), (2,3). -/
theorem exportAdjacencyMatrix_symmetric_witness :
    sampleChain.directed = false
    ∧ sampleChain.buildMatrix = [[0, 1, 0], [1, 0, 1], [0, 1, 0]]
    ∧ (IsSquare sampleChain.nodes.size sampleChain.buildMatrix
      ∧ ∀ i j, cell sampleChain.buildMatrix i j = cell sampleChain.buildMatrix j i) :=
  ⟨by decide, by decide, exportAdjacencyMatrix_symmetric sampleChain (by decide)⟩

/-! ## Edge keys and their consistency -/

theorem Graph.ext_fields {g1 g2 : Graph} (hn : g1.nodes = g2.nodes) (he : g1.edges = g2.edges)
    (hd : g1.directed = g2.directed) : g1 = g2 := by
  cases g1; cases g2; cases hn; cases he; cases hd; rfl

theorem addNode_edges (g : Graph) (x y : Int) (label : Option Ident) :
    (g.addNode x y label).2.edges = g.edges ∧ (g.addNode x y label).2.directed = g.directed := by
  simp only [Graph.addNode]
  split_ifs <;> exact ⟨rfl, rfl⟩

theorem addEdge_cases (g : Graph) (a b : Ident) :
    g.addEdge a b = g ∨
      (g.nodes.has a = true ∧ g.nodes.has b = true
        ∧ (g.directed = true ∨ (g.edges.has (edgeKey a b) = false
            ∧ g.edges.has (edgeKey b a) = false))
        ∧ g.addEdge a b = { g with edges := g.edges.set (edgeKey a b) ⟨a, b⟩ }) := by
  unfold Graph.addEdge
  cases h1 : g.nodes.has a <;> cases h2 : g.nodes.has b <;> simp
  cases h3 : g.directed <;> simp
  cases h4 : g.edges.has (edgeKey a b) <;> cases h5 : g.edges.has (edgeKey b a) <;> simp

theorem keysConsistent_addEdge (g : Graph) (a b : Ident) (h : KeysConsistent g) :
    KeysConsistent (g.addEdge a b) := by
  rcases addEdge_cases g a b with e | ⟨_, _, _, e⟩
  · rw [e]; exact h
  · rw [e]
    intro p hp
    rcases (JsMap.mem_set _ _ _ p).1 hp with h1 | ⟨h1, _⟩
    · subst h1; rfl
    · exact h p h1

theorem keysConsistent_removeNode (g : Graph) (id : Ident) (h : KeysConsistent g) :
    KeysConsistent (g.removeNode id) := by
  intro p hp
  rw [removeNode_edges_entries] at hp
  exact h p (List.mem_filter.1 hp).1

theorem keysConsistent_addNode (g : Graph) (x y : Int) (label : Option Ident)
    (h : KeysConsistent g) : KeysConsistent (g.addNode x y label).2 := by
  unfold KeysConsistent
  rw [(addNode_edges g x y label).1]
  exact h

theorem keysConsistent_clear (g : Graph) : KeysConsistent g.clear := by
  intro p hp
  cases hp

/-- Closure of a property under the loops of the three parsers. -/
theorem addNodesFrom_closed (P : Graph → Prop)
    (hnode : ∀ g x y label, P g → P (g.addNode x y label).2)
    (layout : Layout) (total : Nat) (ids : List Ident) :
    ∀ (index : Nat) (g : Graph), P g → P (Graph.addNodesFrom layout total index ids g) := by
  induction ids with
  | nil => intro _ g h; exact h
  | cons id rest ih =>
    intro index g h
    exact ih (index + 1) _ (hnode g _ _ _ h)

theorem foldl_closed {α : Type} (P : Graph → Prop) (f : Graph → α → Graph)
    (hf : ∀ g x, P g → P (f g x)) (l : List α) (g : Graph) (h : P g) : P (l.foldl f g) := by
  induction l generalizing g with
  | nil => exact h
  | cons x xs ih => exact ih _ (hf g x h)

theorem parseEdgeList_closed (P : Graph → Prop) (hclear : ∀ g, P g → P g.clear)
    (hnode : ∀ g x y label, P g → P (g.addNode x y label).2)
    (hedge : ∀ g a b, P g → P (g.addEdge a b))
    (layout : Layout) (g : Graph) (text : JStr) (h : P g) :
    P (g.parseEdgeList layout text) := by
  unfold Graph.parseEdgeList
  apply foldl_closed P
  · intro g line hg
    unfold Graph.edgeListEdgeStep
    split
    · exact hedge _ _ _ hg
    · exact hg
  · exact addNodesFrom_closed P hnode _ _ _ _ _ (hclear g h)

theorem parseAdjacencyList_closed (P : Graph → Prop) (hclear : ∀ g, P g → P g.clear)
    (hnode : ∀ g x y label, P g → P (g.addNode x y label).2)
    (hedge : ∀ g a b, P g → P (g.addEdge a b))
    (layout : Layout) (g : Graph) (text : JStr) (h : P g) :
    P (g.parseAdjacencyList layout text) := by
  unfold Graph.parseAdjacencyList
  apply foldl_closed P
  · intro g line hg
    unfold Graph.adjListEdgeStep
    split
    · exact foldl_closed P _ (fun g x hg => hedge _ _ _ hg) _ _ hg
    · exact hg
  · exact addNodesFrom_closed P hnode _ _ _ _ _ (hclear g h)

theorem addRowEdges_closed (P : Graph → Prop) (hedge : ∀ g a b, P g → P (g.addEdge a b))
    (n i : Nat) (row : List JStr) :
    ∀ (j : Nat) (g : Graph), P g → P (Graph.addRowEdges n i j row g) := by
  induction row with
  | nil => intro _ g h; exact h
  | cons c rest ih =>
    intro j g h
    unfold Graph.addRowEdges
    split
    · apply ih
      split
      · exact hedge _ _ _ h
      · exact h
    · exact h

theorem addMatrixEdges_closed (P : Graph → Prop) (hedge : ∀ g a b, P g → P (g.addEdge a b))
    (n : Nat) (lines : List JStr) :
    ∀ (i : Nat) (g : Graph), P g → P (Graph.addMatrixEdges n i lines g) := by
  induction lines with
  | nil => intro _ g h; exact h
  | cons l rest ih =>
    intro i g h
    exact ih _ _ (addRowEdges_closed P hedge _ _ _ _ _ h)

theorem parseAdjacencyMatrix_closed (P : Graph → Prop) (hclear : ∀ g, P g → P g.clear)
    (hnode : ∀ g x y label, P g → P (g.addNode x y label).2)
    (hedge : ∀ g a b, P g → P (g.addEdge a b))
    (layout : Layout) (g : Graph) (text : JStr) (h : P g) :
    P (g.parseAdjacencyMatrix layout text) := by
  unfold Graph.parseAdjacencyMatrix
  exact addMatrixEdges_closed P hedge _ _ _ _
    (addNodesFrom_closed P hnode _ _ _ _ _ (hclear g h))

/-- Every reachable state stores each edge under the composite key of its endpoints. -/
theorem keysConsistent_of_reachable (g : Graph) (h : Reachable g) : KeysConsistent g := by
  induction h with
  | new => intro p hp; cases hp
  | addNode g x y label _ ih => exact keysConsistent_addNode g x y label ih
  | removeNode g id _ ih => exact keysConsistent_removeNode g id ih
  | addEdge g a b _ ih => exact keysConsistent_addEdge g a b ih
  | clear g _ _ => exact keysConsistent_clear g
  | setDirected g d _ ih => exact ih
  | deleteEdgeKey g key _ ih =>
    intro p hp
    exact ih p ((JsMap.mem_delete _ _ _).1 hp).1
  | parseEdgeList layout g text _ ih =>
    exact parseEdgeList_closed KeysConsistent (fun g _ => keysConsistent_clear g)
      keysConsistent_addNode keysConsistent_addEdge layout g text ih
  | parseAdjacencyList layout g text _ ih =>
    exact parseAdjacencyList_closed KeysConsistent (fun g _ => keysConsistent_clear g)
      keysConsistent_addNode keysConsistent_addEdge layout g text ih
  | parseAdjacencyMatrix layout g text _ ih =>
    exact parseAdjacencyMatrix_closed KeysConsistent (fun g _ => keysConsistent_clear g)
      keysConsistent_addNode keysConsistent_addEdge layout g text ih

theorem addEdge_nodes (g : Graph) (a b : Ident) :
    (g.addEdge a b).nodes = g.nodes ∧ (g.addEdge a b).directed = g.directed := by
  rcases addEdge_cases g a b with e | ⟨_, _, _, e⟩ <;> rw [e] <;> exact ⟨rfl, rfl⟩

theorem has_iff_exists_edge (g : Graph) (hc : KeysConsistent g) (k : JStr) :
    g.edges.has k = true ↔ ∃ e ∈ g.edges.values, edgeKey e.from_ e.to_ = k := by
  rw [JsMap.has_iff]
  simp only [JsMap.keys, JsMap.values, List.mem_map]
  constructor
  · rintro ⟨p, hp, rfl⟩
    exact ⟨p.2, ⟨p, hp, rfl⟩, (hc p hp).symm⟩
  · rintro ⟨e, ⟨p, hp, rfl⟩, rfl⟩
    exact ⟨p, hp, hc p hp⟩

theorem reachable_mixedNodes : Reachable mixedNodes :=
  Reachable.addNode _ _ _ _ (Reachable.addNode _ _ _ _ (Reachable.addNode _ _ _ _
    (Reachable.addNode _ _ _ _ Reachable.new)))

theorem reachable_sampleChain : Reachable sampleChain :=
  Reachable.addEdge _ _ _ (Reachable.addEdge _ _ _ (Reachable.addNode _ _ _ _
    (Reachable.addNode _ _ _ _ (Reachable.addNode _ _ _ _ Reachable.new))))

/-! ## Edge lookup -/

/-- C6, as stated, fails: with nodes 1, 2 (numbers) and "1", "2" (strings) and the single
stored edge from the number 1 to the number 2, `hasEdge("1", "2")` is true although no
stored edge joins the string identities in either orientation; likewise, with the string
nodes "a-b", "c", "a", "b-c" and the single stored edge ("a-b", "c"), `hasEdge("a", "b-c")`
is true. -/
theorem hasEdge_counterexample :
    Reachable collideUndirected
    ∧ collideUndirected.nodes.keys
        = [Ident.int 1, Ident.int 2, Ident.str ['1'], Ident.str ['2']]
    ∧ collideUndirected.edges.values = [⟨Ident.int 1, Ident.int 2⟩]
    ∧ collideUndirected.hasEdge (Ident.str ['1']) (Ident.str ['2']) = true
    ∧ ¬ ((∃ e ∈ collideUndirected.edges.values,
            e.from_ = Ident.str ['1'] ∧ e.to_ = Ident.str ['2'])
          ∨ (collideUndirected.directed = false ∧ ∃ e ∈ collideUndirected.edges.values,
            e.from_ = Ident.str ['2'] ∧ e.to_ = Ident.str ['1']))
    ∧ Reachable dashUndirected
    ∧ dashUndirected.edges.values = [⟨Ident.str ['a', '-', 'b'], Ident.str ['c']⟩]
    ∧ dashUndirected.hasEdge (Ident.str ['a']) (Ident.str ['b', '-', 'c']) = true
    ∧ ¬ ((∃ e ∈ dashUndirected.edges.values,
            e.from_ = Ident.str ['a'] ∧ e.to_ = Ident.str ['b', '-', 'c'])
          ∨ (dashUndirected.directed = false ∧ ∃ e ∈ dashUndirected.edges.values,
            e.from_ = Ident.str ['b', '-', 'c'] ∧ e.to_ = Ident.str ['a'])) :=
  ⟨Reachable.addEdge _ _ _ reachable_mixedNodes, by decide, by decide, by decide, by decide,
    Reachable.addEdge _ _ _ (Reachable.addNode _ _ _ _ (Reachable.addNode _ _ _ _
      (Reachable.addNode _ _ _ _ (Reachable.addNode _ _ _ _ Reachable.new)))),
    by decide, by decide, by decide⟩

/-- C6, amended: in every reachable state `hasEdge(a, b)` is true exactly when some stored
edge has the composite key text of `(a, b)`, or, in undirected mode only, that of `(b, a)`;
when no other stored pair renders to these key texts, this is exactly the presence of a
stored edge with `from = a`, `to = b`, or (undirected only) `from = b`, `to = a`. -/
theorem hasEdge_iff_stored_key (g : Graph) (h : Reachable g) (a b : Ident) :
    (g.hasEdge a b = true ↔
      (∃ e ∈ g.edges.values, edgeKey e.from_ e.to_ = edgeKey a b)
      ∨ (g.directed = false ∧ ∃ e ∈ g.edges.values, edgeKey e.from_ e.to_ = edgeKey b a))
    ∧ ((∀ e ∈ g.edges.values, edgeKey e.from_ e.to_ = edgeKey a b → e = ⟨a, b⟩) →
        (∀ e ∈ g.edges.values, edgeKey e.from_ e.to_ = edgeKey b a → e = ⟨b, a⟩) →
        (g.hasEdge a b = true ↔
          (∃ e ∈ g.edges.values, e.from_ = a ∧ e.to_ = b)
          ∨ (g.directed = false ∧ ∃ e ∈ g.edges.values, e.from_ = b ∧ e.to_ = a))) := by
  have hc := keysConsistent_of_reachable g h
  have key : g.hasEdge a b = true ↔
      (∃ e ∈ g.edges.values, edgeKey e.from_ e.to_ = edgeKey a b)
      ∨ (g.directed = false ∧ ∃ e ∈ g.edges.values, edgeKey e.from_ e.to_ = edgeKey b a) := by
    simp only [Graph.hasEdge, Bool.or_eq_true, Bool.and_eq_true, Bool.not_eq_true',
      has_iff_exists_edge g hc]
  refine ⟨key, ?_⟩
  intro h1 h2
  rw [key]
  constructor
  · rintro (⟨e, he, hk⟩ | ⟨hd, e, he, hk⟩)
    · have := h1 e he hk
      subst this
      exact Or.inl ⟨_, he, rfl, rfl⟩
    · have := h2 e he hk
      subst this
      exact Or.inr ⟨hd, _, he, rfl, rfl⟩
  · rintro (⟨e, he, h3, h4⟩ | ⟨hd, e, he, h3, h4⟩)
    · exact Or.inl ⟨e, he, by rw [h3, h4]⟩
    · exact Or.inr ⟨hd, e, he, by rw [h3, h4]⟩

/-- Witness for C6: the sample graph with edges (1,2), (2,3), queried for the pair (2, 1). -/
theorem hasEdge_iff_stored_key_witness :
    Reachable sampleChain
    ∧ sampleChain.hasEdge (Ident.int 2) (Ident.int 1) = true
    ∧ (sampleChain.hasEdge (Ident.int 2) (Ident.int 1) = true ↔
        (∃ e ∈ sampleChain.edges.values,
          edgeKey e.from_ e.to_ = edgeKey (Ident.int 2) (Ident.int 1))
        ∨ (sampleChain.directed = false ∧ ∃ e ∈ sampleChain.edges.values,
          edgeKey e.from_ e.to_ = edgeKey (Ident.int 1) (Ident.int 2))) :=
  ⟨reachable_sampleChain, by decide,
    (hasEdge_iff_stored_key sampleChain reachable_sampleChain (Ident.int 2) (Ident.int 1)).1⟩

/-! ## Edge insertion -/

/-- C7, as stated, fails: in directed mode with nodes 1, 2 (numbers) and "1", "2" (strings)
and the stored edge (1, 2), the call `addEdge("1", "2")` overwrites that edge, although its
ordered pair differs from ("1", "2"); likewise, with the string nodes "a-b", "c", "a", "b-c"
and the stored edge ("a-b", "c"), the call `addEdge("a", "b-c")` overwrites that edge. -/
theorem addEdge_directed_counterexample :
    collideDirected.directed = true
    ∧ collideDirected.nodes.has (Ident.str ['1']) = true
    ∧ collideDirected.nodes.has (Ident.str ['2']) = true
    ∧ (⟨Ident.int 1, Ident.int 2⟩ : Edge) ∈ collideDirected.edges.values
    ∧ (⟨Ident.int 1, Ident.int 2⟩ : Edge) ≠ ⟨Ident.str ['1'], Ident.str ['2']⟩
    ∧ (⟨Ident.int 1, Ident.int 2⟩ : Edge)
        ∉ (collideDirected.addEdge (Ident.str ['1']) (Ident.str ['2'])).edges.values
    ∧ dashDirected.directed = true
    ∧ dashDirected.nodes.has (Ident.str ['a']) = true
    ∧ dashDirected.nodes.has (Ident.str ['b', '-', 'c']) = true
    ∧ dashDirected.edges.values = [⟨Ident.str ['a', '-', 'b'], Ident.str ['c']⟩]
    ∧ (dashDirected.addEdge (Ident.str ['a']) (Ident.str ['b', '-', 'c'])).edges.values
        = [⟨Ident.str ['a'], Ident.str ['b', '-', 'c']⟩] := by
  refine ⟨by decide, by decide, by decide, by decide, by decide, by decide, by decide,
    by decide, by decide, by decide, by decide⟩

/-- C7, amended: in directed mode, for `a` and `b` in the node set, after `addEdge(a, b)`
the edge `(a, b)` is stored under its composite key, every entry stored under another key
text is still stored unchanged, nothing else is stored, and the nodes are untouched; in a
state that stores each edge under the key of its endpoints, every stored edge whose key
text differs from that of `(a, b)` is still stored. -/
theorem addEdge_directed_frame (g : Graph) (a b : Ident) (hd : g.directed = true)
    (ha : g.nodes.has a = true) (hb : g.nodes.has b = true) :
    (edgeKey a b, (⟨a, b⟩ : Edge)) ∈ (g.addEdge a b).edges.entries
    ∧ (∀ p ∈ g.edges.entries, p.1 ≠ edgeKey a b → p ∈ (g.addEdge a b).edges.entries)
    ∧ (∀ p ∈ (g.addEdge a b).edges.entries,
        p = (edgeKey a b, (⟨a, b⟩ : Edge)) ∨ (p ∈ g.edges.entries ∧ p.1 ≠ edgeKey a b))
    ∧ (KeysConsistent g → ∀ e ∈ g.edges.values, edgeKey e.from_ e.to_ ≠ edgeKey a b →
        e ∈ (g.addEdge a b).edges.values)
    ∧ (g.addEdge a b).nodes = g.nodes := by
  have e : g.addEdge a b = { g with edges := g.edges.set (edgeKey a b) ⟨a, b⟩ } := by
    simp [Graph.addEdge, ha, hb, hd]
  rw [e]
  refine ⟨(JsMap.mem_set _ _ _ _).2 (Or.inl rfl),
    fun p hp hk => (JsMap.mem_set _ _ _ _).2 (Or.inr ⟨hp, hk⟩),
    fun p hp => (JsMap.mem_set _ _ _ _).1 hp, ?_, rfl⟩
  intro hc e he hk
  simp only [JsMap.values, List.mem_map] at he ⊢
  obtain ⟨p, hp, rfl⟩ := he
  exact ⟨p, (JsMap.mem_set _ _ _ _).2 (Or.inr ⟨hp, by rw [hc p hp]; exact hk⟩), rfl⟩

/-- Witness for C7: the directed collision scenario, adding the edge (2, 1). -/
theorem addEdge_directed_frame_witness :
    collideDirected.directed = true
    ∧ collideDirected.nodes.has (Ident.int 2) = true
    ∧ collideDirected.nodes.has (Ident.int 1) = true
    ∧ (collideDirected.addEdge (Ident.int 2) (Ident.int 1)).edges.values
        = [⟨Ident.int 1, Ident.int 2⟩, ⟨Ident.int 2, Ident.int 1⟩]
    ∧ (edgeKey (Ident.int 2) (Ident.int 1), (⟨Ident.int 2, Ident.int 1⟩ : Edge))
        ∈ (collideDirected.addEdge (Ident.int 2) (Ident.int 1)).edges.entries :=
  ⟨by decide, by decide, by decide, by decide,
    (addEdge_directed_frame collideDirected (Ident.int 2) (Ident.int 1) (by decide) (by decide)
      (by decide)).1⟩

theorem JsMap.setEntries_idem {K V : Type} [DecidableEq K] (k : K) (v : V)
    (l : List (K × V)) : JsMap.setEntries k v (JsMap.setEntries k v l) = JsMap.setEntries k v l := by
  induction l with
  | nil => simp [JsMap.setEntries]
  | cons p ps ih =>
    by_cases h : p.1 = k
    · simp [JsMap.setEntries, h]
    · simp [JsMap.setEntries, h, ih]

/-- C8: in both modes `addEdge(a, b)` called twice leaves the same state as calling it once;
from a state without edges that has the nodes `a` and `b`, exactly one edge, `(a, b)`, is
stored afterwards. -/
theorem addEdge_idempotent (g : Graph) (a b : Ident) :
    (g.addEdge a b).addEdge a b = g.addEdge a b
    ∧ (g.nodes.has a = true → g.nodes.has b = true → g.edges.entries = [] →
        ((g.addEdge a b).addEdge a b).edges.values = [⟨a, b⟩]) := by
  have idem : (g.addEdge a b).addEdge a b = g.addEdge a b := by
    rcases addEdge_cases g a b with e | ⟨ha, hb, hm, e⟩
    · rw [e, e]
    · rw [e]
      rcases hm with hd | ⟨h1, _⟩
      · apply Graph.ext_fields
        · simp [Graph.addEdge, ha, hb, hd]
        · simp only [Graph.addEdge, ha, hb, hd, Bool.not_true, Bool.or_self, if_true]
          apply JsMap.ext_entries
          exact JsMap.setEntries_idem _ _ _
        · simp [Graph.addEdge, ha, hb, hd]
      · have h3 : (g.edges.set (edgeKey a b) ⟨a, b⟩).has (edgeKey a b) = true := by
          rw [JsMap.has_set]; simp
        cases hd : g.directed
        · simp [Graph.addEdge, ha, hb, hd, h3]
        · apply Graph.ext_fields
          · simp [Graph.addEdge, ha, hb, hd]
          · simp only [Graph.addEdge, ha, hb, hd, Bool.not_true, Bool.or_self, if_true]
            apply JsMap.ext_entries
            exact JsMap.setEntries_idem _ _ _
          · simp [Graph.addEdge, ha, hb, hd]
  refine ⟨idem, ?_⟩
  intro ha hb he
  rw [idem]
  have hk : ∀ k, g.edges.has k = false := by
    intro k
    simp [JsMap.has, he]
  simp [Graph.addEdge, ha, hb, hk, JsMap.values, JsMap.set, he, JsMap.setEntries]

/-- Witness for C8: from nodes "a", "b" and no edge, two calls store exactly one edge. -/
theorem addEdge_idempotent_witness :
    twoNodes.nodes.has (Ident.str ['a']) = true ∧ twoNodes.nodes.has (Ident.str ['b']) = true
    ∧ twoNodes.edges.entries = []
    ∧ ((twoNodes.addEdge (Ident.str ['a']) (Ident.str ['b'])).addEdge (Ident.str ['a'])
        (Ident.str ['b'])).edges.values = [⟨Ident.str ['a'], Ident.str ['b']⟩] :=
  ⟨by decide, by decide, by decide,
    (addEdge_idempotent twoNodes (Ident.str ['a']) (Ident.str ['b'])).2 (by decide) (by decide)
      (by decide)⟩

/-! ## Undirected deduplication -/

/-- Invariant of undirected runs: the mode is undirected, keys are consistent, and no two
stored entries carry the same ordered pair or a pair and its reverse. -/
theorem undirectedRun_invariant (g : Graph) (h : UndirectedRun g) :
    g.directed = false ∧ KeysConsistent g
    ∧ g.edges.entries.Pairwise (fun p q => q.2 ≠ p.2 ∧ q.2 ≠ p.2.reverse) := by
  induction h with
  | new =>
    refine ⟨rfl, ?_, List.Pairwise.nil⟩
    intro p hp
    simp [Graph.new, JsMap.empty] at hp
  | addNode g x y label _ ih =>
    refine ⟨?_, keysConsistent_addNode g x y label ih.2.1, ?_⟩
    · rw [(addNode_edges g x y label).2]; exact ih.1
    · rw [(addNode_edges g x y label).1]; exact ih.2.2
  | removeNode g id _ ih =>
    refine ⟨ih.1, keysConsistent_removeNode g id ih.2.1, ?_⟩
    rw [removeNode_edges_entries]
    exact ih.2.2.sublist (List.filter_sublist _)
  | addEdge g a b _ ih =>
    refine ⟨?_, keysConsistent_addEdge g a b ih.2.1, ?_⟩
    · rw [(addEdge_nodes g a b).2]; exact ih.1
    · rcases addEdge_cases g a b with e | ⟨_, _, hm, e⟩
      · rw [e]; exact ih.2.2
      · rw [e]
        rcases hm with hd | ⟨h1, h2⟩
        · rw [ih.1] at hd; cases hd
        · show ((g.edges.set (edgeKey a b) ⟨a, b⟩).entries).Pairwise _
          rw [JsMap.set_entries_of_not_has _ _ _ h1, List.pairwise_append]
          refine ⟨ih.2.2, List.pairwise_singleton _ _, ?_⟩
          intro p hp q hq
          rw [List.mem_singleton] at hq
          subst hq
          rw [JsMap.has_eq_false_iff] at h1 h2
          constructor
          · intro e2
            apply h1
            exact List.mem_map.2 ⟨p, hp, by rw [ih.2.1 p hp, ← e2]⟩
          · intro e2
            apply h2
            refine List.mem_map.2 ⟨p, hp, ?_⟩
            rw [ih.2.1 p hp]
            have e3 : p.2 = ⟨b, a⟩ := by
              cases hp2 : p.2 with
              | mk f t =>
                rw [hp2] at e2
                simp only [Edge.reverse, Edge.mk.injEq] at e2
                rw [e2.1, e2.2]
            rw [e3]

/-- C9: in every state produced from a fresh graph by `addNode`, `addEdge` and `removeNode`
alone (the mode stays undirected), no two stored entries carry the same unordered pair of
identities: neither the same ordered pair twice nor a pair together with its reverse; from
such a state without edges that has the nodes `a` and `b`, the calls `addEdge(a, b)` and
`addEdge(b, a)` leave exactly one stored edge. -/
theorem undirected_one_entry_per_pair (g : Graph) (h : UndirectedRun g) :
    g.edges.values.Pairwise (fun e1 e2 => e2 ≠ e1 ∧ e2 ≠ e1.reverse)
    ∧ (∀ a b, (⟨a, b⟩ : Edge) ∈ g.edges.values → (⟨b, a⟩ : Edge) ∈ g.edges.values → a = b)
    ∧ (∀ a b, g.nodes.has a = true → g.nodes.has b = true → g.edges.entries = [] →
        ((g.addEdge a b).addEdge b a).edges.values = [⟨a, b⟩]) := by
  obtain ⟨hd, _, hp⟩ := undirectedRun_invariant g h
  have hv : g.edges.values.Pairwise (fun e1 e2 => e2 ≠ e1 ∧ e2 ≠ e1.reverse) := by
    rw [JsMap.values, List.pairwise_map]
    exact hp
  refine ⟨hv, ?_, ?_⟩
  · intro a b h1 h2
    by_contra hab
    have hne : (⟨a, b⟩ : Edge) ≠ ⟨b, a⟩ := by
      intro e
      simp only [Edge.mk.injEq] at e
      exact hab e.1
    have hsym : Symmetric (fun e1 e2 : Edge => e2 ≠ e1 ∧ e2 ≠ e1.reverse) := by
      intro e1 e2 ⟨h3, h4⟩
      refine ⟨fun e => h3 e.symm, fun e => h4 ?_⟩
      rw [e]; rfl
    exact (hv.forall hsym h1 h2 hne).2 rfl
  · intro a b ha hb he
    have hk : ∀ k, g.edges.has k = false := by
      intro k
      simp [JsMap.has, he]
    have h3 : (g.edges.set (edgeKey a b) ⟨a, b⟩).has (edgeKey a b) = true := by
      rw [JsMap.has_set]; simp
    have e1 : g.addEdge a b = { g with edges := g.edges.set (edgeKey a b) ⟨a, b⟩ } := by
      simp [Graph.addEdge, ha, hb, hd, hk]
    have e2 : ({ g with edges := g.edges.set (edgeKey a b) ⟨a, b⟩ } : Graph).addEdge b a
        = { g with edges := g.edges.set (edgeKey a b) ⟨a, b⟩ } := by
      simp [Graph.addEdge, ha, hb, hd, h3]
    rw [e1, e2]
    simp [JsMap.values, JsMap.set, he, JsMap.setEntries]

/-- Witness for C9: nodes "a", "b" added to a fresh graph; `addEdge(a, b)` then
`addEdge(b, a)` store the single edge `(a, b)`. -/
theorem undirected_one_entry_per_pair_witness :
    UndirectedRun twoNodes
    ∧ ((twoNodes.addEdge (Ident.str ['a']) (Ident.str ['b'])).addEdge (Ident.str ['b'])
        (Ident.str ['a'])).edges.values = [⟨Ident.str ['a'], Ident.str ['b']⟩] :=
  have hr : UndirectedRun twoNodes :=
    UndirectedRun.addNode _ _ _ _ (UndirectedRun.addNode _ _ _ _ UndirectedRun.new)
  ⟨hr, (undirected_one_entry_per_pair twoNodes hr).2.2 _ _ (by decide) (by decide) (by decide)⟩

/-! ## Default identities -/

theorem Dec.gt_iff (a b : Dec) : a.gt b = true ↔ b.toRat < a.toRat := by
  unfold Dec.gt Dec.toRat
  rw [decide_eq_true_eq, div_lt_div_iff₀ (by positivity) (by positivity)]
  norm_cast

theorem JsNum.gt_irrefl (a : JsNum) : a.gt a = false := by
  cases a with
  | negInf => rfl
  | posInf => rfl
  | fin d =>
    have := Dec.gt_iff d d
    simp only [lt_self_iff_false, iff_false, Bool.not_eq_true] at this
    exact this

theorem JsNum.le_trans (a b c : JsNum) (h1 : a.gt b = false) (h2 : b.gt c = false) :
    a.gt c = false := by
  cases a <;> cases b <;> cases c <;> simp only [JsNum.gt] at h1 h2 ⊢ <;>
    first
      | rfl
      | exact absurd h1 (by decide)
      | exact absurd h2 (by decide)
      | skip
  next x y z =>
    have e1 := Dec.gt_iff x y
    have e2 := Dec.gt_iff y z
    have e3 := Dec.gt_iff x z
    rw [h1] at e1
    rw [h2] at e2
    cases h : x.gt z
    · rfl
    · rw [h] at e3
      have h3 := e3.1 rfl
      have h4 : ¬ z.toRat < y.toRat := fun hh => by simpa using e2.2 hh
      have h5 : ¬ y.toRat < x.toRat := fun hh => by simpa using e1.2 hh
      exact absurd (lt_of_lt_of_le h3 (not_lt.1 h5)) h4

theorem JsNum.gt_asymm (a b : JsNum) (h : a.gt b = true) : b.gt a = false := by
  cases a <;> cases b <;> simp only [JsNum.gt] at h ⊢ <;>
    first
      | rfl
      | exact absurd h (by decide)
      | skip
  next x y =>
    have e1 := (Dec.gt_iff x y).1 h
    cases h2 : y.gt x
    · rfl
    · exact absurd ((Dec.gt_iff y x).1 h2) (not_lt.2 (le_of_lt e1))

theorem maxIdStep_spec (m0 : JsNum) (x : Ident) :
    m0.gt (Graph.maxIdStep m0 x) = false
    ∧ (∀ v, jsNumber x = some v → v.gt (Graph.maxIdStep m0 x) = false)
    ∧ (Graph.maxIdStep m0 x = m0 ∨ jsNumber x = some (Graph.maxIdStep m0 x)) := by
  unfold Graph.maxIdStep
  cases hx : jsNumber x with
  | none => exact ⟨JsNum.gt_irrefl m0, (fun v hv => by cases hv), Or.inl rfl⟩
  | some n =>
    simp only []
    cases hg : n.gt m0
    · refine ⟨by simpa using JsNum.gt_irrefl m0, ?_, Or.inl (by simp)⟩
      intro v hv
      cases hv
      simpa using hg
    · refine ⟨?_, ?_, Or.inr (by simp)⟩
      · simpa using JsNum.gt_asymm n m0 hg
      · intro v hv
        cases hv
        simpa using JsNum.gt_irrefl n

theorem maxId_fold (ids : List Ident) (m0 : JsNum) :
    (ids.foldl Graph.maxIdStep m0 = m0
        ∨ ∃ id ∈ ids, jsNumber id = some (ids.foldl Graph.maxIdStep m0))
    ∧ m0.gt (ids.foldl Graph.maxIdStep m0) = false
    ∧ ∀ id ∈ ids, ∀ v, jsNumber id = some v → v.gt (ids.foldl Graph.maxIdStep m0) = false := by
  induction ids generalizing m0 with
  | nil => exact ⟨Or.inl rfl, JsNum.gt_irrefl m0, fun id h => by cases h⟩
  | cons x xs ih =>
    rw [List.foldl_cons]
    obtain ⟨h1, h2, h3⟩ := ih (Graph.maxIdStep m0 x)
    obtain ⟨s1, s2, s3⟩ := maxIdStep_spec m0 x
    refine ⟨?_, JsNum.le_trans _ _ _ s1 h2, ?_⟩
    · rcases h1 with h1 | ⟨id, hid, h1⟩
      · rcases s3 with h4 | h4
        · exact Or.inl (h1.trans h4)
        · exact Or.inr ⟨x, List.mem_cons_self _ _, by rw [h1]; exact h4⟩
      · exact Or.inr ⟨id, List.mem_cons_of_mem _ hid, h1⟩
    · intro id hid v hv
      rcases List.mem_cons.1 hid with e | hid
      · subst e
        exact JsNum.le_trans _ _ _ (s2 v hv) h2
      · exact h3 id hid v hv

theorem maxId_fold_of_none_above (ids : List Ident) (m0 : JsNum)
    (h : ∀ id ∈ ids, ∀ v, jsNumber id = some v → v.gt m0 = false) :
    ids.foldl Graph.maxIdStep m0 = m0 := by
  induction ids with
  | nil => rfl
  | cons x xs ih =>
    have hx : Graph.maxIdStep m0 x = m0 := by
      unfold Graph.maxIdStep
      cases hn : jsNumber x with
      | none => rfl
      | some n => simp [h x (List.mem_cons_self _ _) n hn]
    rw [List.foldl_cons, hx]
    exact ih (fun id hid => h id (List.mem_cons_of_mem _ hid))

theorem JsNum.gt_ofInt (a b : Int) : (JsNum.ofInt a).gt (JsNum.ofInt b) = decide (b < a) := by
  simp [JsNum.ofInt, JsNum.gt, Dec.gt, Dec.ofInt]

theorem JsNum.addOne_ofInt (a : Int) : (JsNum.ofInt a).addOne = JsNum.ofInt (a + 1) := by
  simp [JsNum.ofInt, JsNum.addOne, Dec.addOne, Dec.ofInt]

theorem JsNum.ofInt_inj (a b : Int) (h : JsNum.ofInt a = JsNum.ofInt b) : a = b := by
  simpa [JsNum.ofInt, Dec.ofInt] using h

/-! ## Rounding to binary64 -/

theorem Dec.toRat_normalizeAux (m : Int) (s : Nat) :
    (Dec.normalizeAux m s).toRat = (m : ℚ) / 10 ^ s := by
  induction s generalizing m with
  | zero => simp [Dec.normalizeAux, Dec.toRat]
  | succ s ih =>
    rw [Dec.normalizeAux]
    split
    · next h =>
      rw [ih]
      obtain ⟨c, hc⟩ := Int.dvd_of_emod_eq_zero h
      subst hc
      rw [Int.mul_ediv_cancel_left c (by decide)]
      push_cast
      rw [pow_succ]
      field_simp
      ring
    · rfl

theorem Dec.toRat_normalize (d : Dec) : d.normalize.toRat = d.toRat :=
  Dec.toRat_normalizeAux d.mant d.scale

theorem Dec.toRat_addOne (d : Dec) : d.addOne.toRat = d.toRat + 1 := by
  unfold Dec.addOne Dec.toRat
  push_cast
  field_simp

theorem Dec.toRat_ofInt (z : Int) : (Dec.ofInt z).toRat = z := by
  simp [Dec.ofInt, Dec.toRat]

theorem Dec.log2Aux_le (fuel : Nat) : ∀ n, n ≠ 0 → 2 ^ Dec.log2Aux fuel n ≤ n := by
  induction fuel with
  | zero => intro n hn; simp only [Dec.log2Aux, pow_zero]; omega
  | succ fuel ih =>
    intro n hn
    rw [Dec.log2Aux]
    split
    · simp only [pow_zero]; omega
    · next h2 =>
      have := ih (n / 2) (by omega)
      rw [pow_succ]
      omega

theorem Dec.roundHalfEven_ge (num den : Nat) : num / den ≤ Dec.roundHalfEven num den := by
  unfold Dec.roundHalfEven
  split_ifs <;> omega

/-- A positive fraction that is at least the integer `k`, with `k` at most `2 ^ 53`, is never
rounded below `k`: the binary64 values include the integers up to `2 ^ 53`. -/
theorem Dec.roundPos_ge (p q k : Nat) (hq : 0 < q) (hk : k ≤ 2 ^ 53) (hkp : k * q ≤ p)
    (r : Dec) (hr : Dec.roundPos p q = some r) : (k : ℚ) ≤ r.toRat := by
  unfold Dec.roundPos at hr
  simp only [] at hr
  split at hr
  · cases hr
  split at hr
  · cases hr
  · injection hr with hr
    subst hr
    rw [Dec.toRat_normalize]
    simp only [Dec.toRat]
    have hfl := Dec.roundHalfEven_ge
      (p * 2 ^ (-(max (Dec.binExp p q - 52) (-1074))).toNat)
      (q * 2 ^ (max (Dec.binExp p q - 52) (-1074)).toNat)
    generalize hn : Dec.roundHalfEven
      (p * 2 ^ (-(max (Dec.binExp p q - 52) (-1074))).toNat)
      (q * 2 ^ (max (Dec.binExp p q - 52) (-1074)).toNat) = n at hfl
    rcases le_or_lt (max (Dec.binExp p q - 52) (-1074)) 0 with he | he
    · -- exponent at most 0
      have h1 : (max (Dec.binExp p q - 52) (-1074)).toNat = 0 := Int.toNat_eq_zero.2 he
      rw [h1] at hfl ⊢
      generalize (-(max (Dec.binExp p q - 52) (-1074))).toNat = j at hfl ⊢
      simp only [pow_zero, mul_one] at hfl ⊢
      have h2 : k * 2 ^ j ≤ p * 2 ^ j / q := by
        rw [Nat.le_div_iff_mul_le hq]
        calc k * 2 ^ j * q = k * q * 2 ^ j := by ring
          _ ≤ p * 2 ^ j := Nat.mul_le_mul_right _ hkp
      have h3 : k * 2 ^ j ≤ n := le_trans h2 hfl
      have h4 : ((k * 2 ^ j : Nat) : ℚ) ≤ (n : ℚ) := by exact_mod_cast h3
      push_cast at h4 ⊢
      rw [le_div_iff₀ (by positivity)]
      have h5 : (10 : ℚ) ^ j = 2 ^ j * 5 ^ j := by rw [← mul_pow]; norm_num
      rw [h5]
      calc (k : ℚ) * (2 ^ j * 5 ^ j) = (k * 2 ^ j) * 5 ^ j := by ring
        _ ≤ n * 5 ^ j := by gcongr
    · -- positive exponent
      have h1 : (-(max (Dec.binExp p q - 52) (-1074))).toNat = 0 :=
        Int.toNat_eq_zero.2 (by omega)
      rw [h1] at hfl ⊢
      have hE : max (Dec.binExp p q - 52) (-1074) = Dec.binExp p q - 52 := by
        rcases max_choice (Dec.binExp p q - 52) (-1074) with h | h
        · exact h
        · rw [h] at he; omega
      rw [hE] at hfl he ⊢
      have hpos : 52 < Dec.binExp p q := by omega
      have hbe : Dec.binExp p q = (Dec.log2 (p / q) : Int) ∧ q ≤ p := by
        unfold Dec.binExp at hpos ⊢
        split_ifs at hpos ⊢ with c1 c2
        · exact ⟨rfl, c1⟩
        · omega
        · omega
      obtain ⟨hbe, hqp⟩ := hbe
      have htne : p / q ≠ 0 := by
        have := Nat.div_pos hqp hq
        omega
      have hlog := Dec.log2Aux_le (p / q) (p / q) htne
      rw [hbe] at hfl ⊢
      have hj : ((Dec.log2 (p / q) : Int) - 52).toNat = Dec.log2 (p / q) - 52 := by omega
      have hge : 53 ≤ Dec.log2 (p / q) := by
        rw [hbe] at hpos; omega
      rw [hj] at hfl ⊢
      simp only [pow_zero, mul_one, Nat.cast_one, div_one] at hfl ⊢
      have hp : 2 ^ Dec.log2 (p / q) * q ≤ p := by
        have : 2 ^ Dec.log2 (p / q) ≤ p / q := hlog
        exact (Nat.le_div_iff_mul_le hq).1 this
      have h2 : 2 ^ 52 ≤ p / (q * 2 ^ (Dec.log2 (p / q) - 52)) := by
        rw [Nat.le_div_iff_mul_le (by positivity)]
        calc 2 ^ 52 * (q * 2 ^ (Dec.log2 (p / q) - 52))
            = 2 ^ (52 + (Dec.log2 (p / q) - 52)) * q := by rw [pow_add]; ring
          _ = 2 ^ Dec.log2 (p / q) * q := by rw [Nat.add_sub_cancel' (by omega)]
          _ ≤ p := hp
      have h3 : 2 ^ 52 ≤ n := le_trans h2 hfl
      have h4 : 2 ^ 53 ≤ n * 2 ^ (Dec.log2 (p / q) - 52) := by
        calc 2 ^ 53 = 2 ^ 52 * 2 ^ 1 := by norm_num
          _ ≤ n * 2 ^ (Dec.log2 (p / q) - 52) :=
            Nat.mul_le_mul h3 (Nat.pow_le_pow_right (by decide) (by omega))
      have h5 : k ≤ n * 2 ^ (Dec.log2 (p / q) - 52) := le_trans hk h4
      exact_mod_cast h5

/-- Rounding never crosses an integer that is a binary64 value: a number that is at least
the integer `k`, for `1 ≤ k ≤ 2 ^ 53`, rounds to a finite value that is at least `k`. -/
theorem Dec.round64_ge (d : Dec) (k : Nat) (hk1 : 1 ≤ k) (hk : k ≤ 2 ^ 53)
    (hd : (k : ℚ) ≤ d.toRat) (r : Dec) (hr : d.round64 = JsNum.fin r) : (k : ℚ) ≤ r.toRat := by
  have hc : (k : ℚ) ≤ d.normalize.toRat := by rw [Dec.toRat_normalize]; exact hd
  unfold Dec.round64 at hr
  generalize d.normalize = c at hr hc
  have hk0 : (1 : ℚ) ≤ k := by exact_mod_cast hk1
  have hmant : 0 < c.mant := by
    by_contra hneg
    have h0 : c.toRat ≤ 0 := by
      unfold Dec.toRat
      apply div_nonpos_of_nonpos_of_nonneg
      · exact_mod_cast (not_lt.1 hneg)
      · positivity
    linarith
  have habs : ((c.mant.natAbs : Nat) : Int) = c.mant := Int.natAbs_of_nonneg hmant.le
  split at hr
  · injection hr with hr
    rw [← hr]
    exact hc
  · split at hr
    · split_ifs at hr
    · next r0 h0 =>
      rw [if_neg (not_lt.2 hmant.le)] at hr
      injection hr with hr
      have hkp : k * 10 ^ c.scale ≤ c.mant.natAbs := by
        have h1 : (k : ℚ) * 10 ^ c.scale ≤ c.mant := by
          unfold Dec.toRat at hc
          rwa [le_div_iff₀ (by positivity)] at hc
        have h2 : ((k * 10 ^ c.scale : Nat) : Int) ≤ c.mant := by exact_mod_cast h1
        rw [← habs] at h2
        exact_mod_cast h2
      have := Dec.roundPos_ge c.mant.natAbs (10 ^ c.scale) k (by positivity) hk hkp r0 h0
      rw [← hr]
      simpa [Dec.toRat] using this

/-! ## Default identities in binary64 -/

theorem Binary64.addOne_exact (z : Int) (h : (z + 1).natAbs ≤ 2 ^ 53) :
    Binary64.addOne (JsNum.ofInt z) = JsNum.ofInt (z + 1) := by
  show Dec.round64 ⟨z + 10 ^ 0, 0⟩ = JsNum.fin ⟨z + 1, 0⟩
  unfold Dec.round64
  simp only [Dec.normalize, Dec.normalizeAux, pow_zero]
  rw [if_pos ⟨trivial, h⟩]

theorem Binary64.getNextNodeId_val (g : Graph) :
    Binary64.getNextNodeId g
      = Binary64.addOne (g.nodes.keys.foldl Graph.maxIdStep (JsNum.ofInt 0)) := by
  unfold Binary64.getNextNodeId
  split
  · next h0 =>
    have : g.nodes.keys = [] := by
      simp only [JsMap.size, List.length_eq_zero] at h0
      simp [JsMap.keys, h0]
    rw [this, List.foldl_nil, Binary64.addOne_exact 0 (by decide)]
    rfl
  · rfl

/-- While every numeric value in the node set is an integer below `2 ^ 53`, the binary64 sum
of `getNextNodeId` is exact: both forms of the method return the same number. -/
theorem Binary64.getNextNodeId_eq (g : Graph)
    (h : ∀ id ∈ g.nodes.keys, ∀ v, jsNumber id = some v →
      ∃ z : Int, v = JsNum.ofInt z ∧ z < 2 ^ 53) :
    Binary64.getNextNodeId g = g.getNextNodeId := by
  have hfold := maxId_fold g.nodes.keys (JsNum.ofInt 0)
  have hex : g.getNextNodeId = (g.nodes.keys.foldl Graph.maxIdStep (JsNum.ofInt 0)).addOne := by
    unfold Graph.getNextNodeId
    split
    · next h0 =>
      have : g.nodes.keys = [] := by
        simp only [JsMap.size, List.length_eq_zero] at h0
        simp [JsMap.keys, h0]
      rw [this, List.foldl_nil, JsNum.addOne_ofInt]
      rfl
    · rfl
  rw [Binary64.getNextNodeId_val, hex]
  obtain ⟨hsrc, hge, _⟩ := hfold
  have hmz : ∃ zm : Int, g.nodes.keys.foldl Graph.maxIdStep (JsNum.ofInt 0) = JsNum.ofInt zm
      ∧ zm < 2 ^ 53 := by
    rcases hsrc with e | ⟨id, hid, e⟩
    · exact ⟨0, e, by decide⟩
    · exact h id hid _ e
  obtain ⟨zm, e, hlt⟩ := hmz
  rw [e] at hge ⊢
  rw [JsNum.gt_ofInt, decide_eq_false_iff_not, not_lt] at hge
  rw [Binary64.addOne_exact zm (by omega), JsNum.addOne_ofInt]

/-- C10, as stated, fails: with the only node labelled "2.5" (numeric value 2.5) the next id
is 3.5, no integer; the same happens after parsing the edge list "2.5 x"; and with the only
node labelled "9007199254740992" (the number 2^53) the next id is 9007199254740992 itself,
not a greater integer, because the binary64 sum is rounded. -/
theorem getNextNodeId_counterexample :
    fractionLabel.nodes.keys = [Ident.str ['2', '.', '5']]
    ∧ jsNumber (Ident.str ['2', '.', '5']) = some (JsNum.fin ⟨25, 1⟩)
    ∧ Binary64.getNextNodeId fractionLabel = JsNum.fin ⟨35, 1⟩
    ∧ (JsNum.fin ⟨35, 1⟩).toJStr = ['3', '.', '5']
    ∧ Binary64.getNextNodeId fractionLabel ≠ JsNum.ofInt 3
    ∧ (∀ z : Int, Binary64.getNextNodeId fractionLabel ≠ JsNum.ofInt z)
    ∧ Binary64.getNextNodeId
        (Graph.new.parseEdgeList (fun _ _ => (0, 0)) ['2', '.', '5', ' ', 'x'])
        = JsNum.fin ⟨35, 1⟩
    ∧ bigLabel.nodes.keys = [Ident.str "9007199254740992".toList]
    ∧ jsNumber (Ident.str "9007199254740992".toList) = some (JsNum.ofInt 9007199254740992)
    ∧ Binary64.getNextNodeId bigLabel = JsNum.ofInt 9007199254740992 := by
  refine ⟨by decide, by decide, by decide, by decide, by decide, ?_, by decide, by decide,
    by decide, by decide⟩
  intro z h
  have e : Binary64.getNextNodeId fractionLabel = JsNum.fin ⟨35, 1⟩ := by decide
  rw [e] at h
  simp [JsNum.ofInt, Dec.ofInt] at h

/-- C10, amended: `getNextNodeId` returns the binary64 sum `m + 1`, where `m` is 0 or the
numeric value of an existing identity, `m` is not below 0, and no existing identity has a
numeric value above `m` (string labels count with the number they convert to, non-numeric
labels are ignored); it returns 1 when the node set is empty or no identity has a numeric
value above 0; and when every numeric value is an integer below 2^53, the result is the
smallest positive integer strictly greater than all of them. -/
theorem getNextNodeId_spec (g : Graph) :
    (∃ m : JsNum, Binary64.getNextNodeId g = Binary64.addOne m
      ∧ (m = JsNum.ofInt 0 ∨ ∃ id ∈ g.nodes.keys, jsNumber id = some m)
      ∧ (JsNum.ofInt 0).gt m = false
      ∧ ∀ id ∈ g.nodes.keys, ∀ v, jsNumber id = some v → v.gt m = false)
    ∧ (g.nodes.keys = [] → Binary64.getNextNodeId g = JsNum.ofInt 1)
    ∧ ((∀ id ∈ g.nodes.keys, ∀ v, jsNumber id = some v → v.gt (JsNum.ofInt 0) = false) →
        Binary64.getNextNodeId g = JsNum.ofInt 1)
    ∧ ((∀ id ∈ g.nodes.keys, ∀ v, jsNumber id = some v →
          ∃ z : Int, v = JsNum.ofInt z ∧ z < 2 ^ 53) →
        ∃ n : Int, Binary64.getNextNodeId g = JsNum.ofInt n ∧ 0 < n
          ∧ (∀ id ∈ g.nodes.keys, ∀ z : Int, jsNumber id = some (JsNum.ofInt z) → z < n)
          ∧ ∀ k : Int, 0 < k →
              (∀ id ∈ g.nodes.keys, ∀ z : Int, jsNumber id = some (JsNum.ofInt z) → z < k) →
              n ≤ k) := by
  have hfold := maxId_fold g.nodes.keys (JsNum.ofInt 0)
  have hval := Binary64.getNextNodeId_val g
  have main : ∃ m : JsNum, Binary64.getNextNodeId g = Binary64.addOne m
      ∧ (m = JsNum.ofInt 0 ∨ ∃ id ∈ g.nodes.keys, jsNumber id = some m)
      ∧ (JsNum.ofInt 0).gt m = false
      ∧ ∀ id ∈ g.nodes.keys, ∀ v, jsNumber id = some v → v.gt m = false :=
    ⟨_, hval, hfold.1, hfold.2.1, hfold.2.2⟩
  refine ⟨main, ?_, ?_, ?_⟩
  · intro h0
    rw [hval, h0, List.foldl_nil, Binary64.addOne_exact 0 (by decide)]
    rfl
  · intro hall
    rw [hval, maxId_fold_of_none_above _ _ hall, Binary64.addOne_exact 0 (by decide)]
    rfl
  · intro hint
    obtain ⟨m, hm, hsrc, hge, hmax⟩ := main
    have hmz : ∃ zm : Int, m = JsNum.ofInt zm ∧ zm < 2 ^ 53 := by
      rcases hsrc with e | ⟨id, hid, e⟩
      · exact ⟨0, e, by decide⟩
      · exact hint id hid m e
    obtain ⟨zm, rfl, hlt⟩ := hmz
    rw [JsNum.gt_ofInt, decide_eq_false_iff_not, not_lt] at hge
    refine ⟨zm + 1, by rw [hm, Binary64.addOne_exact zm (by omega)], by omega, ?_, ?_⟩
    · intro id hid z hz
      have := hmax id hid _ hz
      rw [JsNum.gt_ofInt, decide_eq_false_iff_not, not_lt] at this
      omega
    · intro k hk hall
      rcases hsrc with e | ⟨id, hid, e⟩
      · have := JsNum.ofInt_inj _ _ e
        omega
      · have := hall id hid zm e
        omega

set_option maxRecDepth 100000 in
/-- Witness for C10: the sample graph with the integer identities 1, 2, 3 gives 4; the label
"3.14" gives the number printed as 4.140000000000001, and the label "1e400", whose value is
`Infinity`, gives `Infinity`. -/
theorem getNextNodeId_spec_witness :
    Binary64.getNextNodeId sampleChain = JsNum.ofInt 4
    ∧ (∀ id ∈ sampleChain.nodes.keys, ∀ v, jsNumber id = some v →
        ∃ z : Int, v = JsNum.ofInt z ∧ z < 2 ^ 53)
    ∧ (∃ n : Int, Binary64.getNextNodeId sampleChain = JsNum.ofInt n ∧ 0 < n
        ∧ (∀ id ∈ sampleChain.nodes.keys, ∀ z : Int,
            jsNumber id = some (JsNum.ofInt z) → z < n)
        ∧ ∀ k : Int, 0 < k →
            (∀ id ∈ sampleChain.nodes.keys, ∀ z : Int,
              jsNumber id = some (JsNum.ofInt z) → z < k) →
            n ≤ k)
    ∧ (Binary64.getNextNodeId piLabel).toJStr = "4.140000000000001".toList
    ∧ jsNumber (Ident.str "1e400".toList) = some JsNum.posInf
    ∧ Binary64.getNextNodeId hugeLabel = JsNum.posInf :=
  have hint : ∀ id ∈ sampleChain.nodes.keys, ∀ v, jsNumber id = some v →
      ∃ z : Int, v = JsNum.ofInt z ∧ z < 2 ^ 53 := by
    intro id hid v hv
    have hk : sampleChain.nodes.keys = [Ident.int 1, Ident.int 2, Ident.int 3] := by decide
    rw [hk] at hid
    simp only [List.mem_cons, List.mem_singleton, List.not_mem_nil, or_false] at hid
    rcases hid with e | e | e <;> subst e <;> cases hv
    · exact ⟨1, rfl, by decide⟩
    · exact ⟨2, rfl, by decide⟩
    · exact ⟨3, rfl, by decide⟩
  ⟨by decide, hint, (getNextNodeId_spec sampleChain).2.2.2 hint, by decide, by decide,
    by decide⟩

/-! ## Matrix round trip -/

set_option maxRecDepth 100000 in
/-- C4 fails on the code at 11 rows: in directed mode, parsing the 11 x 11 text whose only
"1" is the first cell of the last row stores the single edge (10, 0); the export orders the
nodes 0, 1, 10, 2, ..., 9 (by their string forms) and so writes the "1" into the third row,
which differs from the text that was parsed. -/
theorem matrix_roundtrip_fails_at_eleven :
    matrixGraph11.directed = true
    ∧ matrixGraph11.nodes.keys = (List.range 11).map (fun i => Ident.int i)
    ∧ matrixGraph11.edges.values = [⟨Ident.int 10, Ident.int 0⟩]
    ∧ Graph.sortDefault matrixGraph11.nodes.keys
        = [Ident.int 0, Ident.int 1, Ident.int 10, Ident.int 2, Ident.int 3, Ident.int 4,
            Ident.int 5, Ident.int 6, Ident.int 7, Ident.int 8, Ident.int 9]
    ∧ matrixGraph11.exportAdjacencyMatrix = matrixExport11
    ∧ matrixGraph11.exportAdjacencyMatrix ≠ matrixText11 := by
  refine ⟨by decide, by decide, by decide, by decide, by decide, by decide⟩

/-! ## String lemmas for the round trips -/

theorem trim_eq_self (s : JStr) (h1 : ∀ c, s.head? = some c → isWs c = false)
    (h2 : ∀ c, s.getLast? = some c → isWs c = false) : trim s = s := by
  unfold trim
  have e1 : s.dropWhile isWs = s := by
    cases s with
    | nil => rfl
    | cons x xs =>
      have := h1 x rfl
      simp [List.dropWhile, this]
  rw [e1]
  have e2 : s.reverse.dropWhile isWs = s.reverse := by
    cases hr : s.reverse with
    | nil => rfl
    | cons x xs =>
      have hl : s.getLast? = some x := by
        rw [← List.head?_reverse, hr]; rfl
      have := h2 x hl
      simp [List.dropWhile, this]
  rw [e2, List.reverse_reverse]

theorem splitChar_ne_nil (c : Char) (s : JStr) : splitChar c s ≠ [] := by
  cases s with
  | nil => simp [splitChar]
  | cons x xs =>
    rw [splitChar]
    split
    · simp
    · split <;> simp

theorem splitChar_cons_sep (c : Char) (xs : JStr) : splitChar c (c :: xs) = [] :: splitChar c xs := by
  rw [splitChar]; simp

theorem splitChar_cons_ne (c x : Char) (xs : JStr) (h : x ≠ c) :
    splitChar c (x :: xs) = (x :: (splitChar c xs).headI) :: (splitChar c xs).tail := by
  rw [splitChar]
  simp only [h, if_false]
  cases h2 : splitChar c xs with
  | nil => exact absurd h2 (splitChar_ne_nil c xs)
  | cons a as => rfl

theorem splitWs_nil : splitWs [] = [[]] := by rw [splitWs]

theorem splitWs_ne_nil (s : JStr) : splitWs s ≠ [] := by
  induction s with
  | nil => simp [splitWs]
  | cons x xs ih =>
    rw [splitWs]
    by_cases hx : isWs x = true
    · simp only [hx, if_true]
      by_cases hy : startsWs xs = true
      · simp only [hy, if_true]; exact ih
      · simp [hy]
    · simp only [hx]
      cases h2 : splitWs xs <;> simp

theorem splitWs_cons_clean (x : Char) (xs : JStr) (hx : isWs x = false) :
    splitWs (x :: xs) = (x :: (splitWs xs).headI) :: (splitWs xs).tail := by
  rw [splitWs]
  simp only [hx]
  cases h2 : splitWs xs with
  | nil => exact absurd h2 (splitWs_ne_nil xs)
  | cons a as => simp

theorem splitWs_ws_clean (x y : Char) (r : JStr) (hx : isWs x = true) (hy : isWs y = false) :
    splitWs (x :: y :: r) = [] :: splitWs (y :: r) := by
  rw [splitWs]
  simp [hx, hy, startsWs]

theorem splitWs_ws_ws (x y : Char) (r : JStr) (hx : isWs x = true) (hy : isWs y = true) :
    splitWs (x :: y :: r) = splitWs (y :: r) := by
  rw [splitWs]
  simp [hx, hy, startsWs]

theorem splitWs_ws_end (x : Char) (hx : isWs x = true) :
    splitWs [x] = [[], []] := by
  rw [splitWs]
  simp [hx, startsWs, splitWs_nil]

theorem splitChar_append (c : Char) (l r : JStr) (hl : c ∉ l) :
    splitChar c (l ++ r) = (l ++ (splitChar c r).headI) :: (splitChar c r).tail := by
  induction l with
  | nil =>
    cases h : splitChar c r with
    | nil => exact absurd h (splitChar_ne_nil c r)
    | cons a as => simp [h]
  | cons x xs ih =>
    simp only [List.mem_cons, not_or] at hl
    have hx : x ≠ c := fun e => hl.1 e.symm
    rw [List.cons_append, splitChar_cons_ne c x _ hx, ih hl.2]
    simp

theorem splitChar_of_not_mem (c : Char) (l : JStr) (hl : c ∉ l) : splitChar c l = [l] := by
  have := splitChar_append c l [] hl
  simpa [splitChar] using this

theorem splitChar_append_sep (c : Char) (l r : JStr) (hl : c ∉ l) :
    splitChar c (l ++ c :: r) = l :: splitChar c r := by
  rw [splitChar_append c l _ hl, splitChar_cons_sep]
  simp

theorem splitChar_join (c : Char) (ls : List JStr) (hne : ls ≠ []) (h : ∀ l ∈ ls, c ∉ l) :
    splitChar c (join [c] ls) = ls := by
  induction ls with
  | nil => exact absurd rfl hne
  | cons l rest ih =>
    cases rest with
    | nil => simpa [join] using splitChar_of_not_mem c l (h l (List.mem_cons_self _ _))
    | cons t rest =>
      have := ih (by simp) (fun l hl => h l (List.mem_cons_of_mem _ hl))
      simp only [join, List.append_assoc, List.singleton_append]
      rw [splitChar_append_sep c l _ (h l (List.mem_cons_self _ _)), this]

theorem splitWs_append (t r : JStr) (ht : ∀ c ∈ t, isWs c = false) :
    splitWs (t ++ r) = (t ++ (splitWs r).headI) :: (splitWs r).tail := by
  induction t with
  | nil =>
    cases h : splitWs r with
    | nil => exact absurd h (splitWs_ne_nil r)
    | cons a as => simp [h]
  | cons x xs ih =>
    have hx : isWs x = false := ht x (List.mem_cons_self _ _)
    have := ih (fun c hc => ht c (List.mem_cons_of_mem _ hc))
    rw [List.cons_append, splitWs_cons_clean x _ hx, this]
    simp

theorem splitWs_of_clean (t : JStr) (ht : ∀ c ∈ t, isWs c = false) : splitWs t = [t] := by
  have := splitWs_append t [] ht
  simpa [splitWs_nil] using this

theorem splitWs_append_space (t r : JStr) (ht : ∀ c ∈ t, isWs c = false)
    (hr : ∃ y ys, r = y :: ys ∧ isWs y = false) :
    splitWs (t ++ ' ' :: r) = t :: splitWs r := by
  obtain ⟨y, ys, rfl, hy⟩ := hr
  rw [splitWs_append t _ ht, splitWs_ws_clean ' ' y ys (by decide) hy]
  simp

theorem join_head_clean (toks : List JStr) (t : JStr) (ht : CleanToken t) :
    ∃ y ys, join [' '] (t :: toks) = y :: ys ∧ isWs y = false := by
  obtain ⟨hne, hc⟩ := ht
  cases t with
  | nil => exact absurd rfl hne
  | cons y ys =>
    cases toks with
    | nil => exact ⟨y, ys, rfl, hc y (List.mem_cons_self _ _)⟩
    | cons u rest => exact ⟨y, _, rfl, hc y (List.mem_cons_self _ _)⟩

theorem splitWs_join (toks : List JStr) (hne : toks ≠ []) (h : ∀ t ∈ toks, CleanToken t) :
    splitWs (join [' '] toks) = toks := by
  induction toks with
  | nil => exact absurd rfl hne
  | cons t rest ih =>
    cases rest with
    | nil => simpa [join] using splitWs_of_clean t (h t (List.mem_cons_self _ _)).2
    | cons u rest =>
      have hrest := ih (by simp) (fun l hl => h l (List.mem_cons_of_mem _ hl))
      simp only [join, List.append_assoc, List.singleton_append]
      rw [splitWs_append_space t _ (h t (List.mem_cons_self _ _)).2
        (join_head_clean rest u (h u (List.mem_cons_of_mem _ (List.mem_cons_self _ _)))), hrest]

/-! ## Lemmas on the parser loops -/

theorem addNode_label_has (g : Graph) (x y : Int) (l id : Ident) :
    (g.addNode x y (some l)).2.nodes.has id = (decide (id = l) || g.nodes.has id) := by
  simp only [Graph.addNode]
  cases h : g.nodes.has l
  · simp only [Bool.not_false, if_true, JsMap.has_set]
  · simp only [Bool.not_true, Bool.false_eq_true, if_false]
    by_cases e : id = l
    · subst e; simp [h]
    · simp [e]

theorem addNodesFrom_spec (layout : Layout) (total : Nat) (ids : List Ident) :
    ∀ (index : Nat) (g : Graph),
      (Graph.addNodesFrom layout total index ids g).edges = g.edges
      ∧ (Graph.addNodesFrom layout total index ids g).directed = g.directed
      ∧ ∀ id, (Graph.addNodesFrom layout total index ids g).nodes.has id = true
          ↔ (g.nodes.has id = true ∨ id ∈ ids) := by
  induction ids with
  | nil => intro _ g; simp [Graph.addNodesFrom]
  | cons a rest ih =>
    intro index g
    obtain ⟨h1, h2, h3⟩ := ih (index + 1)
      (g.addNode (layout index total).1 (layout index total).2 (some a)).2
    refine ⟨?_, ?_, ?_⟩
    · rw [Graph.addNodesFrom, h1, (addNode_edges _ _ _ _).1]
    · rw [Graph.addNodesFrom, h2, (addNode_edges _ _ _ _).2]
    · intro id
      rw [Graph.addNodesFrom, h3, addNode_label_has]
      simp only [Bool.or_eq_true, decide_eq_true_eq, List.mem_cons]
      tauto

theorem replay_edges (d : Bool) (suf : List (JStr × Edge)) :
    ∀ (g : Graph), g.directed = d →
      (∀ p ∈ suf, p.1 = edgeKey p.2.from_ p.2.to_) →
      (∀ p ∈ suf, g.nodes.has p.2.from_ = true ∧ g.nodes.has p.2.to_ = true) →
      ((g.edges.entries ++ suf).map Prod.fst).Nodup →
      (d = false →
        (g.edges.entries ++ suf).Pairwise (fun p q => edgeKey q.2.to_ q.2.from_ ≠ p.1)) →
      ((suf.map Prod.snd).foldl (fun g e => g.addEdge e.from_ e.to_) g).edges.entries
          = g.edges.entries ++ suf
        ∧ ((suf.map Prod.snd).foldl (fun g e => g.addEdge e.from_ e.to_) g).nodes = g.nodes
        ∧ ((suf.map Prod.snd).foldl (fun g e => g.addEdge e.from_ e.to_) g).directed = d := by
  induction suf with
  | nil => intro g hd _ _ _ _; simp [hd]
  | cons p rest ih =>
    intro g hd hc hn hnd hpw
    have hp1 : g.edges.has (edgeKey p.2.from_ p.2.to_) = false := by
      rw [JsMap.has_eq_false_iff, ← hc p (List.mem_cons_self _ _)]
      intro hmem
      rw [List.map_append, List.nodup_append] at hnd
      exact hnd.2.2 hmem (List.mem_map.2 ⟨p, List.mem_cons_self _ _, rfl⟩)
    have hstep : g.addEdge p.2.from_ p.2.to_
        = { g with edges := g.edges.set (edgeKey p.2.from_ p.2.to_) ⟨p.2.from_, p.2.to_⟩ } := by
      have ⟨h1, h2⟩ := hn p (List.mem_cons_self _ _)
      cases d with
      | true => simp [Graph.addEdge, h1, h2, hd]
      | false =>
        have hp2 : g.edges.has (edgeKey p.2.to_ p.2.from_) = false := by
          rw [JsMap.has_eq_false_iff]
          intro hmem
          obtain ⟨q, hq, hqk⟩ := List.mem_map.1 hmem
          have := hpw rfl
          rw [List.pairwise_append] at this
          exact this.2.2 q hq p (List.mem_cons_self _ _) hqk.symm
        simp [Graph.addEdge, h1, h2, hd, hp1, hp2]
    have hent : (g.addEdge p.2.from_ p.2.to_).edges.entries = g.edges.entries ++ [p] := by
      rw [hstep]
      show (g.edges.set _ _).entries = _
      rw [JsMap.set_entries_of_not_has _ _ _ hp1, ← hc p (List.mem_cons_self _ _)]
    have hnodes : (g.addEdge p.2.from_ p.2.to_).nodes = g.nodes := (addEdge_nodes _ _ _).1
    have hdir : (g.addEdge p.2.from_ p.2.to_).directed = d := by
      rw [(addEdge_nodes _ _ _).2, hd]
    have hassoc : (g.addEdge p.2.from_ p.2.to_).edges.entries ++ rest
        = g.edges.entries ++ p :: rest := by
      rw [hent]; simp
    obtain ⟨r1, r2, r3⟩ := ih (g.addEdge p.2.from_ p.2.to_) hdir
      (fun q hq => hc q (List.mem_cons_of_mem _ hq))
      (fun q hq => by rw [hnodes]; exact hn q (List.mem_cons_of_mem _ hq))
      (by rw [hassoc]; exact hnd)
      (fun h => by rw [hassoc]; exact hpw h)
    simp only [List.map_cons, List.foldl_cons]
    exact ⟨by rw [r1, hassoc], by rw [r2, hnodes], r3⟩

theorem head?_join (sep : JStr) (l : JStr) (rest : List JStr) (hl : l ≠ []) :
    (join sep (l :: rest)).head? = l.head? := by
  cases l with
  | nil => exact absurd rfl hl
  | cons x xs =>
    cases rest with
    | nil => rfl
    | cons t rest => rfl

theorem getLast?_join (sep : JStr) (ls : List JStr) (hne : ls ≠ [])
    (h : ∀ l ∈ ls, l ≠ []) :
    (join sep ls).getLast? = (ls.getLast hne).getLast? := by
  induction ls with
  | nil => exact absurd rfl hne
  | cons l rest ih =>
    cases rest with
    | nil => rfl
    | cons t rest =>
      have hj := ih (by simp) (fun l hl => h l (List.mem_cons_of_mem _ hl))
      have hne2 : join sep (t :: rest) ≠ [] := by
        intro e
        have := head?_join sep t rest (h t (by simp))
        rw [e] at this
        cases ht : t with
        | nil => exact h t (by simp) ht
        | cons a b => rw [ht] at this; cases this
      have hne3 : sep ++ join sep (t :: rest) ≠ [] := by simp [hne2]
      simp only [join, List.append_assoc]
      rw [List.getLast?_append_of_ne_nil _ hne3, List.getLast?_append_of_ne_nil _ hne2, hj]
      simp

/-! ## Edge-list round trip -/

theorem mem_setAdd (set : List JStr) (x y : JStr) :
    y ∈ Graph.setAdd set x ↔ y ∈ set ∨ y = x := by
  unfold Graph.setAdd
  split
  · next h =>
    constructor
    · exact Or.inl
    · rintro (h1 | h1)
      · exact h1
      · exact h1 ▸ h
  · simp

theorem edgeListNodeStep_mono (set : List JStr) (line x : JStr) (hx : x ∈ set) :
    x ∈ Graph.edgeListNodeStep set line := by
  unfold Graph.edgeListNodeStep
  split
  · simp [mem_setAdd, hx]
  · exact hx

theorem edgeListNodeStep_fold_mono (lines : List JStr) (set : List JStr) (x : JStr)
    (hx : x ∈ set) : x ∈ lines.foldl Graph.edgeListNodeStep set := by
  induction lines generalizing set with
  | nil => exact hx
  | cons l rest ih => exact ih _ (edgeListNodeStep_mono set l x hx)

theorem edgeListNodeStep_fold_mem (lines : List JStr) (set : List JStr) (l f t : JStr)
    (rest : List JStr) (hl : l ∈ lines) (hsplit : splitWs (trim l) = f :: t :: rest) :
    f ∈ lines.foldl Graph.edgeListNodeStep set ∧ t ∈ lines.foldl Graph.edgeListNodeStep set := by
  induction lines generalizing set with
  | nil => cases hl
  | cons a as ih =>
    rcases List.mem_cons.1 hl with e | hl
    · subst e
      have h1 : f ∈ Graph.edgeListNodeStep set l ∧ t ∈ Graph.edgeListNodeStep set l := by
        unfold Graph.edgeListNodeStep
        rw [hsplit]
        simp [mem_setAdd]
      exact ⟨edgeListNodeStep_fold_mono as _ _ h1.1, edgeListNodeStep_fold_mono as _ _ h1.2⟩
    · exact ih _ hl

theorem cleanToken_head (t : JStr) (ht : CleanToken t) :
    ∃ y ys, t = y :: ys ∧ isWs y = false := by
  obtain ⟨hne, hc⟩ := ht
  cases t with
  | nil => exact absurd rfl hne
  | cons y ys => exact ⟨y, ys, rfl, hc y (List.mem_cons_self _ _)⟩

theorem cleanToken_last (t : JStr) (ht : CleanToken t) :
    ∀ c, t.getLast? = some c → isWs c = false := by
  intro c hc
  exact ht.2 c (List.mem_of_getLast?_eq_some hc)

/-- Facts on the exported line of an edge between clean string tokens. -/
theorem edgeLine_facts (f t : JStr) (hf : CleanToken f) (ht : CleanToken t) :
    (∀ c, (f ++ [' '] ++ t).head? = some c → isWs c = false)
    ∧ (∀ c, (f ++ [' '] ++ t).getLast? = some c → isWs c = false)
    ∧ f ++ [' '] ++ t ≠ []
    ∧ '\n' ∉ f ++ [' '] ++ t
    ∧ splitWs (trim (f ++ [' '] ++ t)) = [f, t] := by
  obtain ⟨y, ys, hy, hyw⟩ := cleanToken_head f hf
  have h1 : ∀ c, (f ++ [' '] ++ t).head? = some c → isWs c = false := by
    intro c hc
    rw [hy] at hc
    simp only [List.cons_append, List.head?_cons, Option.some.injEq] at hc
    exact hc ▸ hyw
  have h2 : ∀ c, (f ++ [' '] ++ t).getLast? = some c → isWs c = false := by
    intro c hc
    rw [List.getLast?_append_of_ne_nil _ ht.1] at hc
    exact cleanToken_last t ht c hc
  refine ⟨h1, h2, by simp, ?_, ?_⟩
  · intro hmem
    simp only [List.append_assoc, List.mem_append, List.mem_singleton] at hmem
    rcases hmem with h | h | h
    · exact absurd (hf.2 _ h) (by decide)
    · exact absurd h (by decide)
    · exact absurd (ht.2 _ h) (by decide)
  · rw [trim_eq_self _ h1 h2]
    have := splitWs_append_space f t hf.2 (cleanToken_head t ht)
    rw [List.append_assoc, List.singleton_append, this, splitWs_of_clean t ht.2]

/-- C3, amended: for a graph that stores every edge under the key of its endpoints, whose
stored edges all join string identities that are non-empty and free of whitespace, and
which in undirected mode holds no edge with the reverse key of an earlier one, parsing the
exported edge list (into any graph with the same mode) stores exactly the same edges, under
the same keys and in the same order. -/
theorem edgeList_roundtrip (layout : Layout) (g g0 : Graph) (hc : KeysConsistent g)
    (hs : ∀ e ∈ g.edges.values,
      ∃ f t, e = ⟨Ident.str f, Ident.str t⟩ ∧ CleanToken f ∧ CleanToken t)
    (hu : g.directed = false → NoReverseBlock g) (hd : g0.directed = g.directed) :
    (g0.parseEdgeList layout g.exportEdgeList).edges = g.edges
    ∧ (g0.parseEdgeList layout g.exportEdgeList).directed = g.directed := by
  have hexp : g.exportEdgeList = join ['\n'] (g.edges.values.map edgeLine) := rfl
  by_cases hv : g.edges.values = []
  · have hent : g.edges.entries = [] := by simpa [JsMap.values] using hv
    have e1 : g.exportEdgeList = [] := by rw [hexp, hv]; rfl
    have e2 : trim ([] : JStr) = [] := rfl
    have e3 : Graph.edgeListNodeStep [] [] = [] := by
      simp [Graph.edgeListNodeStep, e2, splitWs_nil]
    have e4 : ∀ h : Graph, Graph.edgeListEdgeStep h [] = h := by
      intro h
      simp [Graph.edgeListEdgeStep, e2, splitWs_nil]
    rw [e1]
    simp only [Graph.parseEdgeList, e2, splitChar, List.foldl_cons, List.foldl_nil, e3, e4,
      List.map_nil, Graph.addNodesFrom]
    exact ⟨JsMap.ext_entries (by rw [hent]; rfl), hd⟩
  · have hline : ∀ e ∈ g.edges.values, ∃ f t, e = ⟨Ident.str f, Ident.str t⟩
        ∧ CleanToken f ∧ CleanToken t ∧ edgeLine e = f ++ [' '] ++ t := by
      intro e he
      obtain ⟨f, t, rfl, hf, ht⟩ := hs e he
      exact ⟨f, t, rfl, hf, ht, rfl⟩
    have hne : g.edges.values.map edgeLine ≠ [] := by simpa using hv
    have htrim : trim g.exportEdgeList = g.exportEdgeList := by
      apply trim_eq_self
      · intro c hcc
        cases hvals : g.edges.values with
        | nil => exact absurd hvals hv
        | cons e rest =>
          obtain ⟨f, t, _, hf, ht, hl⟩ := hline e (by rw [hvals]; exact List.mem_cons_self _ _)
          rw [hexp, hvals, List.map_cons, head?_join _ _ _ (by rw [hl]; simp), hl] at hcc
          exact (edgeLine_facts f t hf ht).1 c hcc
      · intro c hcc
        rw [hexp, getLast?_join _ _ hne] at hcc
        · have hmem := List.getLast_mem hne
          obtain ⟨e, he, hel⟩ := List.mem_map.1 hmem
          obtain ⟨f, t, _, hf, ht, hl⟩ := hline e he
          rw [← hel, hl] at hcc
          exact (edgeLine_facts f t hf ht).2.1 c hcc
        · intro l hl
          obtain ⟨e, he, rfl⟩ := List.mem_map.1 hl
          obtain ⟨f, t, _, hf, ht, hl2⟩ := hline e he
          rw [hl2]
          exact (edgeLine_facts f t hf ht).2.2.1
    have hsplit : splitChar '\n' g.exportEdgeList = g.edges.values.map edgeLine := by
      rw [hexp]
      apply splitChar_join _ _ hne
      intro l hl
      obtain ⟨e, he, rfl⟩ := List.mem_map.1 hl
      obtain ⟨f, t, _, hf, ht, hl2⟩ := hline e he
      rw [hl2]
      exact (edgeLine_facts f t hf ht).2.2.2.1
    have hstep : ∀ h : Graph, ∀ e ∈ g.edges.values,
        Graph.edgeListEdgeStep h (edgeLine e) = h.addEdge e.from_ e.to_ := by
      intro h e he
      obtain ⟨f, t, rfl, hf, ht, hl2⟩ := hline e he
      unfold Graph.edgeListEdgeStep
      rw [hl2, (edgeLine_facts f t hf ht).2.2.2.2]
    let nodeSet := (g.edges.values.map edgeLine).foldl Graph.edgeListNodeStep []
    let g1 := Graph.addNodesFrom layout nodeSet.length 0 (nodeSet.map Ident.str) g0.clear
    have hres : g0.parseEdgeList layout g.exportEdgeList
        = (g.edges.entries.map Prod.snd).foldl (fun h e => h.addEdge e.from_ e.to_) g1 := by
      show _ = g.edges.values.foldl (fun h e => h.addEdge e.from_ e.to_) g1
      simp only [Graph.parseEdgeList, htrim, hsplit]
      rw [List.foldl_map]
      apply List.foldl_ext
      intro h e he
      exact hstep h e he
    obtain ⟨n1, n2, n3⟩ := addNodesFrom_spec layout nodeSet.length (nodeSet.map Ident.str) 0
      g0.clear
    have hg1e : g1.edges.entries = [] := by
      show (Graph.addNodesFrom _ _ _ _ _).edges.entries = []
      rw [n1]; rfl
    have hg1d : g1.directed = g.directed := by
      show (Graph.addNodesFrom _ _ _ _ _).directed = _
      rw [n2]; exact hd
    obtain ⟨r1, _, r3⟩ := replay_edges g.directed g.edges.entries g1 hg1d hc
      (by
        intro p hp
        have hpv : p.2 ∈ g.edges.values := List.mem_map.2 ⟨p, hp, rfl⟩
        obtain ⟨f, t, hft, hf, ht, hl2⟩ := hline p.2 hpv
        have hmem := edgeListNodeStep_fold_mem (g.edges.values.map edgeLine) [] (edgeLine p.2)
          f t [] (List.mem_map.2 ⟨p.2, hpv, rfl⟩)
          (by rw [hl2]; exact (edgeLine_facts f t hf ht).2.2.2.2)
        rw [hft]
        constructor
        · exact (n3 _).2 (Or.inr (List.mem_map.2 ⟨f, hmem.1, rfl⟩))
        · exact (n3 _).2 (Or.inr (List.mem_map.2 ⟨t, hmem.2, rfl⟩)))
      (by rw [hg1e]; exact g.edges.nodupKeys)
      (by intro h; rw [hg1e]; exact hu h)
    rw [hres]
    refine ⟨JsMap.ext_entries ?_, r3⟩
    rw [r1, hg1e]
    rfl

/-- In states built without any mode change no stored edge has the reverse key of an
earlier one. -/
theorem noReverseBlock_of_undirectedRun (g : Graph) (h : UndirectedRun g) :
    NoReverseBlock g := by
  induction h with
  | new => exact List.Pairwise.nil
  | addNode g x y label _ ih =>
    unfold NoReverseBlock
    rw [(addNode_edges g x y label).1]
    exact ih
  | removeNode g id _ ih =>
    unfold NoReverseBlock
    rw [removeNode_edges_entries]
    exact List.Pairwise.sublist (List.filter_sublist _) ih
  | addEdge g a b hg ih =>
    rcases addEdge_cases g a b with e | ⟨_, _, hm, e⟩
    · rw [e]; exact ih
    · rw [e]
      rcases hm with hd | ⟨h1, h2⟩
      · rw [(undirectedRun_invariant g hg).1] at hd; cases hd
      · show ((g.edges.set (edgeKey a b) ⟨a, b⟩).entries).Pairwise _
        rw [JsMap.set_entries_of_not_has _ _ _ h1, List.pairwise_append]
        refine ⟨ih, List.pairwise_singleton _ _, ?_⟩
        intro p hp q hq
        rw [List.mem_singleton] at hq
        subst hq
        rw [JsMap.has_eq_false_iff] at h2
        intro e2
        exact h2 (List.mem_map.2 ⟨p, hp, e2.symm⟩)

/-- C3, as stated, fails. The graph parsed from the adjacency list ": x" has the string
identities "" and "x", both endpoints of its single edge; its edge list is " x", which
parses to a graph without edges. The graph parsed from "a b: c" has the edge ("a b", "c"),
which comes back as ("a", "b"). And an undirected graph that holds both (a, b) and (b, a)
from an earlier directed phase exports "a b" and "b a", which parse to the single edge
(a, b). -/
theorem edgeList_roundtrip_counterexample :
    emptyLabelGraph.nodes.keys = [Ident.str [], Ident.str ['x']]
    ∧ emptyLabelGraph.edges.values = [⟨Ident.str [], Ident.str ['x']⟩]
    ∧ emptyLabelGraph.exportEdgeList = [' ', 'x']
    ∧ (emptyLabelGraph.parseEdgeList originLayout emptyLabelGraph.exportEdgeList).edges.values
        = []
    ∧ spacedLabelGraph.nodes.keys = [Ident.str ['a', ' ', 'b'], Ident.str ['c']]
    ∧ spacedLabelGraph.edges.values = [⟨Ident.str ['a', ' ', 'b'], Ident.str ['c']⟩]
    ∧ (spacedLabelGraph.parseEdgeList originLayout
        spacedLabelGraph.exportEdgeList).edges.values = [⟨Ident.str ['a'], Ident.str ['b']⟩]
    ∧ flippedGraph.directed = false
    ∧ flippedGraph.nodes.keys = [Ident.str ['a'], Ident.str ['b']]
    ∧ flippedGraph.edges.values
        = [⟨Ident.str ['a'], Ident.str ['b']⟩, ⟨Ident.str ['b'], Ident.str ['a']⟩]
    ∧ flippedGraph.exportEdgeList = ['a', ' ', 'b', '\n', 'b', ' ', 'a']
    ∧ (flippedGraph.parseEdgeList originLayout flippedGraph.exportEdgeList).edges.values
        = [⟨Ident.str ['a'], Ident.str ['b']⟩] := by
  refine ⟨by decide, by decide, by decide, by decide, by decide, by decide, by decide,
    by decide, by decide, by decide, by decide, by decide⟩

/-- Witness for C3: the undirected graph with nodes "a", "b" and the edge (a, b). -/
theorem edgeList_roundtrip_witness :
    oneEdge.exportEdgeList = ['a', ' ', 'b']
    ∧ (oneEdge.parseEdgeList originLayout oneEdge.exportEdgeList).edges.values
        = [⟨Ident.str ['a'], Ident.str ['b']⟩]
    ∧ (oneEdge.parseEdgeList originLayout oneEdge.exportEdgeList).edges = oneEdge.edges
    ∧ (oneEdge.parseEdgeList originLayout oneEdge.exportEdgeList).directed
        = oneEdge.directed :=
  have hrun : UndirectedRun oneEdge :=
    UndirectedRun.addEdge _ _ _
      (UndirectedRun.addNode _ _ _ _ (UndirectedRun.addNode _ _ _ _ UndirectedRun.new))
  have hs : ∀ e ∈ oneEdge.edges.values,
      ∃ f t, e = ⟨Ident.str f, Ident.str t⟩ ∧ CleanToken f ∧ CleanToken t := by
    intro e he
    have hv : oneEdge.edges.values = [⟨Ident.str ['a'], Ident.str ['b']⟩] := by decide
    rw [hv, List.mem_singleton] at he
    exact ⟨['a'], ['b'], he, ⟨by decide, by decide⟩, ⟨by decide, by decide⟩⟩
  ⟨by decide, by decide,
    edgeList_roundtrip originLayout oneEdge oneEdge (undirectedRun_invariant oneEdge hrun).2.1 hs
      (fun _ => noReverseBlock_of_undirectedRun oneEdge hrun) rfl⟩

/-! ## Adjacency-list text -/

theorem cleanLabel_token (s : JStr) (h : CleanLabel s) : CleanToken s :=
  ⟨h.1, fun c hc => (h.2 c hc).1⟩

theorem cleanLabel_no_colon (s : JStr) (h : CleanLabel s) : ':' ∉ s :=
  fun hc => (h.2 _ hc).2 rfl

theorem trim_nil : trim ([] : JStr) = [] := rfl

theorem trim_append_space (s : JStr) (hne : s ≠ [])
    (h1 : ∀ c, s.head? = some c → isWs c = false)
    (h2 : ∀ c, s.getLast? = some c → isWs c = false) : trim (s ++ [' ']) = s := by
  unfold trim
  have e1 : (s ++ [' ']).dropWhile isWs = s ++ [' '] := by
    cases s with
    | nil => exact absurd rfl hne
    | cons x xs =>
      have := h1 x rfl
      simp [List.dropWhile, this]
  rw [e1, List.reverse_append]
  have hs : isWs ' ' = true := by decide
  have e2 : ([' '].reverse ++ s.reverse).dropWhile isWs = s.reverse.dropWhile isWs := by
    simp [List.dropWhile, hs]
  rw [e2]
  have e3 : s.reverse.dropWhile isWs = s.reverse := by
    cases hr : s.reverse with
    | nil => rfl
    | cons x xs =>
      have hl : s.getLast? = some x := by
        rw [← List.head?_reverse, hr]; rfl
      have := h2 x hl
      simp [List.dropWhile, this]
  rw [e3, List.reverse_reverse]

theorem trim_cons_space (s : JStr) (h1 : ∀ c, s.head? = some c → isWs c = false)
    (h2 : ∀ c, s.getLast? = some c → isWs c = false) : trim (' ' :: s) = s := by
  have hs : isWs ' ' = true := by decide
  have e : trim (' ' :: s) = trim s := by
    unfold trim
    simp [List.dropWhile, hs]
  rw [e, trim_eq_self s h1 h2]

theorem join_tokens_facts (toks : List JStr) (hne : toks ≠ []) (h : ∀ t ∈ toks, CleanLabel t) :
    (∀ c, (join [' '] toks).head? = some c → isWs c = false)
    ∧ (∀ c, (join [' '] toks).getLast? = some c → isWs c = false)
    ∧ join [' '] toks ≠ [] := by
  have hnn : ∀ t ∈ toks, t ≠ [] := fun t ht => (h t ht).1
  cases toks with
  | nil => exact absurd rfl hne
  | cons t rest =>
    have hh : (join [' '] (t :: rest)).head? = t.head? :=
      head?_join _ t rest (hnn t (List.mem_cons_self _ _))
    refine ⟨?_, ?_, ?_⟩
    · intro c hc
      rw [hh] at hc
      exact (h t (List.mem_cons_self _ _)).2 c (List.mem_of_mem_head? hc) |>.1
    · intro c hc
      rw [getLast?_join _ _ hne hnn] at hc
      exact ((h _ (List.getLast_mem hne)).2 c (List.mem_of_getLast?_eq_some hc)).1
    · intro e
      rw [e] at hh
      cases t with
      | nil => exact hnn [] (List.mem_cons_self _ _) rfl
      | cons a b => cases hh

theorem not_mem_join (c : Char) (sep : JStr) (toks : List JStr) (hsep : c ∉ sep)
    (h : ∀ t ∈ toks, c ∉ t) : c ∉ join sep toks := by
  induction toks with
  | nil => simp [join]
  | cons t rest ih =>
    cases rest with
    | nil => simpa [join] using h t (List.mem_cons_self _ _)
    | cons u rest =>
      have := ih (fun l hl => h l (List.mem_cons_of_mem _ hl))
      simp only [join, List.mem_append, not_or]
      exact ⟨⟨h t (List.mem_cons_self _ _), hsep⟩, this⟩

theorem neighborTokens_space_join (toks : List JStr) (h : ∀ t ∈ toks, CleanLabel t) :
    Graph.neighborTokens (' ' :: join [' '] toks) = toks := by
  unfold Graph.neighborTokens
  by_cases hne : toks = []
  · subst hne
    have : trim (' ' :: join [' '] []) = [] := by decide
    rw [this, splitWs_nil]
    rfl
  · obtain ⟨f1, f2, _⟩ := join_tokens_facts toks hne h
    rw [trim_cons_space _ f1 f2, splitWs_join toks hne (fun t ht => cleanLabel_token t (h t ht))]
    apply List.filter_eq_self.2
    intro t ht
    have := (h t ht).1
    cases t with
    | nil => exact absurd rfl this
    | cons a b => simp

theorem lineSem_adjLine (r : JStr × List JStr) (hk : CleanLabel r.1)
    (ht : ∀ t ∈ r.2, CleanLabel t) : lineSem (adjLine r) = r := by
  have hcolon : ':' ∉ (' ' :: join [' '] r.2) := by
    intro hmem
    rcases List.mem_cons.1 hmem with e | e
    · exact absurd e (by decide)
    · exact not_mem_join ':' [' '] r.2 (by decide) (fun t h => cleanLabel_no_colon t (ht t h)) e
  have hsplit : splitChar ':' (adjLine r) = [r.1, ' ' :: join [' '] r.2] := by
    unfold adjLine
    rw [List.append_assoc]
    show splitChar ':' (r.1 ++ ':' :: (' ' :: join [' '] r.2)) = _
    rw [splitChar_append_sep ':' _ _ (cleanLabel_no_colon _ hk), splitChar_of_not_mem _ _ hcolon]
  have htrim : trim r.1 = r.1 := by
    have hk2 := cleanLabel_token _ hk
    obtain ⟨y, ys, hy, hyw⟩ := cleanToken_head _ hk2
    apply trim_eq_self
    · intro c hc
      rw [hy] at hc
      simp only [List.head?_cons, Option.some.injEq] at hc
      exact hc ▸ hyw
    · exact cleanToken_last _ hk2
  unfold lineSem
  rw [hsplit]
  simp only [htrim, neighborTokens_space_join r.2 ht]

theorem lineSem_colon (k : JStr) (hk : CleanLabel k) : lineSem (k ++ [':']) = (k, []) := by
  have hsplit : splitChar ':' (k ++ [':']) = [k, []] := by
    rw [splitChar_append_sep ':' _ _ (cleanLabel_no_colon _ hk)]
    rfl
  have htrim : trim k = k := by
    have hk2 := cleanLabel_token _ hk
    obtain ⟨y, ys, hy, hyw⟩ := cleanToken_head _ hk2
    apply trim_eq_self
    · intro c hc
      rw [hy] at hc
      simp only [List.head?_cons, Option.some.injEq] at hc
      exact hc ▸ hyw
    · exact cleanToken_last _ hk2
  unfold lineSem
  rw [hsplit]
  simp only [htrim]
  rfl

theorem join_cons_cons (sep a b : JStr) (rest : List JStr) :
    join sep (a :: b :: rest) = a ++ sep ++ join sep (b :: rest) := rfl

theorem join_append_last (sep : JStr) (init : List JStr) (l x : JStr) :
    join sep (init ++ [l ++ x]) = join sep (init ++ [l]) ++ x := by
  induction init with
  | nil => simp [join]
  | cons a rest ih =>
    cases rest with
    | nil => simp [join]
    | cons b rest =>
      have ih2 : join sep (b :: (rest ++ [l ++ x])) = join sep (b :: (rest ++ [l])) ++ x := ih
      show join sep (a :: b :: (rest ++ [l ++ x])) = join sep (a :: b :: (rest ++ [l])) ++ x
      rw [join_cons_cons, join_cons_cons, ih2]
      simp only [List.append_assoc]

theorem join_head_nonws (sep : JStr) (ls : List JStr)
    (h : ∀ l ∈ ls, ∃ y ys, l = y :: ys ∧ isWs y = false) :
    ∀ c, (join sep ls).head? = some c → isWs c = false := by
  intro c hc
  cases ls with
  | nil => cases hc
  | cons l rest =>
    obtain ⟨y, ys, hy, hyw⟩ := h l (List.mem_cons_self _ _)
    rw [head?_join sep l rest (by rw [hy]; simp), hy] at hc
    simp only [List.head?_cons, Option.some.injEq] at hc
    exact hc ▸ hyw

theorem adjLine_facts (r : JStr × List JStr) (hk : CleanLabel r.1)
    (ht : ∀ t ∈ r.2, CleanLabel t) :
    (∃ y ys, adjLine r = y :: ys ∧ isWs y = false)
    ∧ '\n' ∉ adjLine r
    ∧ (r.2 ≠ [] → ∀ c, (adjLine r).getLast? = some c → isWs c = false) := by
  refine ⟨?_, ?_, ?_⟩
  · obtain ⟨y, ys, hy, hyw⟩ := cleanToken_head _ (cleanLabel_token _ hk)
    exact ⟨y, ys ++ [':', ' '] ++ join [' '] r.2, by simp [adjLine, hy], hyw⟩
  · intro hmem
    simp only [adjLine, List.mem_append, List.mem_cons, List.mem_singleton,
      List.not_mem_nil, or_false] at hmem
    rcases hmem with (h | h | h) | h
    · exact absurd (hk.2 _ h).1 (by decide)
    · exact absurd h (by decide)
    · exact absurd h (by decide)
    · exact not_mem_join '\n' [' '] r.2 (by decide)
        (fun t h2 hm => absurd ((ht t h2).2 _ hm).1 (by decide)) h
  · intro hne c hc
    obtain ⟨_, f2, f3⟩ := join_tokens_facts r.2 hne ht
    unfold adjLine at hc
    rw [List.getLast?_append_of_ne_nil _ f3] at hc
    exact f2 c hc

theorem colonLine_facts (k : JStr) (hk : CleanLabel k) :
    (∃ y ys, k ++ [':'] = y :: ys ∧ isWs y = false)
    ∧ '\n' ∉ k ++ [':']
    ∧ (∀ c, (k ++ [':']).getLast? = some c → isWs c = false) := by
  refine ⟨?_, ?_, ?_⟩
  · obtain ⟨y, ys, hy, hyw⟩ := cleanToken_head _ (cleanLabel_token _ hk)
    exact ⟨y, ys ++ [':'], by simp [hy], hyw⟩
  · intro hmem
    simp only [List.mem_append, List.mem_singleton] at hmem
    rcases hmem with h | h
    · exact absurd (hk.2 _ h).1 (by decide)
    · exact absurd h (by decide)
  · intro c hc
    rw [List.getLast?_append_of_ne_nil _ (by simp)] at hc
    simp only [List.getLast?_singleton, Option.some.injEq] at hc
    subst hc
    decide

/-- Reading back the exported adjacency-list text line by line returns the exported rows. -/
theorem adjText_lines (rows : List (JStr × List JStr)) (hne : rows ≠ [])
    (hrows : ∀ r ∈ rows, CleanLabel r.1 ∧ ∀ t ∈ r.2, CleanLabel t) :
    (splitChar '\n' (trim (join ['\n'] (rows.map adjLine)))).map lineSem = rows := by
  rcases List.eq_nil_or_concat rows with e | ⟨init, last, e⟩
  · exact absurd e hne
  rw [List.concat_eq_append] at e
  subst e
  have hinit : ∀ r ∈ init, CleanLabel r.1 ∧ ∀ t ∈ r.2, CleanLabel t :=
    fun r hr => hrows r (List.mem_append_left _ hr)
  have hlast : CleanLabel last.1 ∧ ∀ t ∈ last.2, CleanLabel t :=
    hrows last (List.mem_append_right _ (List.mem_singleton_self _))
  have hmapid : ∀ l : List (JStr × List JStr),
      (∀ r ∈ l, CleanLabel r.1 ∧ ∀ t ∈ r.2, CleanLabel t) →
      (l.map adjLine).map lineSem = l := by
    intro l hl
    rw [List.map_map]
    conv => rhs; rw [← List.map_id l]
    apply List.map_congr_left
    intro r hr
    exact lineSem_adjLine r (hl r hr).1 (hl r hr).2
  by_cases hl2 : last.2 = []
  · have hline : adjLine last = (last.1 ++ [':']) ++ [' '] := by
      simp [adjLine, hl2, join]
    have hls : ∀ l ∈ init.map adjLine ++ [last.1 ++ [':']],
        (∃ y ys, l = y :: ys ∧ isWs y = false) ∧ '\n' ∉ l := by
      intro l hl
      rcases List.mem_append.1 hl with h | h
      · obtain ⟨r, hr, rfl⟩ := List.mem_map.1 h
        have := adjLine_facts r (hinit r hr).1 (hinit r hr).2
        exact ⟨this.1, this.2.1⟩
      · rw [List.mem_singleton] at h
        subst h
        have := colonLine_facts last.1 hlast.1
        exact ⟨this.1, this.2.1⟩
    have hne2 : init.map adjLine ++ [last.1 ++ [':']] ≠ [] := by simp
    have hnn : ∀ l ∈ init.map adjLine ++ [last.1 ++ [':']], l ≠ [] := by
      intro l hl e
      obtain ⟨y, ys, hy, _⟩ := (hls l hl).1
      rw [e] at hy
      cases hy
    have htext : join ['\n'] ((init ++ [last]).map adjLine)
        = join ['\n'] (init.map adjLine ++ [last.1 ++ [':']]) ++ [' '] := by
      rw [List.map_append, List.map_singleton, hline, join_append_last]
    have hjne : join ['\n'] (init.map adjLine ++ [last.1 ++ [':']]) ≠ [] := by
      intro e
      have h1 := getLast?_join ['\n'] _ hne2 hnn
      rw [e] at h1
      simp at h1
    rw [htext, trim_append_space _ hjne (join_head_nonws _ _ (fun l hl => (hls l hl).1))
      (by
        intro c hc
        rw [getLast?_join _ _ hne2 hnn] at hc
        simp only [List.getLast_append_singleton] at hc
        exact (colonLine_facts last.1 hlast.1).2.2 c hc),
      splitChar_join _ _ hne2 (fun l hl => (hls l hl).2), List.map_append, hmapid init hinit,
      List.map_singleton, lineSem_colon last.1 hlast.1]
    congr 2
    exact Prod.ext rfl hl2.symm
  · have hls : ∀ l ∈ (init ++ [last]).map adjLine,
        (∃ y ys, l = y :: ys ∧ isWs y = false) ∧ '\n' ∉ l := by
      intro l hl
      obtain ⟨r, hr, rfl⟩ := List.mem_map.1 hl
      have := adjLine_facts r (hrows r hr).1 (hrows r hr).2
      exact ⟨this.1, this.2.1⟩
    have hne2 : (init ++ [last]).map adjLine ≠ [] := by simp
    have hnn : ∀ l ∈ (init ++ [last]).map adjLine, l ≠ [] := by
      intro l hl e
      obtain ⟨y, ys, hy, _⟩ := (hls l hl).1
      rw [e] at hy
      cases hy
    rw [trim_eq_self _ (join_head_nonws _ _ (fun l hl => (hls l hl).1))
      (by
        intro c hc
        rw [getLast?_join _ _ hne2 hnn] at hc
        simp only [List.map_append, List.map_singleton, List.getLast_append_singleton] at hc
        exact (adjLine_facts last hlast.1 hlast.2).2.2 hl2 c hc),
      splitChar_join _ _ hne2 (fun l hl => (hls l hl).2)]
    exact hmapid _ hrows

/-! ## The exported adjacency map -/

theorem JsMap.get_rep {V : Type} (keys : List Ident) (f : Ident → V) (m : JsMap Ident V)
    (hm : m.entries = keys.map (fun k => (k, f k))) (k0 : Ident) (hk : k0 ∈ keys) :
    m.get k0 = some (f k0) := by
  unfold JsMap.get
  rw [hm]
  clear hm
  induction keys with
  | nil => cases hk
  | cons a rest ih =>
    by_cases e : a = k0
    · subst e; simp
    · have : k0 ∈ rest := by
        rcases List.mem_cons.1 hk with h | h
        · exact absurd h.symm e
        · exact h
      simpa [List.find?, e] using ih this

theorem JsMap.has_rep {V : Type} (keys : List Ident) (f : Ident → V) (m : JsMap Ident V)
    (hm : m.entries = keys.map (fun k => (k, f k))) (k0 : Ident) :
    m.has k0 = true ↔ k0 ∈ keys := by
  rw [JsMap.has_iff, JsMap.keys, hm]
  simp

theorem JsMap.set_rep {V : Type} (keys : List Ident) (f : Ident → V) (m : JsMap Ident V)
    (hm : m.entries = keys.map (fun k => (k, f k))) (k0 : Ident) (hk : k0 ∈ keys) (v : V) :
    (m.set k0 v).entries = keys.map (fun k => (k, if k = k0 then v else f k)) := by
  have hnd : keys.Nodup := by
    have := m.nodupKeys
    rw [hm] at this
    simpa [List.map_map, Function.comp_def] using this
  show JsMap.setEntries k0 v m.entries = _
  rw [hm]
  clear hm
  induction keys with
  | nil => cases hk
  | cons a rest ih =>
    rw [List.nodup_cons] at hnd
    by_cases e : a = k0
    · subst e
      simp only [List.map_cons, JsMap.setEntries, if_true, List.cons.injEq, true_and]
      apply List.map_congr_left
      intro k hkr
      have : k ≠ a := fun e2 => hnd.1 (e2 ▸ hkr)
      simp [this]
    · have hk2 : k0 ∈ rest := by
        rcases List.mem_cons.1 hk with h | h
        · exact absurd h.symm e
        · exact h
      simp only [List.map_cons, JsMap.setEntries, e, if_false, ih hk2 hnd.2]

theorem pushNeighbor_rep (keys : List Ident) (f : Ident → List Ident)
    (m : JsMap Ident (List Ident)) (hm : m.entries = keys.map (fun k => (k, f k)))
    (a b : Ident) (ha : a ∈ keys) :
    (Graph.pushNeighbor m a b).entries
      = keys.map (fun k => (k, if k = a then f k ++ [b] else f k)) := by
  unfold Graph.pushNeighbor
  have h1 : m.has a = true := (JsMap.has_rep keys f m hm a).2 ha
  simp only [h1, Bool.not_true, Bool.false_eq_true, if_false, JsMap.get_rep keys f m hm a ha,
    Option.getD_some]
  rw [JsMap.set_rep keys f m hm a ha]
  apply List.map_congr_left
  intro k _
  by_cases e : k = a
  · subst e; simp
  · simp [e]

theorem nbrs_cons (p : Ident × Ident) (ps : List (Ident × Ident)) (k : Ident) :
    nbrs (p :: ps) k = (if p.1 = k then [p.2] else []) ++ nbrs ps k := by
  unfold nbrs
  by_cases e : p.1 = k <;> simp [List.filter_cons, e]

theorem nbrs_append (ps qs : List (Ident × Ident)) (k : Ident) :
    nbrs (ps ++ qs) k = nbrs ps k ++ nbrs qs k := by
  simp [nbrs]

theorem mem_nbrs (ps : List (Ident × Ident)) (k n : Ident) : n ∈ nbrs ps k ↔ (k, n) ∈ ps := by
  unfold nbrs
  simp only [List.mem_map, List.mem_filter, decide_eq_true_eq]
  constructor
  · rintro ⟨p, ⟨hp, rfl⟩, rfl⟩; exact hp
  · intro h; exact ⟨(k, n), ⟨h, rfl⟩, rfl⟩

theorem adjList_fold (d : Bool) (keys : List Ident) (es : List Edge)
    (hes : ∀ e ∈ es, e.from_ ∈ keys ∧ e.to_ ∈ keys) :
    ∀ (f : Ident → List Ident) (m : JsMap Ident (List Ident)),
      m.entries = keys.map (fun k => (k, f k)) →
      (es.foldl (Graph.adjListStep d) m).entries
        = keys.map (fun k => (k, f k ++ nbrs (pushesOf d es) k)) := by
  induction es with
  | nil =>
    intro f m hm
    simp [hm, pushesOf, nbrs]
  | cons e rest ih =>
    intro f m hm
    obtain ⟨h1, h2⟩ := hes e (List.mem_cons_self _ _)
    have hrest := fun e he => hes e (List.mem_cons_of_mem _ he)
    rw [List.foldl_cons]
    have hp1 := pushNeighbor_rep keys f m hm e.from_ e.to_ h1
    cases d with
    | true =>
      have hs : Graph.adjListStep true m e = Graph.pushNeighbor m e.from_ e.to_ := rfl
      rw [hs, ih hrest _ _ hp1]
      apply List.map_congr_left
      intro k _
      simp only [pushesOf, List.flatMap_cons, if_true, nbrs_append, Prod.mk.injEq]
      by_cases e1 : k = e.from_
      · subst e1; simp [nbrs]
      · have : ¬ e.from_ = k := fun h => e1 h.symm
        simp [nbrs, e1, this]
    | false =>
      have hs : Graph.adjListStep false m e
          = Graph.pushNeighbor (Graph.pushNeighbor m e.from_ e.to_) e.to_ e.from_ := rfl
      have hp2 := pushNeighbor_rep keys _ _ hp1 e.to_ e.from_ h2
      rw [hs, ih hrest _ _ hp2]
      apply List.map_congr_left
      intro k _
      simp only [pushesOf, List.flatMap_cons, Bool.false_eq_true, if_false, nbrs_append,
        Prod.mk.injEq]
      by_cases e1 : k = e.from_ <;> by_cases e2 : k = e.to_
      · subst e1; simp [nbrs, ← e2]
      · have : ¬ e.to_ = k := fun h => e2 h.symm
        subst e1; simp [nbrs, e2, this]
      · have : ¬ e.from_ = k := fun h => e1 h.symm
        subst e2; simp [nbrs, e1, this]
      · have h3 : ¬ e.from_ = k := fun h => e1 h.symm
        have h4 : ¬ e.to_ = k := fun h => e2 h.symm
        simp [nbrs, e1, e2, h3, h4]

theorem adjList0_entries (keys : List Ident) (hnd : keys.Nodup) :
    ∀ (m : JsMap Ident (List Ident)), (∀ k ∈ keys, k ∉ m.keys) →
      (keys.foldl (fun m nodeId => m.set nodeId []) m).entries
        = m.entries ++ keys.map (fun k => (k, [])) := by
  induction keys with
  | nil => intro m _; simp
  | cons a rest ih =>
    intro m hm
    rw [List.nodup_cons] at hnd
    have h1 : m.has a = false := (JsMap.has_eq_false_iff m a).2 (hm a (List.mem_cons_self _ _))
    rw [List.foldl_cons, ih hnd.2]
    · rw [JsMap.set_entries_of_not_has _ _ _ h1]
      simp
    · intro k hk hmem
      rw [JsMap.keys, JsMap.set_entries_of_not_has _ _ _ h1] at hmem
      simp only [List.map_append, List.map_cons, List.map_nil, List.mem_append,
        List.mem_singleton] at hmem
      rcases hmem with h | h
      · exact hm k (List.mem_cons_of_mem _ hk) h
      · exact hnd.1 (h ▸ hk)

/-- The map built by `exportAdjacencyList` when every edge joins existing nodes: one entry
per node, in node order, holding the neighbours pushed for it. -/
theorem buildAdjList_entries (g : Graph)
    (hes : ∀ e ∈ g.edges.values, e.from_ ∈ g.nodes.keys ∧ e.to_ ∈ g.nodes.keys) :
    g.buildAdjList.entries
      = g.nodes.keys.map (fun k => (k, nbrs (pushesOf g.directed g.edges.values) k)) := by
  unfold Graph.buildAdjList
  have h0 := adjList0_entries g.nodes.keys g.nodes.nodupKeys JsMap.empty
    (fun k _ h => by simp [JsMap.keys, JsMap.empty] at h)
  have h0b : (g.nodes.keys.foldl (fun m nodeId => m.set nodeId []) JsMap.empty).entries
      = g.nodes.keys.map (fun k => (k, (fun _ => ([] : List Ident)) k)) := by
    rw [h0]; simp [JsMap.empty]
  have := adjList_fold g.directed g.nodes.keys g.edges.values hes _ _ h0b
  simpa using this

/-! ## Parsing an adjacency list, row by row -/

theorem adjListNodeStep_eq (set : List JStr) (line : JStr) :
    Graph.adjListNodeStep set line = rowNodeStep set (lineSem line) := by
  unfold Graph.adjListNodeStep lineSem rowNodeStep
  cases h : splitChar ':' line with
  | nil => exact absurd h (splitChar_ne_nil _ _)
  | cons p0 rest =>
    cases rest with
    | nil => rfl
    | cons p1 rest => rfl

theorem adjListEdgeStep_eq (g : Graph) (line : JStr) :
    Graph.adjListEdgeStep g line
      = (lineSem line).2.foldl
          (fun g to_ => g.addEdge (Ident.str (lineSem line).1) (Ident.str to_)) g := by
  unfold Graph.adjListEdgeStep lineSem
  cases h : splitChar ':' line with
  | nil => rfl
  | cons p0 rest =>
    cases rest with
    | nil => rfl
    | cons p1 rest => rfl

theorem foldl_rows_eq_pairs (rows : List (JStr × List JStr)) (g : Graph) :
    rows.foldl (fun g r =>
        r.2.foldl (fun g to_ => g.addEdge (Ident.str r.1) (Ident.str to_)) g) g
      = (rowPairs rows).foldl (fun g p => g.addEdge p.1 p.2) g := by
  induction rows generalizing g with
  | nil => rfl
  | cons r rest ih =>
    simp only [List.foldl_cons, rowPairs, List.flatMap_cons, List.foldl_append, List.foldl_map]
    exact ih _

/-- The method `parseAdjacencyList` in terms of what is read from each line. -/
theorem parseAdjacencyList_rows (layout : Layout) (g0 : Graph) (text : JStr)
    (rows : List (JStr × List JStr))
    (hrows : (splitChar '\n' (trim text)).map lineSem = rows) :
    g0.parseAdjacencyList layout text
      = (rowPairs rows).foldl (fun g p => g.addEdge p.1 p.2)
          (Graph.addNodesFrom layout (rows.foldl rowNodeStep []).length 0
            ((rows.foldl rowNodeStep []).map Ident.str) g0.clear) := by
  have h1 : (splitChar '\n' (trim text)).foldl Graph.adjListNodeStep []
      = rows.foldl rowNodeStep [] := by
    rw [← hrows, List.foldl_map]
    apply List.foldl_ext
    intro set line _
    exact adjListNodeStep_eq set line
  have h2 : ∀ g : Graph, (splitChar '\n' (trim text)).foldl Graph.adjListEdgeStep g
      = (rowPairs rows).foldl (fun g p => g.addEdge p.1 p.2) g := by
    intro g
    rw [← foldl_rows_eq_pairs, ← hrows, List.foldl_map]
    apply List.foldl_ext
    intro g line _
    exact adjListEdgeStep_eq g line
  unfold Graph.parseAdjacencyList
  simp only [h1, h2]

theorem mem_foldl_setAdd (toks : List JStr) (set : List JStr) (x : JStr) :
    x ∈ toks.foldl Graph.setAdd set ↔ x ∈ set ∨ x ∈ toks := by
  induction toks generalizing set with
  | nil => simp
  | cons t rest ih =>
    rw [List.foldl_cons, ih, mem_setAdd]
    simp only [List.mem_cons]
    tauto

theorem mem_rowNodeStep_fold (rows : List (JStr × List JStr)) (set : List JStr) (x : JStr) :
    x ∈ rows.foldl rowNodeStep set ↔ x ∈ set ∨ ∃ r ∈ rows, x = r.1 ∨ x ∈ r.2 := by
  induction rows generalizing set with
  | nil => simp
  | cons r rest ih =>
    rw [List.foldl_cons, ih]
    unfold rowNodeStep
    rw [mem_foldl_setAdd, mem_setAdd]
    constructor
    · rintro (((h | h) | h) | ⟨w, hw, h⟩)
      · exact Or.inl h
      · exact Or.inr ⟨r, List.mem_cons_self _ _, Or.inl h⟩
      · exact Or.inr ⟨r, List.mem_cons_self _ _, Or.inr h⟩
      · exact Or.inr ⟨w, List.mem_cons_of_mem _ hw, h⟩
    · rintro (h | ⟨w, hw, h⟩)
      · exact Or.inl (Or.inl (Or.inl h))
      · rcases List.mem_cons.1 hw with e | hw
        · subst e
          rcases h with h | h
          · exact Or.inl (Or.inl (Or.inr h))
          · exact Or.inl (Or.inr h)
        · exact Or.inr ⟨w, hw, h⟩

theorem mem_rowPairs (rows : List (JStr × List JStr)) (p : Ident × Ident) :
    p ∈ rowPairs rows ↔ ∃ r ∈ rows, ∃ t ∈ r.2, p = (Ident.str r.1, Ident.str t) := by
  unfold rowPairs
  simp only [List.mem_flatMap, List.mem_map]
  constructor
  · rintro ⟨r, hr, t, ht, rfl⟩; exact ⟨r, hr, t, ht, rfl⟩
  · rintro ⟨r, hr, t, ht, rfl⟩; exact ⟨r, hr, t, ht, rfl⟩

/-! ## Replaying edges by membership -/

theorem addEdge_fold_nodes (P : List (Ident × Ident)) (g : Graph) :
    (P.foldl (fun g p => g.addEdge p.1 p.2) g).nodes = g.nodes
    ∧ (P.foldl (fun g p => g.addEdge p.1 p.2) g).directed = g.directed := by
  induction P generalizing g with
  | nil => exact ⟨rfl, rfl⟩
  | cons p rest ih =>
    rw [List.foldl_cons]
    obtain ⟨h1, h2⟩ := ih (g.addEdge p.1 p.2)
    exact ⟨h1.trans (addEdge_nodes _ _ _).1, h2.trans (addEdge_nodes _ _ _).2⟩

theorem directed_fold (Pall : List (Ident × Ident))
    (hinj : ∀ p ∈ Pall, ∀ q ∈ Pall, edgeKey p.1 p.2 = edgeKey q.1 q.2 → p = q)
    (P : List (Ident × Ident)) :
    ∀ (g : Graph), (∀ p ∈ P, p ∈ Pall) → g.directed = true →
      (∀ p ∈ P, g.nodes.has p.1 = true ∧ g.nodes.has p.2 = true) →
      (∀ q ∈ g.edges.entries, ∃ p ∈ Pall, q = (edgeKey p.1 p.2, (⟨p.1, p.2⟩ : Edge))) →
      ∀ q, q ∈ (P.foldl (fun g p => g.addEdge p.1 p.2) g).edges.entries
        ↔ q ∈ g.edges.entries ∨ ∃ p ∈ P, q = (edgeKey p.1 p.2, (⟨p.1, p.2⟩ : Edge)) := by
  induction P with
  | nil => intro g _ _ _ _ q; simp
  | cons p rest ih =>
    intro g hall hd hn hinv q
    have hp := hn p (List.mem_cons_self _ _)
    have hstep : g.addEdge p.1 p.2 = { g with edges := g.edges.set (edgeKey p.1 p.2) ⟨p.1, p.2⟩ } := by
      simp [Graph.addEdge, hp.1, hp.2, hd]
    have hmem : ∀ q, q ∈ (g.addEdge p.1 p.2).edges.entries
        ↔ q = (edgeKey p.1 p.2, (⟨p.1, p.2⟩ : Edge)) ∨ (q ∈ g.edges.entries ∧ q.1 ≠ edgeKey p.1 p.2) := by
      intro q
      rw [hstep]
      exact JsMap.mem_set _ _ _ _
    rw [List.foldl_cons, ih (g.addEdge p.1 p.2) (fun x hx => hall x (List.mem_cons_of_mem _ hx))
      (by rw [(addEdge_nodes _ _ _).2]; exact hd)
      (fun x hx => by rw [(addEdge_nodes _ _ _).1]; exact hn x (List.mem_cons_of_mem _ hx))
      (by
        intro x hx
        rcases (hmem x).1 hx with h | ⟨h, _⟩
        · exact ⟨p, hall p (List.mem_cons_self _ _), h⟩
        · exact hinv x h), hmem]
    constructor
    · rintro ((h | ⟨h, _⟩) | ⟨x, hx, h⟩)
      · exact Or.inr ⟨p, List.mem_cons_self _ _, h⟩
      · exact Or.inl h
      · exact Or.inr ⟨x, List.mem_cons_of_mem _ hx, h⟩
    · rintro (h | ⟨x, hx, h⟩)
      · by_cases hk : q.1 = edgeKey p.1 p.2
        · obtain ⟨p0, hp0, hq⟩ := hinv q h
          have : p0 = p := hinj p0 hp0 p (hall p (List.mem_cons_self _ _)) (by rw [← hk, hq])
          subst this
          exact Or.inl (Or.inl hq)
        · exact Or.inl (Or.inr ⟨h, hk⟩)
      · rcases List.mem_cons.1 hx with e | hx
        · subst e; exact Or.inl (Or.inl h)
        · exact Or.inr ⟨x, hx, h⟩

theorem undirected_fold (P : List (Ident × Ident)) :
    ∀ (g : Graph), g.directed = false →
      (∀ p ∈ P, g.nodes.has p.1 = true ∧ g.nodes.has p.2 = true) →
      (∀ q ∈ (P.foldl (fun g p => g.addEdge p.1 p.2) g).edges.entries,
        q ∈ g.edges.entries ∨ ∃ p ∈ P, q = (edgeKey p.1 p.2, (⟨p.1, p.2⟩ : Edge)))
      ∧ (∀ q ∈ g.edges.entries, q ∈ (P.foldl (fun g p => g.addEdge p.1 p.2) g).edges.entries)
      ∧ (∀ p ∈ P,
          (P.foldl (fun g p => g.addEdge p.1 p.2) g).edges.has (edgeKey p.1 p.2) = true
          ∨ (P.foldl (fun g p => g.addEdge p.1 p.2) g).edges.has (edgeKey p.2 p.1) = true) := by
  induction P with
  | nil => intro g _ _; simp
  | cons p rest ih =>
    intro g hd hn
    have hp := hn p (List.mem_cons_self _ _)
    obtain ⟨i1, i2, i3⟩ := ih (g.addEdge p.1 p.2) (by rw [(addEdge_nodes _ _ _).2]; exact hd)
      (fun x hx => by rw [(addEdge_nodes _ _ _).1]; exact hn x (List.mem_cons_of_mem _ hx))
    have hsub : ∀ q ∈ g.edges.entries, q ∈ (g.addEdge p.1 p.2).edges.entries := by
      intro q hq
      rcases addEdge_cases g p.1 p.2 with e | ⟨_, _, hm, e⟩
      · rw [e]; exact hq
      · rw [e]
        rcases hm with h | ⟨h1, _⟩
        · rw [hd] at h; cases h
        · show q ∈ (g.edges.set _ _).entries
          rw [JsMap.set_entries_of_not_has _ _ _ h1]
          exact List.mem_append_left _ hq
    have hnew : ∀ q ∈ (g.addEdge p.1 p.2).edges.entries,
        q ∈ g.edges.entries ∨ q = (edgeKey p.1 p.2, (⟨p.1, p.2⟩ : Edge)) := by
      intro q hq
      rcases addEdge_cases g p.1 p.2 with e | ⟨_, _, _, e⟩
      · rw [e] at hq; exact Or.inl hq
      · rw [e] at hq
        rcases (JsMap.mem_set _ _ _ _).1 hq with h | ⟨h, _⟩
        · exact Or.inr h
        · exact Or.inl h
    have hhas : (g.addEdge p.1 p.2).edges.has (edgeKey p.1 p.2) = true
        ∨ (g.addEdge p.1 p.2).edges.has (edgeKey p.2 p.1) = true := by
      unfold Graph.addEdge
      simp only [hp.1, hp.2, hd, Bool.not_true, Bool.or_self, Bool.false_eq_true, if_false]
      cases h1 : g.edges.has (edgeKey p.1 p.2)
      · cases h2 : g.edges.has (edgeKey p.2 p.1)
        · simp [JsMap.has_set]
        · simp [h2]
      · simp [h1]
    have hmono : ∀ k, (g.addEdge p.1 p.2).edges.has k = true →
        (rest.foldl (fun g p => g.addEdge p.1 p.2) (g.addEdge p.1 p.2)).edges.has k = true := by
      intro k hk
      rw [JsMap.has_iff] at hk ⊢
      obtain ⟨q, hq, rfl⟩ := List.mem_map.1 hk
      exact List.mem_map.2 ⟨q, i2 q hq, rfl⟩
    rw [List.foldl_cons]
    refine ⟨?_, fun q hq => i2 q (hsub q hq), ?_⟩
    · intro q hq
      rcases i1 q hq with h | ⟨x, hx, h⟩
      · rcases hnew q h with h2 | h2
        · exact Or.inl h2
        · exact Or.inr ⟨p, List.mem_cons_self _ _, h2⟩
      · exact Or.inr ⟨x, List.mem_cons_of_mem _ hx, h⟩
    · intro x hx
      rcases List.mem_cons.1 hx with e | hx
      · subst e
        rcases hhas with h | h
        · exact Or.inl (hmono _ h)
        · exact Or.inr (hmono _ h)
      · exact i3 x hx

theorem append_sep_inj (c : Char) (l1 l2 r1 r2 : JStr) (h1 : c ∉ l1) (h2 : c ∉ l2)
    (h : l1 ++ c :: r1 = l2 ++ c :: r2) : l1 = l2 ∧ r1 = r2 := by
  have e := congrArg (splitChar c) h
  rw [splitChar_append_sep c l1 r1 h1, splitChar_append_sep c l2 r2 h2] at e
  have e1 : l1 = l2 := (List.cons.inj e).1
  subst e1
  exact ⟨rfl, by simpa using h⟩

theorem edgeKey_str_inj (s1 t1 s2 t2 : JStr) (h1 : '-' ∉ s1) (h2 : '-' ∉ s2)
    (h : edgeKey (Ident.str s1) (Ident.str t1) = edgeKey (Ident.str s2) (Ident.str t2)) :
    s1 = s2 ∧ t1 = t2 := by
  unfold edgeKey jsString at h
  simp only [List.append_assoc, List.singleton_append] at h
  exact append_sep_inj '-' s1 s2 t1 t2 h1 h2 h

/-! ## Adjacency-list round trip -/

theorem mem_pushesOf (d : Bool) (es : List Edge) (a b : Ident) :
    (a, b) ∈ pushesOf d es
      ↔ (⟨a, b⟩ : Edge) ∈ es ∨ (d = false ∧ (⟨b, a⟩ : Edge) ∈ es) := by
  unfold pushesOf
  rw [List.mem_flatMap]
  cases d with
  | true =>
    simp only [if_true, List.mem_singleton, Prod.mk.injEq, Bool.true_eq_false, false_and,
      or_false]
    constructor
    · rintro ⟨e, he, h1, h2⟩
      cases e
      simp only at h1 h2
      subst h1 h2
      exact he
    · intro h
      exact ⟨_, h, rfl, rfl⟩
  | false =>
    simp only [Bool.false_eq_true, if_false, List.mem_cons, List.mem_singleton, Prod.mk.injEq,
      List.not_mem_nil, or_false, true_and]
    constructor
    · rintro ⟨e, he, ⟨h1, h2⟩ | ⟨h1, h2⟩⟩
      · cases e
        simp only at h1 h2
        subst h1 h2
        exact Or.inl he
      · cases e
        simp only at h1 h2
        subst h1 h2
        exact Or.inr he
    · rintro (h | h)
      · exact ⟨_, h, Or.inl ⟨rfl, rfl⟩⟩
      · exact ⟨_, h, Or.inr ⟨rfl, rfl⟩⟩

/-- Facts shared by both modes of the adjacency-list round trip: the parsed graph is the
replay of the pushes of the export, on the node set of the original graph. -/
theorem adjacencyList_replay (layout : Layout) (g g0 : Graph) (hsafe : AdjListSafe g) :
    ∃ (P : List (Ident × Ident)) (g1 : Graph),
      g0.parseAdjacencyList layout g.exportAdjacencyList
        = P.foldl (fun g p => g.addEdge p.1 p.2) g1
      ∧ g1.edges.entries = [] ∧ g1.directed = g0.directed
      ∧ (∀ id, g1.nodes.has id = true ↔ id ∈ g.nodes.keys)
      ∧ (∀ p, p ∈ P ↔ p ∈ pushesOf g.directed g.edges.values)
      ∧ (∀ p ∈ P, p.1 ∈ g.nodes.keys ∧ p.2 ∈ g.nodes.keys) := by
  obtain ⟨hne, hlab, hend, _⟩ := hsafe
  have hadj := buildAdjList_entries g hend
  have hpush_keys : ∀ a b, (a, b) ∈ pushesOf g.directed g.edges.values →
      a ∈ g.nodes.keys ∧ b ∈ g.nodes.keys := by
    intro a b h
    rcases (mem_pushesOf _ _ a b).1 h with h1 | ⟨_, h1⟩
    · exact hend _ h1
    · exact ⟨(hend _ h1).2, (hend _ h1).1⟩
  have hstr : ∀ id ∈ g.nodes.keys, Ident.str (jsString id) = id ∧ CleanLabel (jsString id) := by
    intro id hid
    obtain ⟨s, rfl, hs⟩ := hlab id hid
    exact ⟨rfl, hs⟩
  let rows : List (JStr × List JStr) := g.nodes.keys.map (fun k =>
    (jsString k, (nbrs (pushesOf g.directed g.edges.values) k).map jsString))
  have hexp : g.exportAdjacencyList = join ['\n'] (rows.map adjLine) := by
    unfold Graph.exportAdjacencyList
    rw [hadj, List.map_map, List.map_map]
    rfl
  have hclean : ∀ r ∈ rows, CleanLabel r.1 ∧ ∀ t ∈ r.2, CleanLabel t := by
    intro r hr
    obtain ⟨k, hk, rfl⟩ := List.mem_map.1 hr
    refine ⟨(hstr k hk).2, ?_⟩
    intro t ht
    obtain ⟨n, hn, rfl⟩ := List.mem_map.1 ht
    exact (hstr n (hpush_keys k n ((mem_nbrs _ _ _).1 hn)).2).2
  have hrne : rows ≠ [] := by
    intro e
    exact hne (List.map_eq_nil_iff.1 e)
  have hlines := adjText_lines rows hrne hclean
  rw [← hexp] at hlines
  have hparse := parseAdjacencyList_rows layout g0 g.exportAdjacencyList rows hlines
  obtain ⟨n1, n2, n3⟩ := addNodesFrom_spec layout (rows.foldl rowNodeStep []).length
    ((rows.foldl rowNodeStep []).map Ident.str) 0 g0.clear
  refine ⟨rowPairs rows, _, hparse, by rw [n1]; rfl, by rw [n2]; rfl, ?_, ?_, ?_⟩
  · intro id
    rw [n3]
    have hclear : g0.clear.nodes.has id = false := rfl
    simp only [hclear, Bool.false_eq_true, false_or, List.mem_map, mem_rowNodeStep_fold,
      List.not_mem_nil]
    constructor
    · rintro ⟨x, ⟨r, hr, h⟩, rfl⟩
      obtain ⟨k, hk, rfl⟩ := List.mem_map.1 hr
      rcases h with h | h
      · simp only at h
        rw [h, (hstr k hk).1]
        exact hk
      · simp only at h
        obtain ⟨n, hn, rfl⟩ := List.mem_map.1 h
        have hnk := (hpush_keys k n ((mem_nbrs _ _ _).1 hn)).2
        rw [(hstr n hnk).1]
        exact hnk
    · intro hid
      exact ⟨jsString id, ⟨_, List.mem_map.2 ⟨id, hid, rfl⟩, Or.inl rfl⟩, (hstr id hid).1⟩
  · intro p
    rw [mem_rowPairs]
    constructor
    · rintro ⟨r, hr, t, ht, rfl⟩
      obtain ⟨k, hk, rfl⟩ := List.mem_map.1 hr
      simp only at ht ⊢
      obtain ⟨n, hn, rfl⟩ := List.mem_map.1 ht
      have hkn := (mem_nbrs _ _ _).1 hn
      rw [(hstr k hk).1, (hstr n (hpush_keys k n hkn).2).1]
      exact hkn
    · intro hp
      obtain ⟨a, b⟩ := p
      obtain ⟨ha, hb⟩ := hpush_keys a b hp
      refine ⟨_, List.mem_map.2 ⟨a, ha, rfl⟩, jsString b,
        List.mem_map.2 ⟨b, (mem_nbrs _ _ _).2 hp, rfl⟩, ?_⟩
      simp only [(hstr a ha).1, (hstr b hb).1]
  · intro p hp
    rw [mem_rowPairs] at hp
    obtain ⟨r, hr, t, ht, rfl⟩ := hp
    obtain ⟨k, hk, rfl⟩ := List.mem_map.1 hr
    simp only at ht ⊢
    obtain ⟨n, hn, rfl⟩ := List.mem_map.1 ht
    have hkn := hpush_keys k n ((mem_nbrs _ _ _).1 hn)
    rw [(hstr k hk).1, (hstr n hkn.2).1]
    exact hkn

/-- C2, as stated, fails. The empty graph exports the empty text, which parses to a graph
with one node, the empty string. Nodes 1, 2, 3 created without label come back as the
strings "1", "2", "3". A node labelled "x:y" comes back as two nodes "x", "y" joined by an
edge. The nodes "a b", "c" with their edge come back as four nodes with three edges. In
undirected mode the stored edge (b, a) comes back as (a, b), and with the labels "a-b",
"c", "a", "b-c" the two stored edges come back as one. -/
theorem adjacencyList_roundtrip_counterexample :
    Graph.new.exportAdjacencyList = []
    ∧ (Graph.new.parseAdjacencyList originLayout Graph.new.exportAdjacencyList).nodes.keys
        = [Ident.str []]
    ∧ sampleChain.nodes.keys = [Ident.int 1, Ident.int 2, Ident.int 3]
    ∧ (sampleChain.parseAdjacencyList originLayout sampleChain.exportAdjacencyList).nodes.keys
        = [Ident.str ['1'], Ident.str ['2'], Ident.str ['3']]
    ∧ (colonLabel.parseAdjacencyList originLayout colonLabel.exportAdjacencyList).nodes.keys
        = [Ident.str ['x'], Ident.str ['y']]
    ∧ (colonLabel.parseAdjacencyList originLayout colonLabel.exportAdjacencyList).edges.values
        = [⟨Ident.str ['x'], Ident.str ['y']⟩]
    ∧ (spacedLabelGraph.parseAdjacencyList originLayout
        spacedLabelGraph.exportAdjacencyList).nodes.keys
        = [Ident.str ['a', ' ', 'b'], Ident.str ['c'], Ident.str ['a'], Ident.str ['b']]
    ∧ (spacedLabelGraph.parseAdjacencyList originLayout
        spacedLabelGraph.exportAdjacencyList).edges.values
        = [⟨Ident.str ['a', ' ', 'b'], Ident.str ['c']⟩, ⟨Ident.str ['c'], Ident.str ['a']⟩,
            ⟨Ident.str ['c'], Ident.str ['b']⟩]
    ∧ reversedEdge.edges.values = [⟨Ident.str ['b'], Ident.str ['a']⟩]
    ∧ (reversedEdge.parseAdjacencyList originLayout
        reversedEdge.exportAdjacencyList).edges.values = [⟨Ident.str ['a'], Ident.str ['b']⟩]
    ∧ dashGraph.edges.values
        = [⟨Ident.str ['c'], Ident.str ['a', '-', 'b']⟩,
            ⟨Ident.str ['a'], Ident.str ['b', '-', 'c']⟩]
    ∧ (dashGraph.parseAdjacencyList originLayout dashGraph.exportAdjacencyList).edges.values
        = [⟨Ident.str ['a', '-', 'b'], Ident.str ['c']⟩] := by
  refine ⟨by decide, by decide, by decide, by decide, by decide, by decide, by decide,
    by decide, by decide, by decide, by decide, by decide⟩

/-- C2, amended: for a graph with at least one node whose node identities are all clean
string labels (non-empty, without whitespace or colon), whose edges join existing nodes and
are stored under the key of their endpoints, parsing the exported adjacency list (into any
graph with the same mode) reproduces the node set; in directed mode it reproduces the set
of stored edges with their keys; in undirected mode, when no label contains a dash, it
reproduces the stored edges up to orientation. -/
theorem adjacencyList_roundtrip (layout : Layout) (g g0 : Graph) (hsafe : AdjListSafe g)
    (hd : g0.directed = g.directed) :
    (∀ id, id ∈ (g0.parseAdjacencyList layout g.exportAdjacencyList).nodes.keys
        ↔ id ∈ g.nodes.keys)
    ∧ (g.directed = true →
        ∀ p, p ∈ (g0.parseAdjacencyList layout g.exportAdjacencyList).edges.entries
          ↔ p ∈ g.edges.entries)
    ∧ (g.directed = false → DashFree g →
        ∀ a b,
          ((⟨a, b⟩ : Edge) ∈ (g0.parseAdjacencyList layout g.exportAdjacencyList).edges.values
            ∨ (⟨b, a⟩ : Edge)
              ∈ (g0.parseAdjacencyList layout g.exportAdjacencyList).edges.values)
          ↔ ((⟨a, b⟩ : Edge) ∈ g.edges.values ∨ (⟨b, a⟩ : Edge) ∈ g.edges.values))
    ∧ (g0.parseAdjacencyList layout g.exportAdjacencyList).directed = g.directed := by
  obtain ⟨P, g1, hparse, he, hdir, hnodes, hP, hPk⟩ := adjacencyList_replay layout g g0 hsafe
  obtain ⟨_, hlab, _, hc⟩ := hsafe
  rw [hparse]
  have hfn := addEdge_fold_nodes P g1
  have hhas : ∀ p ∈ P, g1.nodes.has p.1 = true ∧ g1.nodes.has p.2 = true :=
    fun p hp => ⟨(hnodes _).2 (hPk p hp).1, (hnodes _).2 (hPk p hp).2⟩
  have hval : ∀ e : Edge, e ∈ g.edges.values ↔ (edgeKey e.from_ e.to_, e) ∈ g.edges.entries := by
    intro e
    simp only [JsMap.values, List.mem_map]
    constructor
    · rintro ⟨q, hq, rfl⟩
      have := hc q hq
      rw [← this]
      exact hq
    · intro h
      exact ⟨_, h, rfl⟩
  refine ⟨?_, ?_, ?_, by rw [hfn.2, hdir, hd]⟩
  · intro id
    rw [hfn.1, ← hnodes id, JsMap.has_iff]
  · intro hdt p
    have hinj : ∀ p ∈ P, ∀ q ∈ P, edgeKey p.1 p.2 = edgeKey q.1 q.2 → p = q := by
      intro p hp q hq hk
      have h1 := (mem_pushesOf _ _ p.1 p.2).1 ((hP p).1 hp)
      have h2 := (mem_pushesOf _ _ q.1 q.2).1 ((hP q).1 hq)
      rw [hdt] at h1 h2
      simp only [Bool.true_eq_false, false_and, or_false] at h1 h2
      have e1 := (hval _).1 h1
      have e2 := (hval _).1 h2
      have := g.edges.entry_unique e1 e2 hk
      simp only [Prod.mk.injEq, Edge.mk.injEq] at this
      exact Prod.ext this.2.1 this.2.2
    rw [directed_fold P hinj P g1 (fun _ h => h) (by rw [hdir, hd, hdt]) hhas
      (by intro q hq; rw [he] at hq; cases hq) p, he]
    simp only [List.not_mem_nil, false_or]
    constructor
    · rintro ⟨x, hx, rfl⟩
      have h1 := (mem_pushesOf _ _ x.1 x.2).1 ((hP x).1 hx)
      rw [hdt] at h1
      simp only [Bool.true_eq_false, false_and, or_false] at h1
      exact (hval _).1 h1
    · intro hp
      have hpv : p.2 ∈ g.edges.values := List.mem_map.2 ⟨p, hp, rfl⟩
      refine ⟨(p.2.from_, p.2.to_), (hP _).2 ((mem_pushesOf _ _ _ _).2 (Or.inl hpv)), ?_⟩
      exact Prod.ext (hc p hp) rfl
  · intro hdf hdash a b
    obtain ⟨u1, _, u3⟩ := undirected_fold P g1 (by rw [hdir, hd, hdf]) hhas
    have hsrc : ∀ e : Edge, e ∈ (P.foldl (fun g p => g.addEdge p.1 p.2) g1).edges.values →
        (e.from_, e.to_) ∈ P := by
      intro e hev
      obtain ⟨q, hq, rfl⟩ := List.mem_map.1 hev
      rcases u1 q hq with h | ⟨x, hx, rfl⟩
      · rw [he] at h; cases h
      · exact hx
    have hkey : ∀ x y : Ident, x ∈ g.nodes.keys → y ∈ g.nodes.keys →
        (P.foldl (fun g p => g.addEdge p.1 p.2) g1).edges.has (edgeKey x y) = true →
        (⟨x, y⟩ : Edge) ∈ (P.foldl (fun g p => g.addEdge p.1 p.2) g1).edges.values := by
      intro x y hx hy hh
      rw [JsMap.has_iff] at hh
      obtain ⟨q, hq, hqk⟩ := List.mem_map.1 hh
      rcases u1 q hq with h | ⟨z, hz, rfl⟩
      · rw [he] at h; cases h
      · obtain ⟨s1, e1, _⟩ := hlab _ (hPk z hz).1
        obtain ⟨t1, e2, _⟩ := hlab _ (hPk z hz).2
        obtain ⟨s2, e3, _⟩ := hlab _ hx
        obtain ⟨t2, e4, _⟩ := hlab _ hy
        have hz1 := hdash _ (hPk z hz).1 s1 e1
        have hx1 := hdash _ hx s2 e3
        simp only [e1, e2, e3, e4] at hqk
        obtain ⟨h1, h2⟩ := edgeKey_str_inj s1 t1 s2 t2 hz1 hx1 hqk
        refine List.mem_map.2 ⟨_, hq, ?_⟩
        simp only [e1, e2, e3, e4, h1, h2]
    have hfwd : ∀ x y : Ident, (x, y) ∈ P →
        (⟨x, y⟩ : Edge) ∈ (P.foldl (fun g p => g.addEdge p.1 p.2) g1).edges.values
        ∨ (⟨y, x⟩ : Edge) ∈ (P.foldl (fun g p => g.addEdge p.1 p.2) g1).edges.values := by
      intro x y hxy
      have hk := hPk _ hxy
      rcases u3 _ hxy with h | h
      · exact Or.inl (hkey x y hk.1 hk.2 h)
      · exact Or.inr (hkey y x hk.2 hk.1 h)
    have hPiff : ∀ x y : Ident, (x, y) ∈ P
        ↔ ((⟨x, y⟩ : Edge) ∈ g.edges.values ∨ (⟨y, x⟩ : Edge) ∈ g.edges.values) := by
      intro x y
      rw [hP, mem_pushesOf, hdf]
      simp
    constructor
    · rintro (h | h)
      · exact (hPiff a b).1 (hsrc _ h)
      · exact ((hPiff b a).1 (hsrc _ h)).symm
    · intro h
      exact hfwd a b ((hPiff a b).2 h)

/-- Witness for C2: the directed graph with nodes "a", "b", "c" and edges (a, b), (c, a),
and the undirected graph with nodes "a", "b" and the edge (b, a). -/
theorem adjacencyList_roundtrip_witness :
    AdjListSafe directedSample
    ∧ directedSample.exportAdjacencyList = ['a', ':', ' ', 'b', '\n', 'b', ':', ' ', '\n', 'c', ':', ' ', 'a']
    ∧ (∀ id, id ∈ (directedSample.parseAdjacencyList originLayout
          directedSample.exportAdjacencyList).nodes.keys ↔ id ∈ directedSample.nodes.keys)
    ∧ (∀ p, p ∈ (directedSample.parseAdjacencyList originLayout
          directedSample.exportAdjacencyList).edges.entries ↔ p ∈ directedSample.edges.entries)
    ∧ AdjListSafe reversedEdge ∧ DashFree reversedEdge
    ∧ (∀ a b,
        ((⟨a, b⟩ : Edge) ∈ (reversedEdge.parseAdjacencyList originLayout
            reversedEdge.exportAdjacencyList).edges.values
          ∨ (⟨b, a⟩ : Edge) ∈ (reversedEdge.parseAdjacencyList originLayout
            reversedEdge.exportAdjacencyList).edges.values)
        ↔ ((⟨a, b⟩ : Edge) ∈ reversedEdge.edges.values
          ∨ (⟨b, a⟩ : Edge) ∈ reversedEdge.edges.values)) :=
  have ca : CleanLabel ['a'] := by unfold CleanLabel; decide
  have cb : CleanLabel ['b'] := by unfold CleanLabel; decide
  have cc : CleanLabel ['c'] := by unfold CleanLabel; decide
  have h1 : AdjListSafe directedSample := by
    refine ⟨by decide, ?_, by decide, by unfold KeysConsistent; decide⟩
    intro id hid
    have hk : directedSample.nodes.keys
        = [Ident.str ['a'], Ident.str ['b'], Ident.str ['c']] := by decide
    rw [hk] at hid
    simp only [List.mem_cons, List.mem_singleton, List.not_mem_nil, or_false] at hid
    rcases hid with e | e | e <;> subst e
    · exact ⟨_, rfl, ca⟩
    · exact ⟨_, rfl, cb⟩
    · exact ⟨_, rfl, cc⟩
  have hk2 : reversedEdge.nodes.keys = [Ident.str ['a'], Ident.str ['b']] := by decide
  have h2 : AdjListSafe reversedEdge := by
    refine ⟨by decide, ?_, by decide, by unfold KeysConsistent; decide⟩
    intro id hid
    rw [hk2] at hid
    simp only [List.mem_cons, List.mem_singleton, List.not_mem_nil, or_false] at hid
    rcases hid with e | e <;> subst e
    · exact ⟨_, rfl, ca⟩
    · exact ⟨_, rfl, cb⟩
  have h3 : DashFree reversedEdge := by
    intro id hid s hs
    rw [hk2] at hid
    simp only [List.mem_cons, List.mem_singleton, List.not_mem_nil, or_false] at hid
    rcases hid with e | e <;> subst e <;> cases hs <;> decide
  ⟨h1, by decide,
    (adjacencyList_roundtrip originLayout directedSample directedSample h1 rfl).1,
    (adjacencyList_roundtrip originLayout directedSample directedSample h1 rfl).2.1 (by decide),
    h2, h3,
    (adjacencyList_roundtrip originLayout reversedEdge reversedEdge h2 rfl).2.2.1 (by decide) h3⟩

/-! ## Identity sequencing with a numeric label -/

/-- C11, as stated, fails: after three `addNode` calls without label and `addNode` with the
label "5", the node identities are 1, 2, 3, "5" and `getNextNodeId()` does not return 4. -/
theorem nextId_after_label_five_counterexample :
    threeAndFive.nodes.keys = [Ident.int 1, Ident.int 2, Ident.int 3, Ident.str ['5']]
    ∧ threeAndFive.getNextNodeId ≠ JsNum.ofInt 4 := by
  refine ⟨by decide, by decide⟩

/-- C11, amended: starting from an empty graph, three `addNode` calls without label return
1, 2, 3, the call with the explicit label "5" returns "5", and then `getNextNodeId()`
returns 6, because the label "5" converts to the number 5 and counts for the maximum. -/
theorem nextId_after_label_five :
    (Graph.new.addNode 0 0 none).1 = Ident.int 1
    ∧ ((Graph.new.addNode 0 0 none).2.addNode 0 0 none).1 = Ident.int 2
    ∧ (((Graph.new.addNode 0 0 none).2.addNode 0 0 none).2.addNode 0 0 none).1 = Ident.int 3
    ∧ ((((Graph.new.addNode 0 0 none).2.addNode 0 0 none).2.addNode 0 0 none).2.addNode 0 0
        (some (Ident.str ['5']))).1 = Ident.str ['5']
    ∧ jsNumber (Ident.str ['5']) = some (JsNum.ofInt 5)
    ∧ threeAndFive.getNextNodeId = JsNum.ofInt 6 := by
  refine ⟨by decide, by decide, by decide, by decide, by decide, by decide⟩

/-! ## Calls without effect -/

/-- C13: for a label that is already a node identity, `addNode(x, y, label)` returns the
label and leaves the whole state unchanged: nodes with their positions, labels and order,
and edges. -/
theorem addNode_existing_label (g : Graph) (x y : Int) (label : Ident)
    (h : label ∈ g.nodes.keys) : g.addNode x y (some label) = (label, g) := by
  have hh : g.nodes.has label = true := (JsMap.has_iff _ _).2 h
  simp [Graph.addNode, hh]

/-- Witness for C13: the label 2 in the sample graph with nodes 1, 2, 3. -/
theorem addNode_existing_label_witness :
    Ident.int 2 ∈ sampleChain.nodes.keys
    ∧ sampleChain.addNode 5 7 (some (Ident.int 2)) = (Ident.int 2, sampleChain) :=
  ⟨by decide, addNode_existing_label sampleChain 5 7 (Ident.int 2) (by decide)⟩

/-- C14: in either mode, when `from` or `to` is not in the node set, `addEdge(from, to)`
returns normally and leaves the whole state, nodes and edges, unchanged. -/
theorem addEdge_missing_endpoint (g : Graph) (a b : Ident)
    (h : a ∉ g.nodes.keys ∨ b ∉ g.nodes.keys) : g.addEdge a b = g := by
  unfold Graph.addEdge
  rcases h with h | h
  · rw [(JsMap.has_eq_false_iff _ _).2 h]; rfl
  · rw [(JsMap.has_eq_false_iff _ _).2 h]; simp

/-- Witness for C14: an edge from node 1 to the absent identity 9 in the sample graph. -/
theorem addEdge_missing_endpoint_witness :
    (Ident.int 1 ∉ sampleChain.nodes.keys ∨ Ident.int 9 ∉ sampleChain.nodes.keys)
    ∧ sampleChain.addEdge (Ident.int 1) (Ident.int 9) = sampleChain :=
  ⟨Or.inr (by decide),
    addEdge_missing_endpoint sampleChain (Ident.int 1) (Ident.int 9) (Or.inr (by decide))⟩

/-! ## Replace semantics of the parsers -/

theorem clear_eq_of_directed (g1 g2 : Graph) (h : g1.directed = g2.directed) :
    g1.clear = g2.clear := by
  cases g1; cases g2
  simp only [Graph.clear] at h ⊢
  simp only [h]

/-- C16: each parser replaces the graph: two prior states with the same `directed` flag,
parsed with the same layout and text, give the same state, so nodes and edges after parsing
never depend on the nodes or edges held before. -/
theorem parse_replaces (layout : Layout) (g1 g2 : Graph) (text : JStr)
    (h : g1.directed = g2.directed) :
    g1.parseEdgeList layout text = g2.parseEdgeList layout text
    ∧ g1.parseAdjacencyList layout text = g2.parseAdjacencyList layout text
    ∧ g1.parseAdjacencyMatrix layout text = g2.parseAdjacencyMatrix layout text := by
  have hc := clear_eq_of_directed g1 g2 h
  refine ⟨?_, ?_, ?_⟩
  · simp only [Graph.parseEdgeList, hc]
  · simp only [Graph.parseAdjacencyList, hc]
  · simp only [Graph.parseAdjacencyMatrix, hc]

/-- Witness for C16: the sample graph and a fresh graph, both undirected, parse the edge
list "a b" to the same state, with the nodes "a", "b" only. -/
theorem parse_replaces_witness :
    sampleChain.directed = Graph.new.directed
    ∧ (sampleChain.parseEdgeList originLayout ['a', ' ', 'b']).nodes.keys
        = [Ident.str ['a'], Ident.str ['b']]
    ∧ sampleChain.parseEdgeList originLayout ['a', ' ', 'b']
        = Graph.new.parseEdgeList originLayout ['a', ' ', 'b'] :=
  ⟨by decide, by decide,
    (parse_replaces originLayout sampleChain Graph.new ['a', ' ', 'b'] (by decide)).1⟩

/-! ## Default identity sequence -/

theorem Ident.int_inj (a b : Int) (h : Ident.int a = Ident.int b) : a = b := by
  simpa [Ident.int, JsNum.ofInt, Dec.ofInt] using h

theorem mem_intIds (start count : Nat) (z : Int) :
    Ident.int z ∈ intIds start count ↔ ∃ i : Nat, z = i ∧ start ≤ i ∧ i < start + count := by
  unfold intIds
  simp only [List.mem_map, List.mem_range'_1]
  constructor
  · rintro ⟨i, hi, e⟩
    exact ⟨i, (Ident.int_inj _ _ e).symm, hi⟩
  · rintro ⟨i, rfl, hi⟩
    exact ⟨i, hi, rfl⟩

theorem intIds_succ (start count : Nat) :
    intIds start (count + 1) = intIds start count ++ [Ident.int ((start + count : Nat) : Int)] := by
  unfold intIds
  rw [List.range'_concat]
  simp

theorem maxId_fold_intIds (count : Nat) :
    ∀ m : Nat, (intIds (m + 1) count).foldl Graph.maxIdStep (JsNum.ofInt m)
      = JsNum.ofInt ((m + count : Nat) : Int) := by
  induction count with
  | zero => intro m; rfl
  | succ k ih =>
    intro m
    have hstep : Graph.maxIdStep (JsNum.ofInt m) (Ident.int ((m + 1 : Nat) : Int))
        = JsNum.ofInt ((m + 1 : Nat) : Int) := by
      unfold Graph.maxIdStep
      have : jsNumber (Ident.int ((m + 1 : Nat) : Int)) = some (JsNum.ofInt ((m + 1 : Nat) : Int)) :=
        rfl
      rw [this]
      simp only [JsNum.gt_ofInt]
      simp
    have hcons : intIds (m + 1) (k + 1)
        = Ident.int ((m + 1 : Nat) : Int) :: intIds (m + 1 + 1) k := by
      simp [intIds, List.range'_succ]
    rw [hcons, List.foldl_cons, hstep, ih (m + 1)]
    congr 2
    omega

theorem getNextNodeId_intIds (g : Graph) (k : Nat) (h : g.nodes.keys = intIds 1 k) :
    g.getNextNodeId = JsNum.ofInt ((k + 1 : Nat) : Int) := by
  unfold Graph.getNextNodeId
  have hsize : g.nodes.size = k := by
    have := congrArg List.length h
    simpa [JsMap.keys, JsMap.size, intIds, List.length_range'] using this
  by_cases hk : k = 0
  · subst hk
    simp [hsize]
  · have h0 : ¬ g.nodes.size = 0 := by rw [hsize]; exact hk
    simp only [h0, if_false, h]
    have := maxId_fold_intIds k 0
    simp only [Nat.zero_add, Nat.cast_zero] at this
    rw [this, JsNum.addOne_ofInt]
    congr 1

theorem addNode_noLabel_intIds (g : Graph) (x y : Int) (k : Nat)
    (h : g.nodes.keys = intIds 1 k) :
    (g.addNode x y none).1 = Ident.int ((k + 1 : Nat) : Int)
    ∧ (g.addNode x y none).2.nodes.keys = intIds 1 (k + 1) := by
  have hid := getNextNodeId_intIds g k h
  have hnot : g.nodes.has (Ident.int ((k + 1 : Nat) : Int)) = false := by
    rw [JsMap.has_eq_false_iff, h, mem_intIds]
    rintro ⟨i, hi, h1, h2⟩
    have : ((k + 1 : Nat) : Int) = (i : Int) := hi
    omega
  have hnum : Ident.num g.getNextNodeId = Ident.int ((k + 1 : Nat) : Int) := by
    rw [hid]; rfl
  simp only [Graph.addNode, hnum, hnot, Bool.not_false, if_true, true_and]
  rw [JsMap.keys, JsMap.set_entries_of_not_has _ _ _ hnot, intIds_succ]
  simp only [List.map_append, List.map_cons, List.map_nil]
  rw [← JsMap.keys, h]
  congr 3
  omega

theorem addNodesNoLabel_intIds (ps : List (Int × Int)) :
    ∀ (k : Nat) (g : Graph), g.nodes.keys = intIds 1 k →
      (addNodesNoLabel ps g).1 = intIds (k + 1) ps.length
      ∧ (addNodesNoLabel ps g).2.nodes.keys = intIds 1 (k + ps.length) := by
  induction ps with
  | nil => intro k g h; exact ⟨rfl, h⟩
  | cons p rest ih =>
    intro k g h
    obtain ⟨h1, h2⟩ := addNode_noLabel_intIds g p.1 p.2 k h
    obtain ⟨r1, r2⟩ := ih (k + 1) _ h2
    simp only [addNodesNoLabel, List.length_cons]
    refine ⟨?_, ?_⟩
    · rw [h1, r1]
      simp [intIds, List.range'_succ]
    · rw [r2]
      congr 1
      omega

/-- C12: starting from a graph without nodes, `n` consecutive `addNode` calls without label
(at any positions) return the identities 1, 2, ..., n in that order and leave exactly these
n integer identities as the node set, in insertion order. -/
theorem addNode_default_sequence (ps : List (Int × Int)) (g : Graph) (h : g.nodes.keys = []) :
    (addNodesNoLabel ps g).1 = intIds 1 ps.length
    ∧ (addNodesNoLabel ps g).2.nodes.keys = intIds 1 ps.length := by
  have := addNodesNoLabel_intIds ps 0 g (by rw [h]; rfl)
  simpa using this

/-- Witness for C12: three calls on a fresh graph return 1, 2, 3. -/
theorem addNode_default_sequence_witness :
    Graph.new.nodes.keys = []
    ∧ intIds 1 3 = [Ident.int 1, Ident.int 2, Ident.int 3]
    ∧ (addNodesNoLabel [(0, 0), (10, 0), (0, 10)] Graph.new).1 = intIds 1 3
    ∧ (addNodesNoLabel [(0, 0), (10, 0), (0, 10)] Graph.new).2.nodes.keys = intIds 1 3 :=
  ⟨by decide, by decide,
    addNode_default_sequence [(0, 0), (10, 0), (0, 10)] Graph.new (by decide)⟩

/-! ## Agreement of the two forms of the default numbering -/

/-- Both forms of `addNode` agree on a labelled call, and on an unlabelled call while every
numeric value in the node set is an integer below `2 ^ 53`. -/
theorem Binary64.addNode_eq (g : Graph) (x y : Int) (label : Option Ident)
    (h : label = none → ∀ id ∈ g.nodes.keys, ∀ v, jsNumber id = some v →
      ∃ z : Int, v = JsNum.ofInt z ∧ z < 2 ^ 53) :
    Binary64.addNode g x y label = g.addNode x y label := by
  cases label with
  | some l => rfl
  | none =>
    unfold Binary64.addNode Graph.addNode
    simp only []
    rw [Binary64.getNextNodeId_eq g (h rfl)]

/-- Numbering from 1 is the same in both forms for up to `2 ^ 53` nodes: from a node set
`1 .. k`, any further unlabelled calls that keep the count at most `2 ^ 53` return the same
identities and leave the same state. -/
theorem addNodesNoLabel_binary64_eq (ps : List (Int × Int)) :
    ∀ (g : Graph) (k : Nat), g.nodes.keys = intIds 1 k → k + ps.length ≤ 2 ^ 53 →
      Binary64.addNodesNoLabel ps g = addNodesNoLabel ps g := by
  induction ps with
  | nil => intro g k _ _; rfl
  | cons p ps ih =>
    intro g k hk hlen
    simp only [List.length_cons] at hlen
    have hnum : ∀ id ∈ g.nodes.keys, ∀ v, jsNumber id = some v →
        ∃ z : Int, v = JsNum.ofInt z ∧ z < 2 ^ 53 := by
      intro id hid v hv
      rw [hk] at hid
      unfold intIds at hid
      obtain ⟨i, hi, rfl⟩ := List.mem_map.1 hid
      cases hv
      have := List.mem_range'_1.1 hi
      exact ⟨i, rfl, by omega⟩
    have e := Binary64.addNode_eq g p.1 p.2 none (fun _ => hnum)
    have hk1 := (addNode_noLabel_intIds g p.1 p.2 k hk).2
    show ((Binary64.addNode g p.1 p.2 none).1
          :: (Binary64.addNodesNoLabel ps (Binary64.addNode g p.1 p.2 none).2).1,
        (Binary64.addNodesNoLabel ps (Binary64.addNode g p.1 p.2 none).2).2)
      = ((g.addNode p.1 p.2 none).1 :: (addNodesNoLabel ps (g.addNode p.1 p.2 none).2).1,
        (addNodesNoLabel ps (g.addNode p.1 p.2 none).2).2)
    rw [e, ih _ (k + 1) hk1 (by omega)]

/-! ## Freshness of default identities -/

/-- The number returned by `getNextNodeId` is no node identity when the numeric identities
are integers below `2 ^ 53`: the sum `maxId + 1` is then at least the successor of each of
them, and rounding never crosses such an integer. -/
theorem Binary64.getNextNodeId_fresh (g : Graph)
    (h : ∀ id ∈ g.nodes.keys,
      (∃ z : Int, id = Ident.int z ∧ z < 2 ^ 53) ∨ ∃ s, id = Ident.str s) :
    Ident.num (Binary64.getNextNodeId g) ∉ g.nodes.keys := by
  intro hmem
  rcases h _ hmem with ⟨z, hz, hlt⟩ | ⟨s, hs⟩
  · have e : Binary64.getNextNodeId g = JsNum.ofInt z := by
      simpa [Ident.int] using hz
    obtain ⟨_, h0, hmax⟩ := maxId_fold g.nodes.keys (JsNum.ofInt 0)
    have hzm := hmax _ hmem (JsNum.ofInt z) (by rw [e]; rfl)
    rw [Binary64.getNextNodeId_val] at e
    cases hm : g.nodes.keys.foldl Graph.maxIdStep (JsNum.ofInt 0) with
    | negInf =>
      rw [hm] at h0
      exact absurd h0 (by decide)
    | posInf =>
      rw [hm] at e
      simp [Binary64.addOne, JsNum.ofInt] at e
    | fin d =>
      rw [hm] at e h0 hzm
      have h1 : ¬ d.toRat < (Dec.ofInt 0).toRat := by
        intro hh
        have := (Dec.gt_iff (Dec.ofInt 0) d).2 hh
        simp only [JsNum.ofInt, JsNum.gt] at h0
        rw [this] at h0
        cases h0
      have h2 : ¬ d.toRat < (Dec.ofInt z).toRat := by
        intro hh
        have := (Dec.gt_iff (Dec.ofInt z) d).2 hh
        simp only [JsNum.ofInt, JsNum.gt] at hzm
        rw [this] at hzm
        cases hzm
      rw [Dec.toRat_ofInt] at h1 h2
      push_cast at h1
      have hk := Dec.round64_ge d.addOne ((max z 0).toNat + 1) (by omega) (by omega)
        (by
          rw [Dec.toRat_addOne]
          push_cast
          have : (((max z 0).toNat : Int) : ℚ) = ((max z 0 : Int) : ℚ) := by
            congr 1
            exact Int.toNat_of_nonneg (le_max_right z 0)
          rw [Int.cast_natCast] at this
          rw [this]
          push_cast
          have h3 : max (z : ℚ) 0 ≤ d.toRat := max_le (not_lt.1 h2) (not_lt.1 h1)
          linarith)
        (Dec.ofInt z) (by simpa [Binary64.addOne, JsNum.ofInt] using e)
      rw [Dec.toRat_ofInt] at hk
      have h4 : (((max z 0).toNat + 1 : Nat) : Int) ≤ z := by exact_mod_cast hk
      omega
  · cases hs

/-- C20, as stated, fails: parsing the edge list "9007199254740991 x" and calling `addNode`
without label gives a graph whose identities are two strings and the integer 2^53; there
`addNode` without label returns 2^53 again, an identity of the node set, and adds no node. -/
theorem addNode_noLabel_counterexample :
    (Graph.new.parseEdgeList originLayout "9007199254740991 x".toList).nodes.keys
        = [Ident.str "9007199254740991".toList, Ident.str ['x']]
    ∧ bigIdGraph.nodes.keys
        = [Ident.str "9007199254740991".toList, Ident.str ['x'], Ident.int 9007199254740992]
    ∧ (Binary64.addNode bigIdGraph 0 0 none).1 = Ident.int 9007199254740992
    ∧ (Binary64.addNode bigIdGraph 0 0 none).1 ∈ bigIdGraph.nodes.keys
    ∧ (Binary64.addNode bigIdGraph 0 0 none).2.nodes.keys = bigIdGraph.nodes.keys
    ∧ (Binary64.addNode bigIdGraph 0 0 none).2.nodes.size = bigIdGraph.nodes.size := by
  refine ⟨by decide, by decide, by decide, by decide, by decide, by decide⟩

/-- C20, amended: in a graph whose node identities are integers below 2^53 or strings,
`addNode` without label returns an identity that was not in the node set; the new node is
appended after the existing ones, which are all kept, the node count grows by one and the
edges are untouched. -/
theorem addNode_noLabel_fresh (g : Graph) (x y : Int)
    (h : ∀ id ∈ g.nodes.keys,
      (∃ z : Int, id = Ident.int z ∧ z < 2 ^ 53) ∨ ∃ s, id = Ident.str s) :
    (Binary64.addNode g x y none).1 ∉ g.nodes.keys
    ∧ (∃ label, (Binary64.addNode g x y none).2.nodes.entries
        = g.nodes.entries ++ [((Binary64.addNode g x y none).1,
            ⟨(Binary64.addNode g x y none).1, x, y, 0, 0, label⟩)])
    ∧ (Binary64.addNode g x y none).2.nodes.keys
        = g.nodes.keys ++ [(Binary64.addNode g x y none).1]
    ∧ (Binary64.addNode g x y none).2.nodes.size = g.nodes.size + 1
    ∧ (Binary64.addNode g x y none).2.edges = g.edges := by
  have hfresh := Binary64.getNextNodeId_fresh g h
  have hnot : g.nodes.has (Ident.num (Binary64.getNextNodeId g)) = false :=
    (JsMap.has_eq_false_iff _ _).2 hfresh
  have hid : (Binary64.addNode g x y none).1 = Ident.num (Binary64.getNextNodeId g) := by
    simp [Binary64.addNode, hnot]
  have hent : (Binary64.addNode g x y none).2.nodes.entries
      = g.nodes.entries ++ [(Ident.num (Binary64.getNextNodeId g),
          ⟨Ident.num (Binary64.getNextNodeId g), x, y, 0, 0,
            jsString (Ident.num (Binary64.getNextNodeId g))⟩)] := by
    simp only [Binary64.addNode, hnot, Bool.not_false, if_true]
    exact JsMap.set_entries_of_not_has _ _ _ hnot
  have hedges : (Binary64.addNode g x y none).2.edges = g.edges := by
    simp only [Binary64.addNode, hnot, Bool.not_false, if_true]
  rw [hid]
  refine ⟨hfresh, ⟨_, hent⟩, ?_, ?_, hedges⟩
  · simp [JsMap.keys, hent]
  · simp [JsMap.size, hent]

/-- Witness for C20: the sample graph with the integer identities 1, 2, 3 receives node 4. -/
theorem addNode_noLabel_fresh_witness :
    (Binary64.addNode sampleChain 0 0 none).1 = Ident.int 4
    ∧ (Binary64.addNode sampleChain 0 0 none).1 ∉ sampleChain.nodes.keys
    ∧ (Binary64.addNode sampleChain 0 0 none).2.nodes.keys
        = sampleChain.nodes.keys ++ [(Binary64.addNode sampleChain 0 0 none).1] :=
  have hint : ∀ id ∈ sampleChain.nodes.keys,
      (∃ z : Int, id = Ident.int z ∧ z < 2 ^ 53) ∨ ∃ s, id = Ident.str s := by
    intro id hid
    have hk : sampleChain.nodes.keys = [Ident.int 1, Ident.int 2, Ident.int 3] := by decide
    rw [hk] at hid
    simp only [List.mem_cons, List.mem_singleton, List.not_mem_nil, or_false] at hid
    rcases hid with e | e | e
    · exact Or.inl ⟨1, e, by decide⟩
    · exact Or.inl ⟨2, e, by decide⟩
    · exact Or.inl ⟨3, e, by decide⟩
  ⟨by decide, (addNode_noLabel_fresh sampleChain 0 0 hint).1,
    (addNode_noLabel_fresh sampleChain 0 0 hint).2.2.1⟩

/-! ## No dangling edges -/

theorem addNode_keys_mono (g : Graph) (x y : Int) (label : Option Ident) (id : Ident)
    (h : id ∈ g.nodes.keys) : id ∈ (g.addNode x y label).2.nodes.keys := by
  rw [← JsMap.has_iff] at h ⊢
  simp only [Graph.addNode]
  split_ifs
  · simp only [JsMap.has_set, h, Bool.or_true]
  · exact h

theorem noDangling_addNode (g : Graph) (x y : Int) (label : Option Ident)
    (h : NoDangling g) : NoDangling (g.addNode x y label).2 := by
  intro e he
  rw [(addNode_edges g x y label).1] at he
  exact ⟨addNode_keys_mono g x y label _ (h e he).1, addNode_keys_mono g x y label _ (h e he).2⟩

theorem noDangling_addEdge (g : Graph) (a b : Ident) (h : NoDangling g) :
    NoDangling (g.addEdge a b) := by
  rcases addEdge_cases g a b with e | ⟨ha, hb, _, e⟩
  · rw [e]; exact h
  · rw [e]
    intro x hx
    obtain ⟨p, hp, rfl⟩ := List.mem_map.1 hx
    rcases (JsMap.mem_set _ _ _ p).1 hp with h1 | ⟨h1, _⟩
    · subst h1
      exact ⟨(JsMap.has_iff _ _).1 ha, (JsMap.has_iff _ _).1 hb⟩
    · exact h p.2 (List.mem_map.2 ⟨p, h1, rfl⟩)

theorem removeNode_nodes_keys (g : Graph) (id : Ident) :
    (g.removeNode id).nodes.keys = g.nodes.keys.filter (fun k => !decide (k = id)) := by
  simp only [Graph.removeNode, JsMap.keys, JsMap.delete, List.filter_map]
  rfl

theorem noDangling_removeNode (g : Graph) (id : Ident) (h : NoDangling g) :
    NoDangling (g.removeNode id) := by
  intro e he
  obtain ⟨p, hp, rfl⟩ := List.mem_map.1 he
  rw [removeNode_edges_entries] at hp
  obtain ⟨hp1, hp2⟩ := List.mem_filter.1 hp
  simp only [ne_eq, decide_eq_true_eq] at hp2
  have := h p.2 (List.mem_map.2 ⟨p, hp1, rfl⟩)
  rw [removeNode_nodes_keys]
  exact ⟨List.mem_filter.2 ⟨this.1, by simpa using hp2.1⟩,
    List.mem_filter.2 ⟨this.2, by simpa using hp2.2⟩⟩

theorem noDangling_clear (g : Graph) : NoDangling g.clear := by
  intro e he
  cases he

/-- No reachable state holds an edge whose endpoint is missing from the node set. -/
theorem noDangling_of_reachable (g : Graph) (h : Reachable g) : NoDangling g := by
  induction h with
  | new => intro e he; cases he
  | addNode g x y label _ ih => exact noDangling_addNode g x y label ih
  | removeNode g id _ ih => exact noDangling_removeNode g id ih
  | addEdge g a b _ ih => exact noDangling_addEdge g a b ih
  | clear g _ _ => exact noDangling_clear g
  | setDirected g d _ ih => exact ih
  | deleteEdgeKey g key _ ih =>
    intro e he
    obtain ⟨p, hp, rfl⟩ := List.mem_map.1 he
    exact ih p.2 (List.mem_map.2 ⟨p, ((JsMap.mem_delete _ _ _).1 hp).1, rfl⟩)
  | parseEdgeList layout g text _ ih =>
    exact parseEdgeList_closed NoDangling (fun g _ => noDangling_clear g)
      noDangling_addNode noDangling_addEdge layout g text ih
  | parseAdjacencyList layout g text _ ih =>
    exact parseAdjacencyList_closed NoDangling (fun g _ => noDangling_clear g)
      noDangling_addNode noDangling_addEdge layout g text ih
  | parseAdjacencyMatrix layout g text _ ih =>
    exact parseAdjacencyMatrix_closed NoDangling (fun g _ => noDangling_clear g)
      noDangling_addNode noDangling_addEdge layout g text ih

/-- C19: every state reachable from the empty graph through `addNode`, `addEdge`,
`removeNode`, `clear`, the three parsers, mode changes in between (and the direct deletion
of edge keys) has no dangling edge: for every stored edge, `from` and `to` are both in the
node set. -/
theorem reachable_no_dangling_edge (g : Graph) (h : Reachable g) :
    ∀ e ∈ g.edges.values, e.from_ ∈ g.nodes.keys ∧ e.to_ ∈ g.nodes.keys :=
  noDangling_of_reachable g h

/-- Witness for C19: the sample graph with nodes 1, 2, 3 and edges (1,2), (2,3), after
node 2 is removed. -/
theorem reachable_no_dangling_edge_witness :
    Reachable (sampleChain.removeNode (Ident.int 2))
    ∧ (sampleChain.removeNode (Ident.int 2)).edges.values = []
    ∧ ∀ e ∈ (sampleChain.removeNode (Ident.int 2)).edges.values,
        e.from_ ∈ (sampleChain.removeNode (Ident.int 2)).nodes.keys
        ∧ e.to_ ∈ (sampleChain.removeNode (Ident.int 2)).nodes.keys :=
  ⟨Reachable.removeNode _ _ reachable_sampleChain, by decide,
    reachable_no_dangling_edge _ (Reachable.removeNode _ _ reachable_sampleChain)⟩

/-- C15: in every reachable state, `removeNode(id)` for an identity that is not in the node
set leaves the state unchanged: the same nodes and the same edges. -/
theorem removeNode_absent (g : Graph) (h : Reachable g) (id : Ident)
    (hid : id ∉ g.nodes.keys) :
    (g.removeNode id).nodes = g.nodes ∧ (g.removeNode id).edges = g.edges
    ∧ g.removeNode id = g := by
  have hn : (g.removeNode id).nodes = g.nodes := by
    apply JsMap.ext_entries
    simp only [Graph.removeNode, JsMap.delete]
    apply List.filter_eq_self.2
    intro p hp
    have : p.1 ≠ id := fun e => hid (e ▸ List.mem_map.2 ⟨p, hp, rfl⟩)
    simp [this]
  have he : (g.removeNode id).edges = g.edges := by
    apply JsMap.ext_entries
    rw [removeNode_edges_entries]
    apply List.filter_eq_self.2
    intro p hp
    have := noDangling_of_reachable g h p.2 (List.mem_map.2 ⟨p, hp, rfl⟩)
    have h1 : p.2.from_ ≠ id := fun e => hid (e ▸ this.1)
    have h2 : p.2.to_ ≠ id := fun e => hid (e ▸ this.2)
    simp [h1, h2]
  exact ⟨hn, he, Graph.ext_fields hn he rfl⟩

/-- Witness for C15: removing the absent identity 9 from the sample graph. -/
theorem removeNode_absent_witness :
    Reachable sampleChain ∧ Ident.int 9 ∉ sampleChain.nodes.keys
    ∧ sampleChain.removeNode (Ident.int 9) = sampleChain :=
  ⟨reachable_sampleChain, by decide,
    (removeNode_absent sampleChain reachable_sampleChain (Ident.int 9) (by decide)).2.2⟩

/-! ## Lines and tokens of a text -/

theorem trim_cons_ws (w : Char) (l : JStr) (hw : isWs w = true) : trim (w :: l) = trim l := by
  unfold trim
  simp [List.dropWhile, hw]

theorem trim_eq_rdropWhile (s : JStr) : trim s = (s.dropWhile isWs).rdropWhile isWs := rfl

theorem trim_concat_ws (l : JStr) (w : Char) (hw : isWs w = true) :
    trim (l ++ [w]) = trim l := by
  induction l with
  | nil =>
    have : trim [w] = trim [] := trim_cons_ws w [] hw
    simpa using this
  | cons x xs ih =>
    by_cases hx : isWs x = true
    · rw [List.cons_append, trim_cons_ws x _ hx, trim_cons_ws x _ hx, ih]
    · have e1 : (x :: xs ++ [w]).dropWhile isWs = (x :: xs) ++ [w] := by
        simp [List.dropWhile, hx]
      have e2 : (x :: xs).dropWhile isWs = x :: xs := by
        simp [List.dropWhile, hx]
      rw [trim_eq_rdropWhile, trim_eq_rdropWhile, e1, e2,
        List.rdropWhile_concat_pos _ _ _ hw]

theorem splitChar_headI_tail (c : Char) (s : JStr) :
    splitChar c s = (splitChar c s).headI :: (splitChar c s).tail := by
  cases h : splitChar c s with
  | nil => exact absurd h (splitChar_ne_nil c s)
  | cons a as => rfl

/-- Appending a character to a text extends its last line, or opens a new empty line. -/
theorem splitChar_concat (c w : Char) (s : JStr) :
    ∃ init last, splitChar c s = init ++ [last]
      ∧ splitChar c (s ++ [w])
          = if w = c then init ++ [last] ++ [[]] else init ++ [last ++ [w]] := by
  induction s with
  | nil =>
    refine ⟨[], [], rfl, ?_⟩
    by_cases hw : w = c
    · subst hw
      simp [splitChar_cons_sep, splitChar]
    · rw [List.nil_append, splitChar_cons_ne c w [] hw]
      simp [hw, splitChar]
  | cons x xs ih =>
    obtain ⟨init, last, h1, h2⟩ := ih
    by_cases hx : x = c
    · subst hx
      refine ⟨[] :: init, last, by rw [splitChar_cons_sep, h1]; rfl, ?_⟩
      rw [List.cons_append, splitChar_cons_sep, h2]
      split <;> simp
    · cases init with
      | nil =>
        refine ⟨[], x :: last, by rw [splitChar_cons_ne c x xs hx, h1]; rfl, ?_⟩
        rw [List.cons_append, splitChar_cons_ne c x _ hx, h2]
        split <;> simp
      | cons a as =>
        refine ⟨(x :: a) :: as, last, by rw [splitChar_cons_ne c x xs hx, h1]; rfl, ?_⟩
        rw [List.cons_append, splitChar_cons_ne c x _ hx, h2]
        split <;> simp

theorem trimmedLines_cons_ws (w : Char) (s : JStr) (hw : isWs w = true) :
    trimmedLines (w :: s) = trimmedLines s := by
  unfold trimmedLines textLines
  by_cases hc : w = '\n'
  · subst hc
    rw [splitChar_cons_sep]
    simp [trim_nil]
  · rw [splitChar_cons_ne '\n' w s hc]
    conv => rhs; rw [splitChar_headI_tail '\n' s]
    simp only [List.map_cons, trim_cons_ws w _ hw]

theorem trimmedLines_concat_ws (s : JStr) (w : Char) (hw : isWs w = true) :
    trimmedLines (s ++ [w]) = trimmedLines s := by
  unfold trimmedLines textLines
  obtain ⟨init, last, h1, h2⟩ := splitChar_concat '\n' w s
  rw [h1, h2]
  by_cases hc : w = '\n'
  · simp only [hc, if_true, List.map_append, List.map_cons, List.map_nil, trim_nil,
      List.filter_append]
    simp [List.filter]
  · simp only [hc, if_false, List.map_append, List.map_cons, List.map_nil,
      trim_concat_ws last w hw]

theorem trimmedLines_dropWhile (s : JStr) : trimmedLines (s.dropWhile isWs) = trimmedLines s := by
  induction s with
  | nil => rfl
  | cons x xs ih =>
    by_cases hx : isWs x = true
    · rw [List.dropWhile_cons_of_pos hx, ih, trimmedLines_cons_ws x xs hx]
    · rw [List.dropWhile_cons_of_neg hx]

theorem trimmedLines_rdropWhile (s : JStr) :
    trimmedLines (s.rdropWhile isWs) = trimmedLines s := by
  induction s using List.reverseRecOn with
  | nil => rfl
  | append_singleton xs x ih =>
    by_cases hx : isWs x = true
    · rw [List.rdropWhile_concat_pos _ _ _ hx, ih, trimmedLines_concat_ws xs x hx]
    · rw [List.rdropWhile_concat_neg _ _ _ hx]

/-- Trimming a text changes neither its non-blank lines nor their trimmed content. -/
theorem trimmedLines_trim (text : JStr) : trimmedLines (trim text) = trimmedLines text := by
  rw [trim_eq_rdropWhile, trimmedLines_rdropWhile, trimmedLines_dropWhile]

theorem tokens_nil : tokens [] = [] := by
  simp [tokens, splitWs_nil]

theorem splitWs_headI_tail (s : JStr) : splitWs s = (splitWs s).headI :: (splitWs s).tail := by
  cases h : splitWs s with
  | nil => exact absurd h (splitWs_ne_nil s)
  | cons a t => rfl

theorem tokens_cons_ws (w : Char) (l : JStr) (hw : isWs w = true) : tokens (w :: l) = tokens l := by
  cases l with
  | nil => simp [tokens, splitWs_ws_end w hw, splitWs_nil]
  | cons y r =>
    cases hy : isWs y with
    | true => simp only [tokens, splitWs_ws_ws w y r hw hy]
    | false => simp [tokens, splitWs_ws_clean w y r hw hy]

theorem splitWs_concat_ws (w : Char) (hw : isWs w = true) (l : JStr) :
    (splitWs (l ++ [w])).headI = (splitWs l).headI
    ∧ (splitWs (l ++ [w])).tail.filter (fun t => decide (t ≠ []))
        = (splitWs l).tail.filter (fun t => decide (t ≠ [])) := by
  induction l with
  | nil => simp [splitWs_ws_end w hw, splitWs_nil]
  | cons x xs ih =>
    cases hx : isWs x with
    | false =>
      rw [List.cons_append, splitWs_cons_clean x _ hx, splitWs_cons_clean x _ hx]
      simp only [List.headI_cons, List.tail_cons]
      exact ⟨by rw [ih.1], ih.2⟩
    | true =>
      cases xs with
      | nil =>
        simp [splitWs_ws_ws x w [] hx hw, splitWs_ws_end w hw, splitWs_ws_end x hx]
      | cons y r =>
        cases hy : isWs y with
        | true =>
          rw [List.cons_append, List.cons_append, splitWs_ws_ws x y _ hx hy,
            splitWs_ws_ws x y _ hx hy]
          exact ih
        | false =>
          rw [List.cons_append, List.cons_append, splitWs_ws_clean x y _ hx hy,
            splitWs_ws_clean x y _ hx hy]
          simp only [List.headI_cons, List.tail_cons, true_and]
          rw [← List.cons_append, splitWs_headI_tail (y :: r ++ [w]), splitWs_headI_tail (y :: r),
            List.filter_cons, List.filter_cons, ih.1, ih.2]

theorem tokens_concat_ws (l : JStr) (w : Char) (hw : isWs w = true) :
    tokens (l ++ [w]) = tokens l := by
  unfold tokens
  rw [splitWs_headI_tail (l ++ [w]), splitWs_headI_tail l, List.filter_cons, List.filter_cons,
    (splitWs_concat_ws w hw l).1, (splitWs_concat_ws w hw l).2]

theorem tokens_dropWhile (s : JStr) : tokens (s.dropWhile isWs) = tokens s := by
  induction s with
  | nil => rfl
  | cons x xs ih =>
    cases hx : isWs x with
    | true => rw [List.dropWhile_cons_of_pos hx, ih, tokens_cons_ws x xs hx]
    | false => rw [List.dropWhile_cons_of_neg (by simp [hx])]

theorem tokens_rdropWhile (s : JStr) : tokens (s.rdropWhile isWs) = tokens s := by
  induction s using List.reverseRecOn with
  | nil => rfl
  | append_singleton xs x ih =>
    cases hx : isWs x with
    | true => rw [List.rdropWhile_concat_pos _ _ _ hx, ih, tokens_concat_ws xs x hx]
    | false => rw [List.rdropWhile_concat_neg _ _ _ (by simp [hx])]

theorem tokens_trim (l : JStr) : tokens (trim l) = tokens l := by
  rw [trim_eq_rdropWhile, tokens_rdropWhile, tokens_dropWhile]

theorem splitWs_pieces_ne_nil (l : JStr) :
    l ≠ [] → (∀ c, l.getLast? = some c → isWs c = false) →
      (∀ piece ∈ (splitWs l).tail, piece ≠ [])
      ∧ (startsWs l = false → (splitWs l).headI ≠ []) := by
  induction l with
  | nil => intro h; exact absurd rfl h
  | cons x xs ih =>
    intro _ hlast
    cases xs with
    | nil =>
      have hx : isWs x = false := hlast x rfl
      rw [splitWs_cons_clean x _ hx, splitWs_nil]
      simp
    | cons y r =>
      have ih2 := ih (by simp) (fun c hc => hlast c (by simpa using hc))
      cases hx : isWs x with
      | false =>
        rw [splitWs_cons_clean x _ hx]
        simp only [List.tail_cons, List.headI_cons]
        exact ⟨ih2.1, fun _ => by simp⟩
      | true =>
        cases hy : isWs y with
        | true =>
          rw [splitWs_ws_ws x y r hx hy]
          refine ⟨ih2.1, fun h => ?_⟩
          simp [startsWs, hx] at h
        | false =>
          rw [splitWs_ws_clean x y r hx hy]
          refine ⟨?_, fun h => ?_⟩
          · intro piece hp
            rw [List.tail_cons, splitWs_headI_tail (y :: r)] at hp
            rcases List.mem_cons.1 hp with rfl | hp
            · exact ih2.2 (by simp [startsWs, hy])
            · exact ih2.1 piece hp
          · simp [startsWs, hx] at h

theorem trim_head_not_ws (l : JStr) (c : Char) (h : (trim l).head? = some c) : isWs c = false := by
  rw [trim_eq_rdropWhile] at h
  obtain ⟨t, ht⟩ := List.rdropWhile_prefix isWs (l := l.dropWhile isWs)
  have h2 : (l.dropWhile isWs).head? = some c := by
    rw [← ht]
    cases hr : (l.dropWhile isWs).rdropWhile isWs with
    | nil => rw [hr] at h; simp at h
    | cons a r => rw [hr] at h; simpa using h
  have h3 := List.head?_dropWhile_not isWs l
  rw [h2] at h3
  exact h3

theorem trim_last_not_ws (l : JStr) (c : Char) (h : (trim l).getLast? = some c) :
    isWs c = false := by
  rw [trim_eq_rdropWhile] at h
  have hne : (l.dropWhile isWs).rdropWhile isWs ≠ [] := by
    intro h0; rw [h0] at h; simp at h
  have h1 := List.rdropWhile_last_not isWs (l := l.dropWhile isWs) hne
  rw [List.getLast?_eq_getLast _ hne] at h
  have : c = ((l.dropWhile isWs).rdropWhile isWs).getLast hne := by
    simpa using h.symm
  rw [this]
  simpa using h1

/-- After trimming, the whitespace split of a line yields its tokens, or the single empty
piece when the line has no token. -/
theorem splitWs_trim (l : JStr) :
    splitWs (trim l) = if tokens l = [] then [[]] else tokens l := by
  by_cases ht : trim l = []
  · have h0 : tokens l = [] := by rw [← tokens_trim, ht, tokens_nil]
    rw [ht, splitWs_nil, if_pos h0]
  · have hp := splitWs_pieces_ne_nil (trim l) ht (trim_last_not_ws l)
    have hs : startsWs (trim l) = false := by
      cases htl : trim l with
      | nil => rfl
      | cons a r =>
        exact trim_head_not_ws l a (by rw [htl]; rfl)
    have hall : ∀ piece ∈ splitWs (trim l), piece ≠ [] := by
      intro piece hm
      rw [splitWs_headI_tail (trim l)] at hm
      rcases List.mem_cons.1 hm with rfl | hm
      · exact hp.2 hs
      · exact hp.1 piece hm
    have heq : tokens l = splitWs (trim l) := by
      rw [← tokens_trim]
      unfold tokens
      exact List.filter_eq_self.2 (fun a ha => by simpa using hall a ha)
    rw [heq, if_neg (splitWs_ne_nil _)]

/-! ## Node discovery of the edge-list parser -/

theorem firstTwo_trim (l : JStr) : firstTwo (trim l) = firstTwo l := by
  unfold firstTwo
  rw [tokens_trim]

theorem firstTwo_nil : firstTwo [] = none := by
  simp [firstTwo, tokens_nil]

theorem edgeListNodeStep_eq (set : List JStr) (line : JStr) :
    Graph.edgeListNodeStep set line
      = match firstTwo line with
        | some p => Graph.setAdd (Graph.setAdd set p.1) p.2
        | none => set := by
  unfold Graph.edgeListNodeStep firstTwo
  rw [splitWs_trim]
  rcases tokens line with _ | ⟨a, _ | ⟨b, r⟩⟩ <;> simp

theorem edgeListEdgeStep_eq (g : Graph) (line : JStr) :
    Graph.edgeListEdgeStep g line
      = match firstTwo line with
        | some p => g.addEdge (.str p.1) (.str p.2)
        | none => g := by
  unfold Graph.edgeListEdgeStep firstTwo
  rw [splitWs_trim]
  rcases tokens line with _ | ⟨a, _ | ⟨b, r⟩⟩ <;> simp

theorem foldl_firstTwo {β : Type} (f : β → JStr → β) (h : β → JStr × JStr → β)
    (hf : ∀ b line, f b line = match firstTwo line with
                                | some p => h b p
                                | none => b)
    (lines : List JStr) (b : β) :
    lines.foldl f b = (lines.filterMap firstTwo).foldl h b := by
  induction lines generalizing b with
  | nil => rfl
  | cons l ls ih =>
    rw [List.foldl_cons, List.filterMap_cons, hf, ih]
    cases firstTwo l with
    | none => rfl
    | some p => rfl

theorem filterMap_firstTwo_trimmed (lines : List JStr) :
    lines.filterMap firstTwo
      = ((lines.map trim).filter (fun l => decide (l ≠ []))).filterMap firstTwo := by
  induction lines with
  | nil => rfl
  | cons l ls ih =>
    rw [List.filterMap_cons, List.map_cons, List.filter_cons]
    by_cases ht : trim l = []
    · have h0 : firstTwo l = none := by rw [← firstTwo_trim, ht, firstTwo_nil]
      simp only [h0, ht, ne_eq, not_true_eq_false, decide_False, Bool.false_eq_true, if_false]
      exact ih
    · simp only [ht, ne_eq, not_false_eq_true, decide_True, if_true, List.filterMap_cons,
        firstTwo_trim, ih]

theorem edgeListPairs_trim (text : JStr) : edgeListPairs (trim text) = edgeListPairs text := by
  unfold edgeListPairs
  rw [filterMap_firstTwo_trimmed (textLines (trim text)), filterMap_firstTwo_trimmed (textLines text)]
  exact congrArg (List.filterMap firstTwo) (trimmedLines_trim text)

theorem foldl_pairs_setAdd (pairs : List (JStr × JStr)) (set : List JStr) :
    pairs.foldl (fun s p => Graph.setAdd (Graph.setAdd s p.1) p.2) set
      = (pairs.flatMap (fun p => [p.1, p.2])).foldl Graph.setAdd set := by
  induction pairs generalizing set with
  | nil => rfl
  | cons p ps ih =>
    rw [List.foldl_cons, List.flatMap_cons, List.foldl_append, ih]
    rfl

theorem foldl_setAdd_eq (toks : List JStr) (acc : List JStr) :
    toks.foldl Graph.setAdd acc = acc ++ (firstSeen toks).filter (fun y => decide (y ∉ acc)) := by
  induction toks generalizing acc with
  | nil => simp [firstSeen]
  | cons x xs ih =>
    rw [List.foldl_cons, ih, firstSeen, List.filter_cons]
    by_cases hx : x ∈ acc
    · have hs : Graph.setAdd acc x = acc := by simp [Graph.setAdd, hx]
      rw [hs]
      simp only [hx, not_true_eq_false, decide_False, Bool.false_eq_true, if_false,
        List.filter_filter]
      congr 1
      apply List.filter_congr
      intro y _
      by_cases hy : y ∈ acc
      · simp [hy]
      · have : y ≠ x := fun e => hy (e ▸ hx)
        simp [hy, this]
    · have hs : Graph.setAdd acc x = acc ++ [x] := by simp [Graph.setAdd, hx]
      rw [hs]
      simp only [hx, not_false_eq_true, decide_True, if_true, List.filter_filter,
        List.append_assoc, List.singleton_append]
      congr 2
      apply List.filter_congr
      intro y _
      by_cases hy : y ∈ acc <;> by_cases hyx : y = x <;> simp [hy, hyx]

theorem mem_firstSeen (toks : List JStr) (x : JStr) : x ∈ firstSeen toks ↔ x ∈ toks := by
  induction toks with
  | nil => simp [firstSeen]
  | cons y ys ih =>
    simp only [firstSeen, List.mem_cons, List.mem_filter, ih]
    by_cases h : x = y <;> simp [h]

theorem firstSeen_nodup (toks : List JStr) : (firstSeen toks).Nodup := by
  induction toks with
  | nil => simp [firstSeen]
  | cons y ys ih =>
    rw [firstSeen, List.nodup_cons]
    exact ⟨by simp [List.mem_filter], ih.filter _⟩

theorem edgeList_nodeSet (text : JStr) :
    (splitChar '\n' (trim text)).foldl Graph.edgeListNodeStep []
      = firstSeen (edgeListTokens text) := by
  rw [foldl_firstTwo Graph.edgeListNodeStep
    (fun s p => Graph.setAdd (Graph.setAdd s p.1) p.2) edgeListNodeStep_eq]
  have hp : (splitChar '\n' (trim text)).filterMap firstTwo = edgeListPairs text :=
    edgeListPairs_trim text
  rw [hp, foldl_pairs_setAdd, foldl_setAdd_eq]
  simp [edgeListTokens]

theorem addNodesFrom_keys (layout : Layout) (total : Nat) (ids : List Ident) :
    ∀ (index : Nat) (g : Graph), ids.Nodup → (∀ id ∈ ids, id ∉ g.nodes.keys) →
      (Graph.addNodesFrom layout total index ids g).nodes.keys = g.nodes.keys ++ ids := by
  induction ids with
  | nil => intro index g _ _; simp [Graph.addNodesFrom]
  | cons a rest ih =>
    intro index g hnd hdis
    rw [List.nodup_cons] at hnd
    have hnot : g.nodes.has a = false :=
      (JsMap.has_eq_false_iff _ _).2 (hdis a (List.mem_cons_self _ _))
    have hkeys : (g.addNode (layout index total).1 (layout index total).2 (some a)).2.nodes.keys
        = g.nodes.keys ++ [a] := by
      simp only [Graph.addNode, hnot, Bool.not_false, if_true]
      rw [JsMap.keys, JsMap.set_entries_of_not_has _ _ _ hnot]
      simp [JsMap.keys]
    rw [Graph.addNodesFrom, ih (index + 1) _ hnd.2, hkeys]
    · simp
    · intro id hid
      rw [hkeys]
      simp only [List.mem_append, List.mem_singleton, not_or]
      refine ⟨hdis id (List.mem_cons_of_mem _ hid), ?_⟩
      rintro rfl
      exact hnd.1 hid

theorem addEdge_fold_values (P : List (Ident × Ident)) (g : Graph) :
    ∀ e ∈ (P.foldl (fun g p => g.addEdge p.1 p.2) g).edges.values,
      e ∈ g.edges.values ∨ ∃ p ∈ P, e = ⟨p.1, p.2⟩ := by
  induction P generalizing g with
  | nil => intro e he; exact Or.inl he
  | cons p rest ih =>
    intro e he
    rw [List.foldl_cons] at he
    rcases ih _ e he with h | ⟨q, hq, rfl⟩
    · rcases addEdge_cases g p.1 p.2 with h0 | ⟨_, _, _, h0⟩
      · rw [h0] at h; exact Or.inl h
      · rw [h0] at h
        simp only [JsMap.values, List.mem_map] at h ⊢
        obtain ⟨a, ha, rfl⟩ := h
        rcases (JsMap.mem_set _ _ _ _).1 ha with h1 | h1
        · exact Or.inr ⟨p, List.mem_cons_self _ _, by rw [h1]⟩
        · exact Or.inl ⟨a, h1.1, rfl⟩
    · exact Or.inr ⟨q, List.mem_cons_of_mem _ hq, rfl⟩

/-- C18: after `parseEdgeList` the node identities are exactly the distinct first and second
tokens of the lines that have at least two tokens, kept as strings, in first-seen order; the
whole result is obtained from those token pairs alone, so a line with fewer than two tokens adds
no node and no edge and tokens beyond the second play no part; every stored edge joins the two
tokens of such a line. -/
theorem parseEdgeList_nodes_first_seen (layout : Layout) (g : Graph) (text : JStr) :
    (g.parseEdgeList layout text).nodes.keys = (firstSeen (edgeListTokens text)).map Ident.str
    ∧ g.parseEdgeList layout text
        = (edgeListPairs text).foldl (fun g p => g.addEdge (Ident.str p.1) (Ident.str p.2))
            (Graph.addNodesFrom layout (firstSeen (edgeListTokens text)).length 0
              ((firstSeen (edgeListTokens text)).map Ident.str) g.clear)
    ∧ (∀ e ∈ (g.parseEdgeList layout text).edges.values,
        ∃ p ∈ edgeListPairs text, e = ⟨Ident.str p.1, Ident.str p.2⟩)
    ∧ (edgeListPairs text = [] →
        (g.parseEdgeList layout text).nodes.keys = []
        ∧ (g.parseEdgeList layout text).edges.entries = []) := by
  have hres : g.parseEdgeList layout text
      = (edgeListPairs text).foldl (fun g p => g.addEdge (Ident.str p.1) (Ident.str p.2))
          (Graph.addNodesFrom layout (firstSeen (edgeListTokens text)).length 0
            ((firstSeen (edgeListTokens text)).map Ident.str) g.clear) := by
    unfold Graph.parseEdgeList
    simp only []
    rw [edgeList_nodeSet, foldl_firstTwo Graph.edgeListEdgeStep
      (fun g p => g.addEdge (Ident.str p.1) (Ident.str p.2)) edgeListEdgeStep_eq]
    have hp : (splitChar '\n' (trim text)).filterMap firstTwo = edgeListPairs text :=
      edgeListPairs_trim text
    rw [hp]
  have hfold : ∀ (P : List (JStr × JStr)) (g1 : Graph),
      P.foldl (fun g p => g.addEdge (Ident.str p.1) (Ident.str p.2)) g1
        = (P.map (fun p => (Ident.str p.1, Ident.str p.2))).foldl
            (fun g p => g.addEdge p.1 p.2) g1 := by
    intro P
    induction P with
    | nil => intro g1; rfl
    | cons p ps ih => intro g1; rw [List.foldl_cons, List.map_cons, List.foldl_cons, ih]
  have hnodup : ((firstSeen (edgeListTokens text)).map Ident.str).Nodup :=
    (firstSeen_nodup _).map (fun a b h => by injection h)
  have hkeys0 : (Graph.addNodesFrom layout (firstSeen (edgeListTokens text)).length 0
      ((firstSeen (edgeListTokens text)).map Ident.str) g.clear).nodes.keys
        = (firstSeen (edgeListTokens text)).map Ident.str := by
    rw [addNodesFrom_keys layout _ _ 0 g.clear hnodup (fun id _ h => by
      simp [Graph.clear, JsMap.keys, JsMap.empty] at h)]
    simp [Graph.clear, JsMap.keys, JsMap.empty]
  have hedges0 : (Graph.addNodesFrom layout (firstSeen (edgeListTokens text)).length 0
      ((firstSeen (edgeListTokens text)).map Ident.str) g.clear).edges.values = [] := by
    rw [(addNodesFrom_spec layout _ _ 0 g.clear).1]
    simp [Graph.clear, JsMap.values, JsMap.empty]
  have hk : (g.parseEdgeList layout text).nodes.keys
      = (firstSeen (edgeListTokens text)).map Ident.str := by
    rw [hres, hfold, (addEdge_fold_nodes _ _).1, hkeys0]
  refine ⟨hk, hres, ?_, ?_⟩
  · intro e he
    rw [hres, hfold] at he
    rcases addEdge_fold_values _ _ e he with h | ⟨q, hq, rfl⟩
    · rw [hedges0] at h; cases h
    · obtain ⟨p, hp, rfl⟩ := List.mem_map.1 hq
      exact ⟨p, hp, rfl⟩
  · intro hnil
    refine ⟨by rw [hk]; simp [edgeListTokens, hnil, firstSeen], ?_⟩
    rw [hres, hnil, List.foldl_nil, (addNodesFrom_spec layout _ _ 0 g.clear).1]
    simp [Graph.clear, JsMap.empty]

/-! ## The matrix parser -/

theorem trim_ne_nil_tokens (l : JStr) (h : trim l ≠ []) : splitWs (trim l) = tokens l := by
  have hs := splitWs_trim l
  by_cases ht : tokens l = []
  · exfalso
    rw [if_pos ht] at hs
    have hp := splitWs_pieces_ne_nil (trim l) h (trim_last_not_ws l)
    have hst : startsWs (trim l) = false := by
      cases htl : trim l with
      | nil => rfl
      | cons a r => exact trim_head_not_ws l a (by rw [htl]; rfl)
    have := hp.2 hst
    rw [hs] at this
    exact this rfl
  · rw [hs, if_neg ht]

theorem matrix_lines_trim (text : JStr) :
    ((splitChar '\n' (trim text)).filter (fun l => decide ((trim l).length > 0))).map trim
      = (nonBlankLines text).map trim := by
  have h1 : ∀ (L : List JStr),
      (L.filter (fun l => decide ((trim l).length > 0))).map trim
        = (L.map trim).filter (fun l => decide (l ≠ [])) := by
    intro L
    rw [List.filter_map]
    congr 1
    apply List.filter_congr
    intro l _
    simp only [Function.comp]
    generalize trim l = t
    cases t <;> simp
  have h2 : ∀ (L : List JStr),
      (L.filter (fun l => decide (trim l ≠ []))).map trim
        = (L.map trim).filter (fun l => decide (l ≠ [])) := by
    intro L
    rw [List.filter_map]
    rfl
  rw [h1, nonBlankLines, h2]
  exact trimmedLines_trim text

theorem matrix_rows_eq (text : JStr) :
    ((splitChar '\n' (trim text)).filter (fun l => decide ((trim l).length > 0))).map
        (fun l => splitWs (trim l))
      = matrixRows text := by
  have h : ∀ (L : List JStr), L.map (fun l => splitWs (trim l)) = (L.map trim).map splitWs := by
    intro L; rw [List.map_map]; rfl
  rw [h, matrix_lines_trim, matrixRows, List.map_map]
  apply List.map_congr_left
  intro l hl
  have hne : trim l ≠ [] := by
    have := (List.mem_filter.1 hl).2
    simpa using this
  exact trim_ne_nil_tokens l hne

theorem addRowEdges_eq (n i : Nat) (row : List JStr) :
    ∀ (j : Nat) (g : Graph),
      Graph.addRowEdges n i j row g
        = (rowCalls n i j row).foldl (fun g p => g.addEdge p.1 p.2) g := by
  induction row with
  | nil => intro j g; rfl
  | cons tok rest ih =>
    intro j g
    rw [Graph.addRowEdges, rowCalls]
    by_cases hj : j < n
    · rw [if_pos hj, if_pos hj, ih, List.foldl_append]
      by_cases ht : tok = ['0']
      · simp [ht]
      · simp [ht]
    · rw [if_neg hj, if_neg hj]
      rfl

theorem addMatrixEdges_eq (n : Nat) (lines : List JStr) :
    ∀ (i : Nat) (g : Graph),
      Graph.addMatrixEdges n i lines g
        = (matrixCalls n i (lines.map (fun l => splitWs (trim l)))).foldl
            (fun g p => g.addEdge p.1 p.2) g := by
  induction lines with
  | nil => intro i g; rfl
  | cons l ls ih =>
    intro i g
    rw [Graph.addMatrixEdges, List.map_cons, matrixCalls, List.foldl_append, ih, addRowEdges_eq]

theorem range_map_int (n : Nat) :
    (List.range n).map (fun i => Ident.int i) = intIds 0 n := by
  have h : ∀ l : List Nat, (l.flatMap fun a => [(a : Int)]) = l.map Int.ofNat := by
    intro l
    induction l with
    | nil => rfl
    | cons a t ih => rw [List.flatMap_cons, ih]; rfl
  unfold intIds
  rw [List.range_eq_range']
  show List.map (fun i => Ident.int i) ((List.range' 0 n).flatMap fun a => [(a : Int)]) = _
  rw [h, List.map_map]
  rfl

theorem parseAdjacencyMatrix_eq (layout : Layout) (g : Graph) (text : JStr) :
    g.parseAdjacencyMatrix layout text
      = (matrixCalls (matrixRows text).length 0 (matrixRows text)).foldl
          (fun g p => g.addEdge p.1 p.2)
          (Graph.addNodesFrom layout (matrixRows text).length 0
            (intIds 0 (matrixRows text).length) g.clear) := by
  unfold Graph.parseAdjacencyMatrix
  simp only []
  rw [addMatrixEdges_eq, matrix_rows_eq, range_map_int]
  have hlen : ((splitChar '\n' (trim text)).filter
      (fun l => decide ((trim l).length > 0))).length = (matrixRows text).length := by
    rw [← matrix_rows_eq, List.length_map]
  rw [hlen]

/-! ## Decimal digits of node numbers -/

theorem digitChar_toNat : ∀ k, k < 10 → (Nat.digitChar k).toNat = 48 + k := by decide

theorem toDigitsCore_spec (fuel : Nat) :
    ∀ (n : Nat) (ds : List Char), n < fuel →
      ∃ l, Nat.toDigitsCore 10 fuel n ds = l ++ ds
        ∧ (∀ c ∈ l, 48 ≤ c.toNat ∧ c.toNat ≤ 57)
        ∧ l.foldl (fun a c => a * 10 + (c.toNat - 48)) 0 = n := by
  induction fuel with
  | zero => intro n ds h; omega
  | succ fuel ih =>
    intro n ds h
    have hd := digitChar_toNat (n % 10) (Nat.mod_lt _ (by decide))
    rw [Nat.toDigitsCore]
    by_cases h0 : n / 10 = 0
    · simp only [h0, if_true]
      refine ⟨[Nat.digitChar (n % 10)], rfl, ?_, ?_⟩
      · intro c hc
        rw [List.mem_singleton] at hc
        subst hc
        omega
      · simp only [List.foldl_cons, List.foldl_nil, hd]
        omega
    · simp only [h0, if_false]
      obtain ⟨l, hl, hc, hv⟩ := ih (n / 10) (Nat.digitChar (n % 10) :: ds) (by omega)
      refine ⟨l ++ [Nat.digitChar (n % 10)], by rw [hl]; simp, ?_, ?_⟩
      · intro c hm
        rcases List.mem_append.1 hm with hm | hm
        · exact hc c hm
        · rw [List.mem_singleton] at hm
          subst hm
          omega
      · rw [List.foldl_append, hv]
        simp only [List.foldl_cons, List.foldl_nil, hd]
        omega

theorem jsString_nat (n : Nat) : jsString (Ident.int (n : Int)) = Nat.toDigits 10 n := by
  simp [jsString, Ident.int, JsNum.ofInt, JsNum.toJStr, Dec.ofInt, Dec.toJStr, Dec.normalize,
    Dec.normalizeAux]

theorem toDigits_spec (n : Nat) :
    '-' ∉ Nat.toDigits 10 n
    ∧ (Nat.toDigits 10 n).foldl (fun a c => a * 10 + (c.toNat - 48)) 0 = n := by
  obtain ⟨l, hl, hc, hv⟩ := toDigitsCore_spec (n + 1) n [] (Nat.lt_succ_self n)
  rw [List.append_nil] at hl
  rw [Nat.toDigits, hl]
  refine ⟨fun hm => ?_, hv⟩
  have := hc _ hm
  revert this
  decide

theorem edgeKey_nat_inj (a b c d : Nat)
    (h : edgeKey (Ident.int (a : Int)) (Ident.int (b : Int))
      = edgeKey (Ident.int (c : Int)) (Ident.int (d : Int))) : a = c ∧ b = d := by
  simp only [edgeKey, jsString_nat, List.append_assoc, List.singleton_append] at h
  obtain ⟨h1, h2⟩ := append_sep_inj '-' _ _ _ _ (toDigits_spec a).1 (toDigits_spec c).1 h
  constructor
  · rw [← (toDigits_spec a).2, h1, (toDigits_spec c).2]
  · rw [← (toDigits_spec b).2, h2, (toDigits_spec d).2]

/-! ## Calls made by the matrix parser -/

theorem mem_rowCalls (n i : Nat) (row : List JStr) (p : Ident × Ident) :
    ∀ (j : Nat), p ∈ rowCalls n i j row
      ↔ ∃ (k : Nat) (tok : JStr), row[k]? = some tok ∧ j + k < n ∧ tok ≠ ['0']
          ∧ p = (Ident.int (i : Int), Ident.int ((j + k : Nat) : Int)) := by
  induction row with
  | nil => intro j; simp [rowCalls]
  | cons tok rest ih =>
    intro j
    rw [rowCalls]
    by_cases hj : j < n
    · rw [if_pos hj, List.mem_append, ih]
      constructor
      · rintro (h | ⟨k, tok1, hk, hlt, hne, rfl⟩)
        · by_cases ht : tok = ['0']
          · simp [ht] at h
          · rw [if_pos ht, List.mem_singleton] at h
            exact ⟨0, tok, by simp, by omega, ht, h⟩
        · refine ⟨k + 1, tok1, by simpa using hk, by omega, hne, ?_⟩
          have e : j + 1 + k = j + (k + 1) := by omega
          rw [e]
      · rintro ⟨k, tok1, hk, hlt, hne, hp⟩
        cases k with
        | zero =>
          have e : tok = tok1 := by simpa using hk
          subst e
          left
          rw [if_pos hne, List.mem_singleton]
          exact hp
        | succ k =>
          right
          refine ⟨k, tok1, by simpa using hk, by omega, hne, ?_⟩
          have e : j + 1 + k = j + (k + 1) := by omega
          rw [e]
          exact hp
    · rw [if_neg hj]
      simp only [List.not_mem_nil, false_iff, not_exists, not_and]
      intro k tok1 _ hlt
      omega

theorem mem_matrixCalls (n : Nat) (rows : List (List JStr)) (p : Ident × Ident) :
    ∀ (i : Nat), p ∈ matrixCalls n i rows
      ↔ ∃ (r : Nat) (row : List JStr) (k : Nat) (tok : JStr),
          rows[r]? = some row ∧ row[k]? = some tok ∧ k < n ∧ tok ≠ ['0']
          ∧ p = (Ident.int ((i + r : Nat) : Int), Ident.int (k : Int)) := by
  induction rows with
  | nil => intro i; simp [matrixCalls]
  | cons row rest ih =>
    intro i
    rw [matrixCalls, List.mem_append, ih, mem_rowCalls]
    constructor
    · rintro (⟨k, tok, hk, hlt, hne, rfl⟩ | ⟨r, row1, k, tok, hr, hk, hlt, hne, rfl⟩)
      · exact ⟨0, row, k, tok, by simp, hk, by omega, hne, by simp⟩
      · refine ⟨r + 1, row1, k, tok, by simpa using hr, hk, hlt, hne, ?_⟩
        have e : i + 1 + r = i + (r + 1) := by omega
        rw [e]
    · rintro ⟨r, row1, k, tok, hr, hk, hlt, hne, hp⟩
      cases r with
      | zero =>
        have e : row = row1 := by simpa using hr
        subst e
        left
        exact ⟨k, tok, hk, by omega, hne, by simpa using hp⟩
      | succ r =>
        right
        refine ⟨r, row1, k, tok, by simpa using hr, hk, hlt, hne, ?_⟩
        have e : i + 1 + r = i + (r + 1) := by omega
        rw [e]
        exact hp

theorem cellOn_iff (rows : List (List JStr)) (i j : Nat) :
    cellOn rows i j = true
      ↔ ∃ (row : List JStr) (tok : JStr),
          rows[i]? = some row ∧ row[j]? = some tok ∧ j < rows.length ∧ tok ≠ ['0'] := by
  unfold cellOn
  cases hr : rows[i]? with
  | none => simp
  | some row =>
    cases ht : row[j]? with
    | none => simp [ht]
    | some tok => simp [ht]

theorem cellOn_lt (rows : List (List JStr)) (i j : Nat) (h : cellOn rows i j = true) :
    i < rows.length ∧ j < rows.length := by
  obtain ⟨row, tok, hr, _, hj, _⟩ := (cellOn_iff rows i j).1 h
  refine ⟨?_, hj⟩
  by_contra hge
  rw [List.getElem?_eq_none (by omega)] at hr
  cases hr

theorem mem_matrixCalls_cell (rows : List (List JStr)) (p : Ident × Ident) :
    p ∈ matrixCalls rows.length 0 rows
      ↔ ∃ (i j : Nat), cellOn rows i j = true ∧ p = (Ident.int (i : Int), Ident.int (j : Int)) := by
  rw [mem_matrixCalls]
  constructor
  · rintro ⟨r, row, k, tok, hr, hk, hlt, hne, hp⟩
    refine ⟨r, k, (cellOn_iff rows r k).2 ⟨row, tok, hr, hk, hlt, hne⟩, ?_⟩
    simpa using hp
  · rintro ⟨i, j, hc, hp⟩
    obtain ⟨row, tok, hr, hk, hlt, hne⟩ := (cellOn_iff rows i j).1 hc
    exact ⟨i, row, j, tok, hr, hk, hlt, hne, by simpa using hp⟩

theorem intIds_nodup (start count : Nat) : (intIds start count).Nodup := by
  unfold intIds
  refine List.Nodup.map ?_ (List.nodup_range' _ _)
  intro a b h
  exact Int.ofNat.inj (Ident.int_inj _ _ h)

theorem matrix_nodes (layout : Layout) (g : Graph) (n : Nat) :
    (Graph.addNodesFrom layout n 0 (intIds 0 n) g.clear).nodes.keys = intIds 0 n
    ∧ (Graph.addNodesFrom layout n 0 (intIds 0 n) g.clear).edges.entries = []
    ∧ (Graph.addNodesFrom layout n 0 (intIds 0 n) g.clear).directed = g.directed := by
  refine ⟨?_, ?_, ?_⟩
  · rw [addNodesFrom_keys layout n _ 0 g.clear (intIds_nodup 0 n) (fun id _ h => by
      simp [Graph.clear, JsMap.keys, JsMap.empty] at h)]
    simp [Graph.clear, JsMap.keys, JsMap.empty]
  · rw [(addNodesFrom_spec layout n _ 0 g.clear).1]
    simp [Graph.clear, JsMap.empty]
  · rw [(addNodesFrom_spec layout n _ 0 g.clear).2.1]
    rfl

theorem values_nodup_of_keysConsistent (g : Graph) (h : KeysConsistent g) :
    g.edges.values.Nodup := by
  have hk := g.edges.nodupKeys
  have he : g.edges.entries.Nodup := List.Nodup.of_map _ hk
  rw [JsMap.values]
  refine List.Nodup.map_on ?_ he
  intro x hx y hy hxy
  have h1 := h x hx
  have h2 := h y hy
  exact Prod.ext (by rw [h1, h2, hxy]) hxy

theorem undirectedRun_no_reverse (g : Graph) (h : UndirectedRun g) (a b : Ident)
    (h1 : (⟨a, b⟩ : Edge) ∈ g.edges.values) (h2 : (⟨b, a⟩ : Edge) ∈ g.edges.values) : a = b := by
  obtain ⟨_, _, hp⟩ := undirectedRun_invariant g h
  have hv : g.edges.values.Pairwise (fun e1 e2 => e2 ≠ e1 ∧ e2 ≠ e1.reverse) := by
    rw [JsMap.values, List.pairwise_map]
    exact hp
  by_contra hab
  have hne : (⟨a, b⟩ : Edge) ≠ ⟨b, a⟩ := by
    intro e
    simp only [Edge.mk.injEq] at e
    exact hab e.1
  have hsym : Symmetric (fun e1 e2 : Edge => e2 ≠ e1 ∧ e2 ≠ e1.reverse) := by
    intro e1 e2 ⟨h3, h4⟩
    refine ⟨fun e => h3 e.symm, fun e => h4 ?_⟩
    rw [e]; rfl
  exact (hv.forall hsym h1 h2 hne).2 rfl

theorem filter_pair_length_one (vs : List Edge) (hn : vs.Nodup) (a b : Ident)
    (hmem : (⟨a, b⟩ : Edge) ∈ vs ∨ (⟨b, a⟩ : Edge) ∈ vs)
    (hrev : (⟨a, b⟩ : Edge) ∈ vs → (⟨b, a⟩ : Edge) ∈ vs → a = b) :
    (vs.filter (fun e => decide (e = ⟨a, b⟩ ∨ e = ⟨b, a⟩))).length = 1 := by
  have key : ∃ x, x ∈ vs ∧ ∀ e ∈ vs, (e = ⟨a, b⟩ ∨ e = ⟨b, a⟩) ↔ e = x := by
    rcases hmem with h | h
    · refine ⟨⟨a, b⟩, h, fun e he => ⟨?_, fun h1 => Or.inl h1⟩⟩
      rintro (h1 | h1)
      · exact h1
      · have := hrev h (h1 ▸ he)
        rw [h1, this]
    · refine ⟨⟨b, a⟩, h, fun e he => ⟨?_, fun h1 => Or.inr h1⟩⟩
      rintro (h1 | h1)
      · have := hrev (h1 ▸ he) h
        rw [h1, this]
      · exact h1
  obtain ⟨x, hx, hall⟩ := key
  have e1 : vs.filter (fun e => decide (e = ⟨a, b⟩ ∨ e = ⟨b, a⟩))
      = vs.filter (fun e => e == x) := by
    apply List.filter_congr
    intro e he
    have := hall e he
    by_cases hex : e = x
    · have h3 := this.2 hex
      simp only [hex] at h3 ⊢
      simp [h3]
    · have hn : ¬ (e = ⟨a, b⟩ ∨ e = ⟨b, a⟩) := fun h => hex (this.1 h)
      simp [hex, hn]
  rw [e1, ← List.countP_eq_length_filter]
  exact List.count_eq_one_of_mem hn hx

theorem matrix_calls_facts (layout : Layout) (g : Graph) (rows : List (List JStr)) :
    (∀ p ∈ matrixCalls rows.length 0 rows,
      (Graph.addNodesFrom layout rows.length 0 (intIds 0 rows.length) g.clear).nodes.has p.1 = true
      ∧ (Graph.addNodesFrom layout rows.length 0 (intIds 0 rows.length) g.clear).nodes.has p.2
          = true)
    ∧ (∀ p ∈ matrixCalls rows.length 0 rows, ∀ q ∈ matrixCalls rows.length 0 rows,
        edgeKey p.1 p.2 = edgeKey q.1 q.2 → p = q) := by
  constructor
  · intro p hp
    obtain ⟨i, j, hc, rfl⟩ := (mem_matrixCalls_cell rows p).1 hp
    obtain ⟨hi, hj⟩ := cellOn_lt rows i j hc
    rw [JsMap.has_iff, JsMap.has_iff, (matrix_nodes layout g rows.length).1]
    exact ⟨(mem_intIds 0 rows.length i).2 ⟨i, rfl, by omega, by omega⟩,
      (mem_intIds 0 rows.length j).2 ⟨j, rfl, by omega, by omega⟩⟩
  · intro p hp q hq hk
    obtain ⟨i, j, _, rfl⟩ := (mem_matrixCalls_cell rows p).1 hp
    obtain ⟨k, l, _, rfl⟩ := (mem_matrixCalls_cell rows q).1 hq
    obtain ⟨h1, h2⟩ := edgeKey_nat_inj i j k l hk
    rw [h1, h2]

/-- C17: for every text, `parseAdjacencyMatrix` yields the integer node identities
`0 .. N - 1` in that order, `N` being the number of non-blank lines; in directed mode the stored
edges are exactly the pairs `(i, j)` whose cell is on (`j < N`, row `i` has a token at `j`, and
that token is not "0"), each stored once; in undirected mode every stored edge comes from such a
cell, and for every pair with a cell on at `(i, j)` or at `(j, i)` exactly one stored edge joins
`i` and `j`. -/
theorem parseAdjacencyMatrix_nodes_edges (layout : Layout) (g : Graph) (text : JStr) :
    (g.parseAdjacencyMatrix layout text).nodes.keys = intIds 0 (nonBlankLines text).length
    ∧ (g.directed = true →
        (∀ e, e ∈ (g.parseAdjacencyMatrix layout text).edges.values
          ↔ ∃ (i j : Nat), cellOn (matrixRows text) i j = true
              ∧ e = ⟨Ident.int (i : Int), Ident.int (j : Int)⟩)
        ∧ (g.parseAdjacencyMatrix layout text).edges.values.Nodup)
    ∧ (g.directed = false →
        (∀ e ∈ (g.parseAdjacencyMatrix layout text).edges.values,
          ∃ (i j : Nat), cellOn (matrixRows text) i j = true
            ∧ e = ⟨Ident.int (i : Int), Ident.int (j : Int)⟩)
        ∧ (∀ (i j : Nat),
            cellOn (matrixRows text) i j = true ∨ cellOn (matrixRows text) j i = true →
            ((g.parseAdjacencyMatrix layout text).edges.values.filter
              (fun e => decide (e = ⟨Ident.int (i : Int), Ident.int (j : Int)⟩
                ∨ e = ⟨Ident.int (j : Int), Ident.int (i : Int)⟩))).length = 1)) := by
  have hres := parseAdjacencyMatrix_eq layout g text
  obtain ⟨hk1, he1, hd1⟩ := matrix_nodes layout g (matrixRows text).length
  obtain ⟨hnodes, hinj⟩ := matrix_calls_facts layout g (matrixRows text)
  have hlen : (matrixRows text).length = (nonBlankLines text).length := List.length_map _ _
  have hkc : KeysConsistent (g.parseAdjacencyMatrix layout text) := by
    rw [hres]
    apply foldl_closed KeysConsistent _ (fun g p h => keysConsistent_addEdge g p.1 p.2 h)
    apply addNodesFrom_closed KeysConsistent (fun g x y l h => keysConsistent_addNode g x y l h)
    exact keysConsistent_clear g
  have hnd := values_nodup_of_keysConsistent _ hkc
  refine ⟨?_, ?_, ?_⟩
  · rw [hres, (addEdge_fold_nodes _ _).1, hk1, hlen]
  · intro hdir
    refine ⟨?_, hnd⟩
    intro e
    have hdf := directed_fold _ hinj _ _ (fun p hp => hp) (hd1.trans hdir) hnodes
      (by rw [he1]; intro q hq; cases hq)
    rw [← hres] at hdf
    simp only [JsMap.values, List.mem_map]
    constructor
    · rintro ⟨q, hq, rfl⟩
      rcases (hdf q).1 hq with h | ⟨p, hp, rfl⟩
      · rw [he1] at h; cases h
      · obtain ⟨i, j, hc, rfl⟩ := (mem_matrixCalls_cell _ p).1 hp
        exact ⟨i, j, hc, rfl⟩
    · rintro ⟨i, j, hc, rfl⟩
      exact ⟨_, (hdf _).2 (Or.inr ⟨(Ident.int (i : Int), Ident.int (j : Int)),
        (mem_matrixCalls_cell _ _).2 ⟨i, j, hc, rfl⟩, rfl⟩), rfl⟩
  · intro hdir
    obtain ⟨hsub, _, hhas⟩ := undirected_fold (matrixCalls (matrixRows text).length 0
      (matrixRows text)) _ (hd1.trans hdir) hnodes
    rw [← hres] at hsub hhas
    have hfrom : ∀ e ∈ (g.parseAdjacencyMatrix layout text).edges.values,
        ∃ (i j : Nat), cellOn (matrixRows text) i j = true
          ∧ e = ⟨Ident.int (i : Int), Ident.int (j : Int)⟩ := by
      intro e he
      simp only [JsMap.values, List.mem_map] at he
      obtain ⟨q, hq, rfl⟩ := he
      rcases hsub q hq with h | ⟨p, hp, rfl⟩
      · rw [he1] at h; cases h
      · obtain ⟨i, j, hc, rfl⟩ := (mem_matrixCalls_cell _ p).1 hp
        exact ⟨i, j, hc, rfl⟩
    have hrun : UndirectedRun (g.parseAdjacencyMatrix layout text) := by
      rw [hres]
      apply foldl_closed UndirectedRun _ (fun g p h => UndirectedRun.addEdge g p.1 p.2 h)
      apply addNodesFrom_closed UndirectedRun (fun g x y l h => UndirectedRun.addNode g x y l h)
      have hnew : g.clear = Graph.new := by
        cases g
        simp only [Graph.clear, Graph.new] at hdir ⊢
        rw [hdir]
      rw [hnew]
      exact UndirectedRun.new
    have hstored : ∀ (i j : Nat), cellOn (matrixRows text) i j = true →
        ((⟨Ident.int (i : Int), Ident.int (j : Int)⟩ : Edge)
            ∈ (g.parseAdjacencyMatrix layout text).edges.values
          ∨ (⟨Ident.int (j : Int), Ident.int (i : Int)⟩ : Edge)
            ∈ (g.parseAdjacencyMatrix layout text).edges.values) := by
      intro i j hc
      have hp := (mem_matrixCalls_cell (matrixRows text)
        (Ident.int (i : Int), Ident.int (j : Int))).2 ⟨i, j, hc, rfl⟩
      rcases hhas _ hp with h | h
      · left
        obtain ⟨e, he, hk⟩ := (has_iff_exists_edge _ hkc _).1 h
        obtain ⟨a, b, _, rfl⟩ := hfrom e he
        obtain ⟨rfl, rfl⟩ := edgeKey_nat_inj a b i j hk
        exact he
      · right
        obtain ⟨e, he, hk⟩ := (has_iff_exists_edge _ hkc _).1 h
        obtain ⟨a, b, _, rfl⟩ := hfrom e he
        obtain ⟨rfl, rfl⟩ := edgeKey_nat_inj a b j i hk
        exact he
    refine ⟨hfrom, ?_⟩
    intro i j hc
    apply filter_pair_length_one _ hnd
    · rcases hc with hc | hc
      · exact hstored i j hc
      · exact (hstored j i hc).symm
    · exact undirectedRun_no_reverse _ hrun _ _

/-- Witness for C17: the text "0 1\n1 0" parsed into a fresh (undirected) graph gives the nodes
0 and 1 and the single stored edge (0, 1). -/
theorem parseAdjacencyMatrix_nodes_edges_witness :
    (Graph.new.parseAdjacencyMatrix originLayout matrixText2).nodes.keys
        = [Ident.int 0, Ident.int 1]
    ∧ (Graph.new.parseAdjacencyMatrix originLayout matrixText2).edges.values
        = [⟨Ident.int 0, Ident.int 1⟩]
    ∧ ((Graph.new.parseAdjacencyMatrix originLayout matrixText2).edges.values.filter
        (fun e => decide (e = ⟨Ident.int ((0 : Nat) : Int), Ident.int ((1 : Nat) : Int)⟩
          ∨ e = ⟨Ident.int ((1 : Nat) : Int), Ident.int ((0 : Nat) : Int)⟩))).length = 1 :=
  ⟨by decide, by decide,
    ((parseAdjacencyMatrix_nodes_edges originLayout Graph.new matrixText2).2.2 rfl).2 0 1
      (Or.inl (by decide))⟩

end GraphEditor
